import Mathlib

/-!
Segmented work-stealing worklist (`src/heap/base/worklist.h`).

A shallow embedding of `heap::base::Worklist<EntryType, MinSegmentSize>`, its
`Segment`s and its thread-local `Local` views, followed by theorems about them.

Conventions of the embedding.

* A pointer-linked list of segments (`top_`, `next_`) is a Lean `List`, head first.
* A segment is its header (`capacity_`, `index_`) and the cells `entry(0)`, `entry(1)`, ...
  written so far; the live entries are the first `index_` cells.
* `uint16_t` arithmetic is `Nat` arithmetic modulo `65536`.  The `size_t` counter `size_`
  counts heap-allocated segments and is a `Nat`; its subtraction wraps modulo `2^64`.
* A failing `DCHECK` (and a read of a cell that was never written) is the result `none`.
* The pool a view points to (`worklist_`) is passed explicitly and returned updated.
* A `bool` result with an out-parameter is an `Option`: `some e` for `true` with `*entry = e`,
  `none` for `false`.
* Callbacks may have side effects: they thread a state of type `σ`.  The callback of `Update`
  takes the entry by value and a pointer to the destination cell.
* All operations are executed sequentially; the mutex appears only in the model of the lock
  order of `Swap`.
-/

namespace HeapBase

/-! ## Segments -/

/-- A `Worklist::Segment` (with its `internal::SegmentBase` header): `capacity_`, `index_`,
and the cells `entry(0)`, `entry(1)`, ... that have been written so far. -/
structure Segment (E : Type) where
  capacity_ : Nat
  index_ : Nat
  storage : List E
deriving DecidableEq

namespace Segment

variable {E σ : Type}

/-- Method `SegmentBase::Size`. -/
def Size (s : Segment E) : Nat := s.index_

/-- Method `SegmentBase::Capacity`. -/
def Capacity (s : Segment E) : Nat := s.capacity_

/-- Method `SegmentBase::IsEmpty`: `index_ == 0`. -/
def IsEmpty (s : Segment E) : Bool := s.index_ == 0

/-- Method `SegmentBase::IsFull`: `index_ == capacity_`. -/
def IsFull (s : Segment E) : Bool := s.index_ == s.capacity_

/-- Method `SegmentBase::Clear`: `index_ = 0`; the cells are not touched. -/
def Clear (s : Segment E) : Segment E := { s with index_ := 0 }

/-- Method `Segment::Create(uint16_t min_segment_size)`: a freshly allocated segment of
exactly the requested capacity, with `index_ = 0` and no cell written. -/
def Create (min_segment_size : Nat) : Segment E :=
  { capacity_ := min_segment_size % 65536, index_ := 0, storage := [] }

/-- The live entries `entry(0) .. entry(index_ - 1)`. -/
def live (s : Segment E) : List E := s.storage.take s.index_

/-- The assignment `entry(i) = e`.  Cells are written contiguously, so `i` is at most the
number of cells written so far; writing cell `storage.length` extends the list. -/
def writeEntry (storage : List E) (i : Nat) (e : E) : List E :=
  if i < storage.length then storage.set i e else storage ++ [e]

/-- Method `Segment::Push`: `DCHECK(!IsFull()); entry(index_++) = e;`. -/
def Push (s : Segment E) (e : E) : Option (Segment E) :=
  if s.IsFull then none
  else some { s with storage := writeEntry s.storage s.index_ e,
                     index_ := (s.index_ + 1) % 65536 }

/-- Method `Segment::Pop`: `DCHECK(!IsEmpty()); *e = entry(--index_);`.  Returns the entry read and
the segment afterwards. -/
def Pop (s : Segment E) : Option (E × Segment E) :=
  if s.IsEmpty then none
  else
    match s.storage[s.index_ - 1]? with
    | some e => some (e, { s with index_ := s.index_ - 1 })
    | none => none

/-- The loop of `Segment::Update`, with `n` iterations left, loop variable `i` and the local
`new_index`.  One iteration is `if (callback(entry(i), &entry(new_index))) new_index++;`:
the callback, of type `bool(EntryType, EntryType*)`, receives the value of `entry(i)` and the
current content of the destination cell and returns its next state, the content it leaves in
the destination cell, and its `bool` result. -/
def UpdateLoop (callback : σ → E → E → σ × E × Bool) :
    Nat → Nat → Nat → σ → List E → Option (σ × Nat × List E)
  | 0, _, new_index, st, storage => some (st, new_index, storage)
  | n + 1, i, new_index, st, storage =>
    match storage[i]?, storage[new_index]? with
    | some src, some dst =>
      match callback st src dst with
      | (st1, dst1, keep) =>
        UpdateLoop callback n (i + 1) (if keep then new_index + 1 else new_index) st1
          (storage.set new_index dst1)
    | _, _ => none

/-- Method `Segment::Update`: run the loop for `i = 0 .. index_ - 1`, then `index_ = new_index`. -/
def Update (callback : σ → E → E → σ × E × Bool) (st : σ) (s : Segment E) :
    Option (σ × Segment E) :=
  match UpdateLoop callback s.index_ 0 0 st s.storage with
  | some (st1, new_index, storage1) =>
    some (st1, { s with index_ := new_index % 65536, storage := storage1 })
  | none => none

/-- The loop of `Segment::Iterate`, with `n` iterations left and loop variable `i`; one
iteration is `callback(entry(i))`. -/
def IterateLoop (callback : σ → E → σ) : Nat → Nat → σ → List E → Option σ
  | 0, _, st, _ => some st
  | n + 1, i, st, storage =>
    match storage[i]? with
    | some e => IterateLoop callback n (i + 1) (callback st e) storage
    | none => none

/-- Method `Segment::Iterate`: `callback(entry(i))` for `i = 0 .. index_ - 1`. -/
def Iterate (callback : σ → E → σ) (st : σ) (s : Segment E) : Option σ :=
  IterateLoop callback s.index_ 0 st s.storage

end Segment

/-! ## The shared pool -/

/-- The pool `Worklist`: the list of segments linked from `top_` through `next_`, and the
counter `size_`. -/
structure Worklist (E : Type) where
  top_ : List (Segment E)
  size_ : Nat
deriving DecidableEq

namespace Worklist

variable {E σ : Type}

/-- Constructor `Worklist() = default`: `top_ = nullptr`, `size_ = 0`. -/
def init : Worklist E := { top_ := [], size_ := 0 }

/-- Model of `std::atomic<size_t>::fetch_sub`: the value stored, wrapping modulo `2^64`. -/
def fetchSub (x n : Nat) : Nat :=
  if n ≤ x then x - n else (x + 2 ^ 64 - n % 2 ^ 64) % 2 ^ 64

/-- Method `Worklist::Size`: `size_.load()`. -/
def Size (w : Worklist E) : Nat := w.size_

/-- Method `Worklist::IsEmpty`: `Size() == 0`. -/
def IsEmpty (w : Worklist E) : Bool := w.Size == 0

/-- Method `Worklist::Push(Segment*)`: `DCHECK(!segment->IsEmpty())`, link the segment at the head,
`size_.fetch_add(1)`. -/
def Push (w : Worklist E) (segment : Segment E) : Option (Worklist E) :=
  if segment.IsEmpty then none
  else some { top_ := segment :: w.top_, size_ := w.size_ + 1 }

/-- Method `Worklist::Pop(Segment**)`: `false` on `top_ == nullptr`; otherwise
`DCHECK_LT(0U, size_)`, `size_.fetch_sub(1)`, unlink the head into `*segment`, `true`. -/
def Pop (w : Worklist E) : Option (Option (Segment E) × Worklist E) :=
  match w.top_ with
  | [] => some (none, w)
  | top :: next =>
    if w.size_ = 0 then none
    else some (some top, { top_ := next, size_ := fetchSub w.size_ 1 })

/-- Method `Worklist::Clear`: `size_.store(0)`, delete every linked segment, `top_ = nullptr`. -/
def Clear (_w : Worklist E) : Worklist E := { top_ := [], size_ := 0 }

/-- The loop of `Worklist::Update` over the segments from `current` on.  Returns the
callback state, the list that remains linked, and `num_deleted`.  `size_` is only read (by
`DCHECK_LT(0U, size_)`) inside the loop. -/
def UpdateLoop (callback : σ → E → E → σ × E × Bool) (size_ : Nat) :
    σ → List (Segment E) → Option (σ × List (Segment E) × Nat)
  | st, [] => some (st, [], 0)
  | st, current :: next =>
    match current.Update callback st with
    | none => none
    | some (st1, current1) =>
      if current1.IsEmpty then
        if size_ = 0 then none
        else
          match UpdateLoop callback size_ st1 next with
          | some (st2, rest, num_deleted) => some (st2, rest, num_deleted + 1)
          | none => none
      else
        match UpdateLoop callback size_ st1 next with
        | some (st2, rest, num_deleted) => some (st2, current1 :: rest, num_deleted)
        | none => none

/-- Method `Worklist::Update`: update every linked segment, unlink and delete those that became
empty, `size_.fetch_sub(num_deleted)`. -/
def Update (callback : σ → E → E → σ × E × Bool) (st : σ) (w : Worklist E) :
    Option (σ × Worklist E) :=
  match UpdateLoop callback w.size_ st w.top_ with
  | some (st1, rest, num_deleted) =>
    some (st1, { top_ := rest, size_ := fetchSub w.size_ num_deleted })
  | none => none

/-- The loop of `Worklist::Iterate`: `current->Iterate(callback)` from head to tail. -/
def IterateLoop (callback : σ → E → σ) : σ → List (Segment E) → Option σ
  | st, [] => some st
  | st, current :: next =>
    match current.Iterate callback st with
    | some st1 => IterateLoop callback st1 next
    | none => none

/-- Method `Worklist::Iterate`. -/
def Iterate (callback : σ → E → σ) (st : σ) (w : Worklist E) : Option σ :=
  IterateLoop callback st w.top_

/-- Method `Worklist::Merge(other)` for two distinct pool objects; returns `(this, other)`
afterwards.  If `other->top_` is null nothing happens; otherwise `other` is reset, the
detached list is walked to its last segment, whose `next_` becomes the old `top_` of `this`,
and `other_size` is added to `size_`. -/
def Merge (this other : Worklist E) : Worklist E × Worklist E :=
  match other.top_ with
  | [] => (this, other)
  | top :: rest =>
    ({ top_ := (top :: rest) ++ this.top_, size_ := this.size_ + other.size_ },
     { top_ := [], size_ := 0 })

/-- Method `Worklist::Swap(other)` for two distinct pool objects; returns `(this, other)`
afterwards: the two `top_` pointers and the two counters are exchanged. -/
def Swap (this other : Worklist E) : Worklist E × Worklist E :=
  ({ top_ := other.top_, size_ := other.size_ }, { top_ := this.top_, size_ := this.size_ })

/-- All entries of the pool: the live entries of its linked segments, head to tail. -/
def entries (w : Worklist E) : List E := w.top_.flatMap Segment.live

end Worklist

/-! ## Local views -/

/-- The `internal::SegmentBase*` held in a slot of an attached view: the address of the
sentinel segment, or a segment the view owns. -/
inductive Slot (E : Type) where
  | sentinel : Slot E
  | owned (s : Segment E) : Slot E
deriving DecidableEq

namespace Slot

variable {E : Type}

/-- Modelled from the spec: the sentinel object returned by
`SegmentBase::GetSentinelSegmentAddress()` is defined in `worklist.cc`, which is not among
the sources; the specification gives it capacity 0 and fill 0. -/
def sentinelCapacity : Nat := 0

/-- Method `SegmentBase::Size` through the slot pointer. -/
def Size : Slot E → Nat
  | sentinel => 0
  | owned s => s.Size

/-- Method `SegmentBase::Capacity` through the slot pointer. -/
def Capacity : Slot E → Nat
  | sentinel => sentinelCapacity
  | owned s => s.Capacity

/-- Method `SegmentBase::IsEmpty` through the slot pointer. -/
def IsEmpty : Slot E → Bool
  | sentinel => true
  | owned s => s.IsEmpty

/-- Method `SegmentBase::IsFull` through the slot pointer; the sentinel has
`index_ == capacity_`. -/
def IsFull : Slot E → Bool
  | sentinel => (0 : Nat) == sentinelCapacity
  | owned s => s.IsFull

/-- Method `SegmentBase::Clear` through the slot pointer; on the sentinel it stores the 0 that is
already there. -/
def Clear : Slot E → Slot E
  | sentinel => sentinel
  | owned s => owned s.Clear

/-- The live entries held in the slot. -/
def live : Slot E → List E
  | sentinel => []
  | owned s => s.live

end Slot

/-- An attached `Worklist::Local`: its two slots.  The pool `worklist_` points to is passed
to each operation. -/
structure Local (E : Type) where
  push_segment_ : Slot E
  pop_segment_ : Slot E
deriving DecidableEq

namespace Local

variable {E : Type}

/-- Constructor `Local(Worklist*)`: both slots are the sentinel. -/
def attach : Local E := { push_segment_ := Slot.sentinel, pop_segment_ := Slot.sentinel }

/-- Method `Local::NewSegment`: `Segment::Create(MinSegmentSize)`. -/
def NewSegment (MinSegmentSize : Nat) : Segment E := Segment.Create MinSegmentSize

/-- Method `Local::push_segment()`: `DCHECK_NE(sentinel, push_segment_)`, then the cast. -/
def push_segment (v : Local E) : Option (Segment E) :=
  match v.push_segment_ with
  | Slot.sentinel => none
  | Slot.owned s => some s

/-- Method `Local::pop_segment()`: `DCHECK_NE(sentinel, pop_segment_)`, then the cast. -/
def pop_segment (v : Local E) : Option (Segment E) :=
  match v.pop_segment_ with
  | Slot.sentinel => none
  | Slot.owned s => some s

/-- Method `Local::IsLocalEmpty`. -/
def IsLocalEmpty (v : Local E) : Bool := v.push_segment_.IsEmpty && v.pop_segment_.IsEmpty

/-- Method `Local::IsGlobalEmpty`. -/
def IsGlobalEmpty (w : Worklist E) : Bool := w.IsEmpty

/-- Method `Local::IsLocalAndGlobalEmpty`. -/
def IsLocalAndGlobalEmpty (v : Local E) (w : Worklist E) : Bool :=
  v.IsLocalEmpty && IsGlobalEmpty w

/-- Method `Local::PushSegmentSize`. -/
def PushSegmentSize (v : Local E) : Nat := v.push_segment_.Size

/-- Method `Local::PublishPushSegment`: push the slot to the pool unless it is the sentinel, then
put a new segment in the slot. -/
def PublishPushSegment (MinSegmentSize : Nat) (v : Local E) (w : Worklist E) :
    Option (Local E × Worklist E) :=
  match v.push_segment_ with
  | Slot.sentinel =>
    some ({ v with push_segment_ := Slot.owned (NewSegment MinSegmentSize) }, w)
  | Slot.owned s =>
    match w.Push s with
    | some w1 => some ({ v with push_segment_ := Slot.owned (NewSegment MinSegmentSize) }, w1)
    | none => none

/-- Method `Local::PublishPopSegment`: the same for the pop slot. -/
def PublishPopSegment (MinSegmentSize : Nat) (v : Local E) (w : Worklist E) :
    Option (Local E × Worklist E) :=
  match v.pop_segment_ with
  | Slot.sentinel =>
    some ({ v with pop_segment_ := Slot.owned (NewSegment MinSegmentSize) }, w)
  | Slot.owned s =>
    match w.Push s with
    | some w1 => some ({ v with pop_segment_ := Slot.owned (NewSegment MinSegmentSize) }, w1)
    | none => none

/-- Method `Local::StealPopSegment`: `false` if the pool reports empty or its `Pop` fails; otherwise
the old pop slot is deleted and the popped segment installed.  The `Bool` is the result. -/
def StealPopSegment (v : Local E) (w : Worklist E) : Option (Bool × Local E × Worklist E) :=
  if w.IsEmpty then some (false, v, w)
  else
    match w.Pop with
    | none => none
    | some (some new_segment, w1) =>
      some (true, { v with pop_segment_ := Slot.owned new_segment }, w1)
    | some (none, w1) => some (false, v, w1)

/-- Method `Local::Push`: publish the push slot if it is full (the sentinel is), then
`push_segment()->Push(entry)`. -/
def Push (MinSegmentSize : Nat) (v : Local E) (w : Worklist E) (entry : E) :
    Option (Local E × Worklist E) :=
  match (if v.push_segment_.IsFull then PublishPushSegment MinSegmentSize v w
         else some (v, w)) with
  | none => none
  | some (v1, w1) =>
    match v1.push_segment with
    | none => none
    | some s =>
      match s.Push entry with
      | none => none
      | some s1 => some ({ v1 with push_segment_ := Slot.owned s1 }, w1)

/-- The tail of `Local::Pop`: `pop_segment()->Pop(entry); return true;`. -/
def PopFromPopSegment (v : Local E) (w : Worklist E) :
    Option (Option E × Local E × Worklist E) :=
  match v.pop_segment with
  | none => none
  | some s =>
    match s.Pop with
    | none => none
    | some (e, s1) => some (some e, { v with pop_segment_ := Slot.owned s1 }, w)

/-- Method `Local::Pop`: if the pop slot is empty, swap the slots when the push slot is not empty,
else try to steal and return `false` when that fails; then pop from the pop slot. -/
def Pop (v : Local E) (w : Worklist E) : Option (Option E × Local E × Worklist E) :=
  if v.pop_segment_.IsEmpty then
    if !v.push_segment_.IsEmpty then
      PopFromPopSegment { push_segment_ := v.pop_segment_, pop_segment_ := v.push_segment_ } w
    else
      match StealPopSegment v w with
      | none => none
      | some (false, v1, w1) => some (none, v1, w1)
      | some (true, v1, w1) => PopFromPopSegment v1 w1
  else PopFromPopSegment v w

/-- Method `Local::Publish`: publish the push slot if it is not empty, then the pop slot if it is
not empty. -/
def Publish (MinSegmentSize : Nat) (v : Local E) (w : Worklist E) :
    Option (Local E × Worklist E) :=
  match (if !v.push_segment_.IsEmpty then PublishPushSegment MinSegmentSize v w
         else some (v, w)) with
  | none => none
  | some (v1, w1) =>
    if !v1.pop_segment_.IsEmpty then PublishPopSegment MinSegmentSize v1 w1
    else some (v1, w1)

/-- Method `Local::Clear`: `Clear()` on both slots. -/
def Clear (v : Local E) : Local E :=
  { push_segment_ := v.push_segment_.Clear, pop_segment_ := v.pop_segment_.Clear }

/-- The entries held locally: the live entries of the push slot and of the pop slot. -/
def entries (v : Local E) : List E := v.push_segment_.live ++ v.pop_segment_.live

end Local

/-! ## A pool with `n` attached views -/

/-- One call on the view with index `i`: `Local::Push(e)`, `Local::Pop(&e)` or
`Local::Publish()`. -/
inductive Op (n : Nat) (E : Type) where
  | push (i : Fin n) (e : E) : Op n E
  | pop (i : Fin n) : Op n E
  | publish (i : Fin n) : Op n E
deriving DecidableEq

/-- A pool together with the `n` views attached to it. -/
structure Sys (n : Nat) (E : Type) where
  pool : Worklist E
  views : Fin n → Local E

namespace Sys

variable {n : Nat} {E : Type}

/-- A default-constructed pool and `n` freshly attached views. -/
def init : Sys n E := { pool := Worklist.init, views := fun _ => Local.attach }

/-- The state after view `i` and the pool have been replaced. -/
def set (st : Sys n E) (i : Fin n) (v : Local E) (w : Worklist E) : Sys n E :=
  { pool := w, views := Function.update st.views i v }

/-- Execute one call; the first component is the value a successful `Pop` returned. -/
def step (MinSegmentSize : Nat) (st : Sys n E) : Op n E → Option (Option E × Sys n E)
  | Op.push i e =>
    match Local.Push MinSegmentSize (st.views i) st.pool e with
    | some (v, w) => some (none, st.set i v w)
    | none => none
  | Op.pop i =>
    match Local.Pop (st.views i) st.pool with
    | some (r, v, w) => some (r, st.set i v w)
    | none => none
  | Op.publish i =>
    match Local.Publish MinSegmentSize (st.views i) st.pool with
    | some (v, w) => some (none, st.set i v w)
    | none => none

/-- Execute a sequence of calls; returns the values returned by the successful `Pop`s, in
order, and the final state. -/
def run (MinSegmentSize : Nat) : Sys n E → List (Op n E) → Option (List E × Sys n E)
  | st, [] => some ([], st)
  | st, op :: ops =>
    match step MinSegmentSize st op with
    | none => none
    | some (r, st1) =>
      match run MinSegmentSize st1 ops with
      | none => none
      | some (popped, st2) => some (r.toList ++ popped, st2)

/-- The values passed to `Push` in a sequence of calls, in order. -/
def pushed : List (Op n E) → List E
  | [] => []
  | Op.push _ e :: ops => e :: pushed ops
  | Op.pop _ :: ops => pushed ops
  | Op.publish _ :: ops => pushed ops

/-- The entries still held: in the segments of the pool and in the slots of the views. -/
def held (st : Sys n E) : Multiset E :=
  (st.pool.entries : Multiset E) + Finset.univ.sum (fun i => ((st.views i).entries : Multiset E))

/-- The states reachable from `init` by sequential calls: `Push`, `Pop` and `Publish` on a
view (`step`), `Local::Clear` on a view, and `Clear` and `Update` (with any callback) on the
pool.  Other pools are not part of the system, so `Merge` and `Swap` with another pool do
not appear. -/
inductive Reachable (MinSegmentSize : Nat) : Sys n E → Prop where
  | init : Reachable MinSegmentSize Sys.init
  | step (st : Sys n E) (op : Op n E) (r : Option E) (st1 : Sys n E) :
      Reachable MinSegmentSize st → step MinSegmentSize st op = some (r, st1) →
      Reachable MinSegmentSize st1
  | clear (st : Sys n E) (i : Fin n) :
      Reachable MinSegmentSize st →
      Reachable MinSegmentSize (st.set i (st.views i).Clear st.pool)
  | poolClear (st : Sys n E) :
      Reachable MinSegmentSize st →
      Reachable MinSegmentSize { pool := st.pool.Clear, views := st.views }
  | poolUpdate (st : Sys n E) (σ : Type) (callback : σ → E → E → σ × E × Bool) (s0 s1 : σ)
      (w1 : Worklist E) :
      Reachable MinSegmentSize st → st.pool.Update callback s0 = some (s1, w1) →
      Reachable MinSegmentSize { pool := w1, views := st.views }

end Sys

/-! ## Well-formedness -/

/-- A segment created by `NewSegment`: capacity `MinSegmentSize`, `index_` within the
capacity, and the live cells written. -/
def Segment.WF {E : Type} (MinSegmentSize : Nat) (s : Segment E) : Prop :=
  s.capacity_ = MinSegmentSize ∧ s.index_ ≤ s.capacity_ ∧ s.index_ ≤ s.storage.length

/-- A slot holding the sentinel or a well-formed segment. -/
def Slot.WF {E : Type} (MinSegmentSize : Nat) : Slot E → Prop
  | Slot.sentinel => True
  | Slot.owned s => s.WF MinSegmentSize

/-- A view with two well-formed slots. -/
def Local.WF {E : Type} (MinSegmentSize : Nat) (v : Local E) : Prop :=
  v.push_segment_.WF MinSegmentSize ∧ v.pop_segment_.WF MinSegmentSize

/-- The pool invariant: the counter is the number of linked segments, and every linked
segment is well formed and not empty. -/
def Worklist.WF {E : Type} (MinSegmentSize : Nat) (w : Worklist E) : Prop :=
  w.size_ = w.top_.length ∧ ∀ s ∈ w.top_, s.WF MinSegmentSize ∧ 0 < s.index_

/-- The invariant of a pool with its views. -/
def Sys.WF {n : Nat} {E : Type} (MinSegmentSize : Nat) (st : Sys n E) : Prop :=
  st.pool.WF MinSegmentSize ∧ ∀ i, (st.views i).WF MinSegmentSize

/-! ## Derived descriptions of the operations -/

/-- The slot and the pool after `PublishPushSegment`/`PublishPopSegment` has been applied to
a slot on condition that the slot is not empty. -/
def publishSlot {E : Type} (M : Nat) (r : Slot E) (w : Worklist E) : Slot E × Worklist E :=
  match r with
  | Slot.sentinel => (Slot.sentinel, w)
  | Slot.owned s =>
    if s.IsEmpty then (Slot.owned s, w)
    else (Slot.owned (Segment.Create M), { top_ := s :: w.top_, size_ := w.size_ + 1 })

/-- The segment a slot hands to the pool in `Publish`: the slot's segment if the slot is not
empty, none otherwise. -/
def Slot.publishedSegment {E : Type} : Slot E → List (Segment E)
  | Slot.sentinel => []
  | Slot.owned s => if s.IsEmpty then [] else [s]

/-- The number of segments a view would hand to the pool from its push slot now. -/
def Local.pendingSegments {E : Type} (v : Local E) : Nat :=
  if v.push_segment_.Size = 0 then 0 else 1

/-! ## Sequences of calls -/

/-- The results of the `Pop` calls of a sequence of calls, in order: `some e` for `true` with
`*entry = e`, `none` for `false`. -/
def Sys.popResults {n : Nat} {E : Type} (MinSegmentSize : Nat) :
    Sys n E → List (Op n E) → Option (List (Option E))
  | _, [] => some []
  | st, op :: ops =>
    match Sys.step MinSegmentSize st op with
    | none => none
    | some (r, st1) =>
      match Sys.popResults MinSegmentSize st1 ops with
      | none => none
      | some rs =>
        some ((match op with
               | Op.pop _ => [r]
               | _ => []) ++ rs)

/-- The calls `Push(x)` for the entries `x` of a list, in order, on one view. -/
def Local.pushAll {E : Type} (MinSegmentSize : Nat) :
    Local E → Worklist E → List E → Option (Local E × Worklist E)
  | v, w, [] => some (v, w)
  | v, w, x :: xs =>
    match Local.Push MinSegmentSize v w x with
    | none => none
    | some (v1, w1) => Local.pushAll MinSegmentSize v1 w1 xs

/-- The call `Pop` repeated `k` times on one view; returns the results in order. -/
def Local.popN {E : Type} :
    Nat → Local E → Worklist E → Option (List (Option E) × Local E × Worklist E)
  | 0, v, w => some ([], v, w)
  | k + 1, v, w =>
    match Local.Pop v w with
    | none => none
    | some (r, v1, w1) =>
      match Local.popN k v1 w1 with
      | none => none
      | some (rs, v2, w2) => some (r :: rs, v2, w2)

/-- A view `L_1` attached to a fresh pool pushes `xs` and publishes; then a fresh view `L_2`
attached to the same pool calls `Pop` `xs.length + 1` times.  Returns the results of the
`Pop`s, `L_1`, `L_2` and the pool at the end. -/
def publishThenSteal {E : Type} (MinSegmentSize : Nat) (xs : List E) :
    Option (List (Option E) × Local E × Local E × Worklist E) :=
  match Local.pushAll MinSegmentSize Local.attach Worklist.init xs with
  | none => none
  | some (l1, w1) =>
    match Local.Publish MinSegmentSize l1 w1 with
    | none => none
    | some (l1p, w2) =>
      match Local.popN (xs.length + 1) Local.attach w2 with
      | none => none
      | some (rs, l2, w3) => some (rs, l1p, l2, w3)

/-- The number of `Push` calls on view `i` in a sequence of calls. -/
def Sys.pushCount {n : Nat} {E : Type} (i : Fin n) : List (Op n E) → Nat
  | [] => 0
  | Op.push j _ :: ops => (if j = i then 1 else 0) + Sys.pushCount i ops
  | Op.pop _ :: ops => Sys.pushCount i ops
  | Op.publish _ :: ops => Sys.pushCount i ops

/-- A sequence of calls, in any interleaving, in which every view pushes some entries, does
not pop, and then calls `Publish` once.  `published i` tells whether view `i` has made its
`Publish` call before the sequence starts. -/
def Sys.PushThenPublish {n : Nat} {E : Type} : (Fin n → Bool) → List (Op n E) → Prop
  | published, [] => ∀ i, published i = true
  | published, Op.push i _ :: ops => published i = false ∧ Sys.PushThenPublish published ops
  | _, Op.pop _ :: _ => False
  | published, Op.publish i :: ops =>
    published i = false ∧ Sys.PushThenPublish (Function.update published i true) ops

/-! ## Specification-side definitions and callbacks -/

/-- The specification's reading of a single view without `Publish` or steal, "exactly a
stack": the results of the `Pop` calls when `Push` puts a value on top of a stack and `Pop`
takes the top value off, returning `false` on the empty stack.  The first argument is the
stack, top first. -/
def stackPopResults {n : Nat} {E : Type} : List E → List (Op n E) → List (Option E)
  | _, [] => []
  | stack, Op.push _ e :: ops => stackPopResults (e :: stack) ops
  | [], Op.pop _ :: ops => none :: stackPopResults [] ops
  | e :: stack, Op.pop _ :: ops => some e :: stackPopResults stack ops
  | stack, Op.publish _ :: ops => stackPopResults stack ops

/-- The quotient `a / b` rounded up. -/
def ceilDiv (a b : Nat) : Nat := (a + b - 1) / b

/-- A callback for `Update` that keeps the entries satisfying `p` and, when it keeps an entry,
stores it through the destination pointer: `*out = e; return true;` or `return false;`. -/
def filterCallback {E : Type} (p : E → Bool) : Unit → E → E → Unit × E × Bool :=
  fun _ e dst => ((), (if p e then e else dst), p e)

/-- A callback for `Update` that returns `true` for the entries satisfying `p` and never
writes through the destination pointer. -/
def notStoringCallback {E : Type} (p : E → Bool) : Unit → E → E → Unit × E × Bool :=
  fun _ e dst => ((), dst, p e)

/-- The predicate "keep odd". -/
def keepOdd (e : Nat) : Bool := e % 2 == 1

/-- The predicate "keep even". -/
def keepEven (e : Nat) : Bool := e % 2 == 0

/-! ## Invariants of particular runs -/

/-- The push slot, when it is not empty, has the most recently pushed value on top. -/
def Sys.LastOnTop {E : Type} (st : Sys 1 E) (pushedSoFar : List E) : Prop :=
  ∀ s, (st.views 0).push_segment_ = Slot.owned s → s.IsEmpty = false →
    s.live.getLast? = pushedSoFar.getLast?

/-- The invariant of a run in which views push and then publish: `k i` is the number of
entries view `i` has pushed so far.  The segments linked in the pool and those pending in
push slots are together the sum of `ceil(k i / M)`. -/
def Sys.CountInv {n : Nat} {E : Type} (M : Nat) (st : Sys n E) (published : Fin n → Bool)
    (k : Fin n → Nat) : Prop :=
  st.WF M ∧
  (∀ i, (st.views i).pop_segment_.IsEmpty = true) ∧
  (∀ i, published i = false →
    (k i = 0 ∧ (st.views i).push_segment_.Size = 0) ∨
    (∃ q, k i = q * M + (st.views i).push_segment_.Size ∧
      1 ≤ (st.views i).push_segment_.Size)) ∧
  (∀ i, published i = true → (st.views i).push_segment_.Size = 0) ∧
  st.pool.size_ + Finset.univ.sum (fun i => (st.views i).pendingSegments) =
    Finset.univ.sum (fun i => ceilDiv (k i) M)

/-! ## Concrete inputs -/

/-- One view attached to a pool, after the single call `Push(7)` with `MinSegmentSize = 2`. -/
def Sys.afterPush7 : Sys 1 Nat :=
  (Sys.init : Sys 1 Nat).set 0
    { push_segment_ := Slot.owned { capacity_ := 2, index_ := 1, storage := [7] },
      pop_segment_ := Slot.sentinel }
    Worklist.init

/-- Two views: view 0 pushes 1, 2, 3 and publishes, then view 1 pops three times. -/
def pushPublishSteal : List (Op 2 Nat) :=
  [Op.push 0 1, Op.push 0 2, Op.push 0 3, Op.publish 0, Op.pop 1, Op.pop 1, Op.pop 1]

/-- The sequence Push 1, Push 2, Pop, Push 3, Pop on a single view. -/
def pushPushPopPushPop : List (Op 1 Nat) :=
  [Op.push 0 1, Op.push 0 2, Op.pop 0, Op.push 0 3, Op.pop 0]

/-- Three views pushing 3, 1 and 0 entries and then publishing, interleaved. -/
def threeViewsPushPublish : List (Op 3 Nat) :=
  [Op.push 0 1, Op.push 1 4, Op.push 0 2, Op.publish 2, Op.push 0 3, Op.publish 1,
   Op.publish 0]

/-- A pool holding the one segment `[1, 2]`. -/
def poolOneTwo : Worklist Nat :=
  { top_ := [{ capacity_ := 2, index_ := 2, storage := [1, 2] }], size_ := 1 }

/-- A pool holding the segments `[1, 2]`, `[3, 4]`, `[5, 6]`. -/
def poolOneToSix : Worklist Nat :=
  { top_ := [{ capacity_ := 2, index_ := 2, storage := [1, 2] },
             { capacity_ := 2, index_ := 2, storage := [3, 4] },
             { capacity_ := 2, index_ := 2, storage := [5, 6] }],
    size_ := 3 }

/-- A pool holding the segments `[1, 2]` and `[3]`. -/
def poolOneTwoThree : Worklist Nat :=
  { top_ := [{ capacity_ := 2, index_ := 2, storage := [1, 2] },
             { capacity_ := 2, index_ := 1, storage := [3] }],
    size_ := 2 }

/-- A pool linking the segments `[1, 2]` and `[3]`, with one attached view that holds the
unpublished entry 9 in its push slot. -/
def Sys.poolAndUnpublished : Sys 1 Nat :=
  { pool := poolOneTwoThree,
    views := fun _ =>
      { push_segment_ := Slot.owned { capacity_ := 2, index_ := 1, storage := [9] },
        pop_segment_ := Slot.sentinel } }

/-- A callback for `Iterate` that records the entries it is invoked on, in order. -/
def logCallback {E : Type} : List E → E → List E := fun log e => log ++ [e]

/-- Method `Worklist::Merge(other)` on pool objects addressed by `this` and `other` in a store
of pools; the two addresses may be the same object.  If `other->top_` is null nothing
happens.  Otherwise `other` is reset to empty (first critical section), and then `this`, read
after that reset, gets the detached list linked in front of its list and `other_size` added to
its counter (second critical section). -/
def Worklist.MergeAt {P E : Type} [DecidableEq P] (pools : P → Worklist E) (this other : P) :
    P → Worklist E :=
  match (pools other).top_ with
  | [] => pools
  | top :: rest =>
    Function.update (Function.update pools other { top_ := [], size_ := 0 }) this
      { top_ := (top :: rest) ++
          (Function.update pools other { top_ := [], size_ := 0 } this).top_,
        size_ := (Function.update pools other { top_ := [], size_ := 0 } this).size_ +
          (pools other).size_ }

/-- Method `Local::Merge(other)`: `other->Publish(); worklist_->Merge(other->worklist_);`.
The view `this` is attached to the pool at `thisPool` and `other` to the pool at `otherPool`
(possibly the same pool).  Returns `this`, `other` and the pools afterwards. -/
def Local.Merge {P E : Type} [DecidableEq P] (MinSegmentSize : Nat) (pools : P → Worklist E)
    (this : Local E) (thisPool : P) (other : Local E) (otherPool : P) :
    Option (Local E × Local E × (P → Worklist E)) :=
  match Local.Publish MinSegmentSize other (pools otherPool) with
  | none => none
  | some (other1, w1) =>
    some (this, other1, Worklist.MergeAt (Function.update pools otherPool w1) thisPool otherPool)

/-- A view holding 4 in its push slot and 5 in its pop slot. -/
def viewFourFive : Local Nat :=
  { push_segment_ := Slot.owned { capacity_ := 2, index_ := 1, storage := [4] },
    pop_segment_ := Slot.owned { capacity_ := 2, index_ := 1, storage := [5] } }

/-- Two pools: pool 0 holds `[1, 2]`, `[3]`; pool 1 holds `[1, 2]`. -/
def twoPools : Fin 2 → Worklist Nat := fun a => if a = 0 then poolOneTwoThree else poolOneTwo

/-- The call `Local::Clear` on view `i` of a pool with views: the method reads and writes the
two slots of that view only. -/
def Sys.Clear {n : Nat} {E : Type} (st : Sys n E) (i : Fin n) : Sys n E :=
  st.set i (st.views i).Clear st.pool

/-! ## The locking of `Swap` -/

/-- One operation on the lock of a pool, the pool being named by its address: the
construction of a `MutexGuard` on it (lock) or the destruction of that guard (unlock). -/
inductive LockAction where
  | acquire (pool : Nat) : LockAction
  | release (pool : Nat) : LockAction
deriving DecidableEq

/-- The lock operations of `Worklist::Swap(other)` in program order: `guard1(&lock_)`, then
`guard2(&other->lock_)`; at the end of the function the two guards are destroyed in the
reverse order of their construction. -/
def Worklist.SwapLocking (this other : Nat) : List LockAction :=
  [LockAction.acquire this, LockAction.acquire other,
   LockAction.release other, LockAction.release this]

/-- The locks a program acquires, in order. -/
def acquisitions : List LockAction → List Nat
  | [] => []
  | LockAction.acquire l :: rest => l :: acquisitions rest
  | LockAction.release _ :: rest => acquisitions rest

/-- The locks a thread holds after the first `pc` operations of its program. -/
def locksHeld (prog : List LockAction) (pc : Nat) : List Nat :=
  (prog.take pc).foldl
    (fun held action =>
      match action with
      | LockAction.acquire l => l :: held
      | LockAction.release l => held.erase l)
    []

/-- Modelled from the spec: `v8::base::Mutex` and `MutexGuard` are defined in
`src/base/platform/mutex.h`, which is not among the sources; the specification calls the
pool lock a mutual-exclusion lock on which operations block.  A thread at operation `pc` of
its program can take that step if it is an unlock, or a lock of a mutex that no thread holds
(the mutex is not recursive: the thread itself counts). -/
def canStep (prog other : List LockAction) (pc otherPc : Nat) : Bool :=
  match prog[pc]? with
  | none => false
  | some (LockAction.release _) => true
  | some (LockAction.acquire l) =>
    !(locksHeld prog pc).contains l && !(locksHeld other otherPc).contains l

/-- Two threads are deadlocked: one of them has not finished and neither can step. -/
def deadlocked (prog1 prog2 : List LockAction) (pc1 pc2 : Nat) : Bool :=
  (decide (pc1 < prog1.length) || decide (pc2 < prog2.length)) &&
    !canStep prog1 prog2 pc1 pc2 && !canStep prog2 prog1 pc2 pc1

/-- The states (one program counter per thread) two threads can reach from the start by
interleaving their steps. -/
inductive Interleaved (prog1 prog2 : List LockAction) : Nat → Nat → Prop where
  | start : Interleaved prog1 prog2 0 0
  | first (pc1 pc2 : Nat) : Interleaved prog1 prog2 pc1 pc2 →
      canStep prog1 prog2 pc1 pc2 = true → Interleaved prog1 prog2 (pc1 + 1) pc2
  | second (pc1 pc2 : Nat) : Interleaved prog1 prog2 pc1 pc2 →
      canStep prog2 prog1 pc2 pc1 = true → Interleaved prog1 prog2 pc1 (pc2 + 1)

/-! ## Pools reachable by pool operations -/

/-- The pool states reachable from a default-constructed pool by sequential calls of
`Worklist::Push` (of a non-empty segment), `Worklist::Pop`, `Clear`, `Update` (with any
callback), and `Merge` and `Swap` with another reachable pool, as the receiver or as the
argument, or `Merge` with itself. -/
inductive Worklist.Reachable {E : Type} : Worklist E → Prop where
  | init : Worklist.Reachable Worklist.init
  | push (w : Worklist E) (segment : Segment E) (w1 : Worklist E) :
      Worklist.Reachable w → w.Push segment = some w1 → Worklist.Reachable w1
  | pop (w : Worklist E) (r : Option (Segment E)) (w1 : Worklist E) :
      Worklist.Reachable w → w.Pop = some (r, w1) → Worklist.Reachable w1
  | clear (w : Worklist E) : Worklist.Reachable w → Worklist.Reachable w.Clear
  | update (w : Worklist E) (σ : Type) (callback : σ → E → E → σ × E × Bool) (s0 s1 : σ)
      (w1 : Worklist E) :
      Worklist.Reachable w → w.Update callback s0 = some (s1, w1) → Worklist.Reachable w1
  | mergeThis (w other : Worklist E) :
      Worklist.Reachable w → Worklist.Reachable other →
      Worklist.Reachable (Worklist.Merge w other).1
  | mergeOther (this w : Worklist E) :
      Worklist.Reachable this → Worklist.Reachable w →
      Worklist.Reachable (Worklist.Merge this w).2
  | mergeSelf (w : Worklist E) :
      Worklist.Reachable w → Worklist.Reachable (Worklist.MergeAt (fun _ : Unit => w) () () ())
  | swapThis (w other : Worklist E) :
      Worklist.Reachable w → Worklist.Reachable other →
      Worklist.Reachable (Worklist.Swap w other).1
  | swapOther (this w : Worklist E) :
      Worklist.Reachable this → Worklist.Reachable w →
      Worklist.Reachable (Worklist.Swap this w).2

/-! ## Several pools with attached views -/

/-- Method `Worklist::Swap(other)` on pool objects addressed by `this` and `other` in a store
of pools.  With `this == other` the second guard locks the mutex the thread already holds
and the call does not return (the specification lists `Swap` with itself among the
precondition violations): `none`.  Otherwise the `top_` pointers and the counters of the two
pools are exchanged. -/
def Worklist.SwapAt {P E : Type} [DecidableEq P] (pools : P → Worklist E) (this other : P) :
    Option (P → Worklist E) :=
  if this = other then none
  else
    some (Function.update
      (Function.update pools this { top_ := (pools other).top_, size_ := (pools other).size_ })
      other { top_ := (pools this).top_, size_ := (pools this).size_ })

/-- The state of `p` pools and `n` views; which pool a view is attached to is fixed when the
view is constructed and is given separately. -/
structure World (p n : Nat) (E : Type) where
  pools : Fin p → Worklist E
  views : Fin n → Local E

/-- Default-constructed pools and freshly attached views. -/
def World.init {p n : Nat} {E : Type} : World p n E :=
  { pools := fun _ => Worklist.init, views := fun _ => Local.attach }

/-- The states reachable from fresh pools and freshly attached views, view `i` being attached
to pool `att i`, by sequential calls of the public operations: `Push`, `Pop`, `Publish`,
`Clear` and `Merge` on a view, and `Merge`, `Swap`, `Clear` and `Update` (with any callback)
on a pool. -/
inductive World.Reachable {p n : Nat} {E : Type} (MinSegmentSize : Nat) (att : Fin n → Fin p) :
    World p n E → Prop where
  | init : World.Reachable MinSegmentSize att World.init
  | push (wd : World p n E) (i : Fin n) (e : E) (v : Local E) (w : Worklist E) :
      World.Reachable MinSegmentSize att wd →
      Local.Push MinSegmentSize (wd.views i) (wd.pools (att i)) e = some (v, w) →
      World.Reachable MinSegmentSize att
        { pools := Function.update wd.pools (att i) w, views := Function.update wd.views i v }
  | pop (wd : World p n E) (i : Fin n) (r : Option E) (v : Local E) (w : Worklist E) :
      World.Reachable MinSegmentSize att wd →
      Local.Pop (wd.views i) (wd.pools (att i)) = some (r, v, w) →
      World.Reachable MinSegmentSize att
        { pools := Function.update wd.pools (att i) w, views := Function.update wd.views i v }
  | publish (wd : World p n E) (i : Fin n) (v : Local E) (w : Worklist E) :
      World.Reachable MinSegmentSize att wd →
      Local.Publish MinSegmentSize (wd.views i) (wd.pools (att i)) = some (v, w) →
      World.Reachable MinSegmentSize att
        { pools := Function.update wd.pools (att i) w, views := Function.update wd.views i v }
  | clear (wd : World p n E) (i : Fin n) :
      World.Reachable MinSegmentSize att wd →
      World.Reachable MinSegmentSize att
        { pools := wd.pools, views := Function.update wd.views i (wd.views i).Clear }
  | merge (wd : World p n E) (i j : Fin n) (l o : Local E) (pools1 : Fin p → Worklist E) :
      World.Reachable MinSegmentSize att wd →
      Local.Merge MinSegmentSize wd.pools (wd.views i) (att i) (wd.views j) (att j) =
        some (l, o, pools1) →
      World.Reachable MinSegmentSize att
        { pools := pools1, views := Function.update wd.views j o }
  | poolMerge (wd : World p n E) (a b : Fin p) :
      World.Reachable MinSegmentSize att wd →
      World.Reachable MinSegmentSize att
        { pools := Worklist.MergeAt wd.pools a b, views := wd.views }
  | poolSwap (wd : World p n E) (a b : Fin p) (pools1 : Fin p → Worklist E) :
      World.Reachable MinSegmentSize att wd →
      Worklist.SwapAt wd.pools a b = some pools1 →
      World.Reachable MinSegmentSize att { pools := pools1, views := wd.views }
  | poolClear (wd : World p n E) (a : Fin p) :
      World.Reachable MinSegmentSize att wd →
      World.Reachable MinSegmentSize att
        { pools := Function.update wd.pools a (wd.pools a).Clear, views := wd.views }
  | poolUpdate (wd : World p n E) (a : Fin p) (σ : Type)
      (callback : σ → E → E → σ × E × Bool) (s0 s1 : σ) (w1 : Worklist E) :
      World.Reachable MinSegmentSize att wd →
      (wd.pools a).Update callback s0 = some (s1, w1) →
      World.Reachable MinSegmentSize att
        { pools := Function.update wd.pools a w1, views := wd.views }

/-- The invariant of several pools with views: every pool satisfies the pool invariant and
every view is well formed. -/
def World.WF {p n : Nat} {E : Type} (MinSegmentSize : Nat) (wd : World p n E) : Prop :=
  (∀ a, (wd.pools a).WF MinSegmentSize) ∧ ∀ i, (wd.views i).WF MinSegmentSize

/-- One pool with one attached view after `Push(1)`, with `MinSegmentSize = 2`. -/
def World.afterPush1 : World 1 1 Nat :=
  { pools := Function.update (World.init : World 1 1 Nat).pools 0 Worklist.init,
    views := Function.update (World.init : World 1 1 Nat).views 0
      { push_segment_ := Slot.owned { capacity_ := 2, index_ := 1, storage := [1] },
        pop_segment_ := Slot.sentinel } }

/-- The same after `Push(1)`, `Push(2)`. -/
def World.afterPush2 : World 1 1 Nat :=
  { pools := Function.update World.afterPush1.pools 0 Worklist.init,
    views := Function.update World.afterPush1.views 0
      { push_segment_ := Slot.owned { capacity_ := 2, index_ := 2, storage := [1, 2] },
        pop_segment_ := Slot.sentinel } }

/-- The same after `Push(1)`, `Push(2)`, `Push(3)`: the segment `[1, 2]` is linked in the
pool and the push slot holds 3. -/
def World.afterPush3 : World 1 1 Nat :=
  { pools := Function.update World.afterPush2.pools 0 poolOneTwo,
    views := Function.update World.afterPush2.views 0
      { push_segment_ := Slot.owned { capacity_ := 2, index_ := 1, storage := [3] },
        pop_segment_ := Slot.sentinel } }

/-- A callback for `Update` that, given an entry and a destination cell, either stores a
value in the destination and returns keep (`some v`), or returns drop (`none`) and leaves the
destination alone; `f` gives its next state and its decision. -/
def storingCallback {E σ : Type} (f : σ → E → σ × Option E) : σ → E → E → σ × E × Bool :=
  fun st e dst =>
    match f st e with
    | (st1, some v) => (st1, v, true)
    | (st1, none) => (st1, dst, false)

/-- The specification of `Segment::Update` as a stable filter-map: the callback is applied to
the entries in order, threading its state, and the values stored for the kept entries are
collected in order.  Returns the final state of the callback and the values. -/
def filterMapSpec {E σ : Type} (f : σ → E → σ × Option E) : σ → List E → σ × List E
  | st, [] => (st, [])
  | st, e :: es =>
    match f st e with
    | (st1, some v) => ((filterMapSpec f st1 es).1, v :: (filterMapSpec f st1 es).2)
    | (st1, none) => filterMapSpec f st1 es

/-- A callback decision that records the entries it is called on, keeps the odd ones and
stores ten times the entry. -/
def recordAndScaleOdd : List Nat → Nat → List Nat × Option Nat :=
  fun log e => (log ++ [e], if e % 2 == 1 then some (10 * e) else none)

/-- A view whose push slot is the full segment `[1, 2]` and whose pop slot is the sentinel. -/
def viewFullPush : Local Nat :=
  { push_segment_ := Slot.owned { capacity_ := 2, index_ := 2, storage := [1, 2] },
    pop_segment_ := Slot.sentinel }

/-- The values passed to `Push` on view `i` in a sequence of calls, in order. -/
def Sys.pushedOn {n : Nat} {E : Type} (i : Fin n) : List (Op n E) → List E
  | [] => []
  | Op.push j e :: ops => if j = i then e :: Sys.pushedOn i ops else Sys.pushedOn i ops
  | Op.pop _ :: ops => Sys.pushedOn i ops
  | Op.publish _ :: ops => Sys.pushedOn i ops

/-- The push slot of view `i`, when it is not empty, has on top the value most recently
pushed on that view. -/
def Sys.TopIsLastPushed {n : Nat} {E : Type} (st : Sys n E) (i : Fin n)
    (pushedSoFar : List E) : Prop :=
  ∀ s, (st.views i).push_segment_ = Slot.owned s → s.IsEmpty = false →
    s.live.getLast? = pushedSoFar.getLast?

/-- A view holding 1, 2 in its pop slot and 3 in its push slot. -/
def viewPopAndPush : Local Nat :=
  { push_segment_ := Slot.owned { capacity_ := 2, index_ := 1, storage := [3] },
    pop_segment_ := Slot.owned { capacity_ := 2, index_ := 2, storage := [1, 2] } }

/-! ## Segments reachable by segment operations -/

/-- The calls `Push(x)` for the entries `x` of a list, in order, on one segment. -/
def Segment.pushAll {E : Type} : Segment E → List E → Option (Segment E)
  | s, [] => some s
  | s, x :: xs =>
    match s.Push x with
    | none => none
    | some s1 => Segment.pushAll s1 xs

/-- The call `Pop` repeated `k` times on one segment; returns the entries read, in the order of
the calls, and the segment afterwards. -/
def Segment.popN {E : Type} : Nat → Segment E → Option (List E × Segment E)
  | 0, s => some ([], s)
  | k + 1, s =>
    match s.Pop with
    | none => none
    | some (e, s1) =>
      match Segment.popN k s1 with
      | none => none
      | some (es, s2) => some (e :: es, s2)

/-- The segments that can exist: made by `Segment::Create` with any argument and changed by
`Push` and `Pop` whose assertions pass, by `Clear`, and by `Update` with any callback.
(`Iterate` is `const`.) -/
inductive Segment.Reachable {E : Type} : Segment E → Prop where
  | create (min_segment_size : Nat) : Segment.Reachable (Segment.Create min_segment_size)
  | push (s : Segment E) (e : E) (s1 : Segment E) :
      Segment.Reachable s → s.Push e = some s1 → Segment.Reachable s1
  | pop (s : Segment E) (e : E) (s1 : Segment E) :
      Segment.Reachable s → s.Pop = some (e, s1) → Segment.Reachable s1
  | clear (s : Segment E) : Segment.Reachable s → Segment.Reachable s.Clear
  | update (s : Segment E) (σ : Type) (callback : σ → E → E → σ × E × Bool) (st st1 : σ)
      (s1 : Segment E) :
      Segment.Reachable s → s.Update callback st = some (st1, s1) → Segment.Reachable s1

/-- A segment of capacity 4 holding the entry 1, whose second cell still has the 9 left by an
earlier `Push` and `Pop`. -/
def segmentOneStale : Segment Nat := { capacity_ := 4, index_ := 1, storage := [1, 9] }

/-! ## Segment lemmas -/

section SegmentLemmas

variable {E σ : Type}

theorem take_succ_set_self (l : List E) (i : Nat) (e : E) (h : i < l.length) :
    (l.set i e).take (i + 1) = l.take i ++ [e] := by
  induction l generalizing i with
  | nil => simp at h
  | cons a l ih =>
    cases i with
    | zero => simp
    | succ i =>
      simp only [List.set_cons_succ, List.take_succ_cons, List.cons_append, List.cons.injEq,
        true_and]
      exact ih i (by simpa using h)

theorem Segment.take_writeEntry (storage : List E) (i : Nat) (e : E) (h : i ≤ storage.length) :
    (Segment.writeEntry storage i e).take (i + 1) = storage.take i ++ [e] := by
  unfold Segment.writeEntry
  split
  · next hlt => exact take_succ_set_self storage i e hlt
  · next hge =>
    have : i = storage.length := by omega
    subst this
    simp

theorem Segment.length_writeEntry (storage : List E) (i : Nat) (e : E)
    (h : i ≤ storage.length) : i + 1 ≤ (Segment.writeEntry storage i e).length := by
  unfold Segment.writeEntry
  split
  · next hlt => simpa using hlt
  · next hge => simp; omega

/-- Method `Segment::Push` on a well-formed segment that is not full. -/
theorem Segment.Push_spec (M : Nat) (hM : M < 65536) (s : Segment E) (e : E)
    (hwf : s.WF M) (hfull : s.IsFull = false) :
    ∃ s1, s.Push e = some s1 ∧ s1.WF M ∧ s1.live = s.live ++ [e] ∧
      s1.index_ = s.index_ + 1 := by
  obtain ⟨hc, hi, hs⟩ := hwf
  have hne : s.index_ ≠ s.capacity_ := by simpa [Segment.IsFull] using hfull
  have hlt : s.index_ + 1 < 65536 := by omega
  refine ⟨{ s with storage := Segment.writeEntry s.storage s.index_ e,
                   index_ := (s.index_ + 1) % 65536 }, by simp [Segment.Push, hfull], ?_, ?_, ?_⟩
  · refine ⟨hc, ?_, ?_⟩
    · simp only [Nat.mod_eq_of_lt hlt]; omega
    · simp only [Nat.mod_eq_of_lt hlt]; exact Segment.length_writeEntry _ _ _ hs
  · simp only [Segment.live, Nat.mod_eq_of_lt hlt]
    exact Segment.take_writeEntry _ _ _ hs
  · simp only [Nat.mod_eq_of_lt hlt]

/-- Method `Segment::Pop` on a well-formed segment that is not empty. -/
theorem Segment.Pop_spec (M : Nat) (s : Segment E) (hwf : s.WF M) (hne : s.IsEmpty = false) :
    ∃ e s1, s.Pop = some (e, s1) ∧ s1.WF M ∧ s.live = s1.live ++ [e] ∧
      s1.index_ + 1 = s.index_ := by
  obtain ⟨hc, hi, hs⟩ := hwf
  have hpos : s.index_ ≠ 0 := by simpa [Segment.IsEmpty] using hne
  have hlt : s.index_ - 1 < s.storage.length := by omega
  refine ⟨s.storage[s.index_ - 1], { s with index_ := s.index_ - 1 }, ?_, ?_, ?_, ?_⟩
  · simp [Segment.Pop, hne, List.getElem?_eq_getElem hlt]
  · exact ⟨hc, by simp only; omega, by simp only; omega⟩
  · simp only [Segment.live]
    have h1 : s.index_ = (s.index_ - 1) + 1 := by omega
    conv_lhs => rw [h1]
    rw [List.take_succ, List.getElem?_eq_getElem hlt]
    rfl
  · simp only; omega

theorem Segment.Create_WF (M : Nat) (hM : M < 65536) : (Segment.Create M : Segment E).WF M := by
  refine ⟨?_, ?_, ?_⟩ <;> simp [Segment.Create, Nat.mod_eq_of_lt hM]

theorem Segment.Create_Push (M : Nat) (hM1 : 1 ≤ M) (hM : M < 65536) (e : E) :
    (Segment.Create M : Segment E).Push e =
      some { capacity_ := M, index_ := 1, storage := [e] } := by
  have h0 : (0 : Nat) ≠ M := by omega
  simp [Segment.Create, Segment.Push, Segment.IsFull, Nat.mod_eq_of_lt hM, Segment.writeEntry, h0]

theorem Segment.live_eq_nil_of_IsEmpty (s : Segment E) (h : s.IsEmpty = true) : s.live = [] := by
  have : s.index_ = 0 := by simpa [Segment.IsEmpty] using h
  simp [Segment.live, this]

theorem Segment.length_live (M : Nat) (s : Segment E) (hwf : s.WF M) :
    s.live.length = s.index_ := by
  simp [Segment.live, List.length_take, Nat.min_eq_left hwf.2.2]

theorem Slot.slot_live_eq_nil (r : Slot E) (h : r.IsEmpty = true) : r.live = [] := by
  cases r with
  | sentinel => rfl
  | owned s => exact Segment.live_eq_nil_of_IsEmpty s h

theorem Slot.slot_length_live (M : Nat) (r : Slot E) (hwf : r.WF M) : r.live.length = r.Size := by
  cases r with
  | sentinel => rfl
  | owned s => exact Segment.length_live M s hwf

theorem Worklist.entries_cons (s : Segment E) (l : List (Segment E)) (n : Nat) :
    ({ top_ := s :: l, size_ := n } : Worklist E).entries =
      s.live ++ ({ top_ := l, size_ := n } : Worklist E).entries := by
  simp [Worklist.entries]

theorem Worklist.entries_eq_of_top (w w1 : Worklist E) (h : w.top_ = w1.top_) :
    w.entries = w1.entries := by
  simp [Worklist.entries, h]

end SegmentLemmas

/-! ## The cases of the view operations -/

section LocalCases

variable {E : Type}

theorem Local.Push_sentinel (M : Nat) (hM1 : 1 ≤ M) (hM : M < 65536) (v : Local E)
    (w : Worklist E) (e : E) (h : v.push_segment_ = Slot.sentinel) :
    Local.Push M v w e =
      some ({ v with push_segment_ :=
                Slot.owned { capacity_ := M, index_ := 1, storage := [e] } }, w) := by
  simp [Local.Push, h, Slot.IsFull, Slot.sentinelCapacity, Local.PublishPushSegment,
    Local.push_segment, Local.NewSegment, Segment.Create_Push M hM1 hM]

theorem Local.Push_full (M : Nat) (hM1 : 1 ≤ M) (hM : M < 65536) (v : Local E)
    (w : Worklist E) (e : E) (s : Segment E) (h : v.push_segment_ = Slot.owned s)
    (hfull : s.IsFull = true) (hne : s.IsEmpty = false) :
    Local.Push M v w e =
      some ({ v with push_segment_ :=
                Slot.owned { capacity_ := M, index_ := 1, storage := [e] } },
            { top_ := s :: w.top_, size_ := w.size_ + 1 }) := by
  simp [Local.Push, h, Slot.IsFull, hfull, Local.PublishPushSegment, Worklist.Push, hne,
    Local.push_segment, Local.NewSegment, Segment.Create_Push M hM1 hM]

theorem Local.Push_notFull (M : Nat) (v : Local E) (w : Worklist E) (e : E) (s s1 : Segment E)
    (h : v.push_segment_ = Slot.owned s) (hfull : s.IsFull = false)
    (hp : s.Push e = some s1) :
    Local.Push M v w e = some ({ v with push_segment_ := Slot.owned s1 }, w) := by
  simp [Local.Push, h, Slot.IsFull, hfull, Local.push_segment, hp]

theorem Local.Pop_fromPop (v : Local E) (w : Worklist E) (s s1 : Segment E) (e : E)
    (h : v.pop_segment_ = Slot.owned s) (hne : s.IsEmpty = false)
    (hp : s.Pop = some (e, s1)) :
    Local.Pop v w = some (some e, { v with pop_segment_ := Slot.owned s1 }, w) := by
  simp [Local.Pop, h, Slot.IsEmpty, hne, Local.PopFromPopSegment, Local.pop_segment, hp]

theorem Local.Pop_swap (v : Local E) (w : Worklist E) (s s1 : Segment E) (e : E)
    (hpop : v.pop_segment_.IsEmpty = true) (h : v.push_segment_ = Slot.owned s)
    (hne : s.IsEmpty = false) (hp : s.Pop = some (e, s1)) :
    Local.Pop v w =
      some (some e, { push_segment_ := v.pop_segment_, pop_segment_ := Slot.owned s1 }, w) := by
  have hpush : v.push_segment_.IsEmpty = false := by rw [h]; exact hne
  simp only [Local.Pop, hpop, hpush]
  simp [h, Local.PopFromPopSegment, Local.pop_segment, hp]

theorem Local.Pop_poolEmpty (v : Local E) (w : Worklist E)
    (hpop : v.pop_segment_.IsEmpty = true) (hpush : v.push_segment_.IsEmpty = true)
    (hw : w.size_ = 0) :
    Local.Pop v w = some (none, v, w) := by
  simp only [Local.Pop, hpop, hpush]
  simp [Local.StealPopSegment, Worklist.IsEmpty, Worklist.Size, hw]

theorem Local.Pop_steal (v : Local E) (w : Worklist E) (t t1 : Segment E)
    (rest : List (Segment E)) (e : E)
    (hpop : v.pop_segment_.IsEmpty = true) (hpush : v.push_segment_.IsEmpty = true)
    (hw : w.size_ ≠ 0) (htop : w.top_ = t :: rest) (hp : t.Pop = some (e, t1)) :
    Local.Pop v w =
      some (some e, { v with pop_segment_ := Slot.owned t1 },
            { top_ := rest, size_ := w.size_ - 1 }) := by
  have h1 : 1 ≤ w.size_ := by omega
  simp only [Local.Pop, hpop, hpush]
  simp [Local.StealPopSegment, Worklist.IsEmpty, Worklist.Size, hw,
    Worklist.Pop, htop, Local.PopFromPopSegment, Local.pop_segment, hp, Worklist.fetchSub, h1]

theorem Local.Publish_eq (M : Nat) (v : Local E) (w : Worklist E) :
    Local.Publish M v w =
      some ({ push_segment_ := (publishSlot M v.push_segment_ w).1,
              pop_segment_ := (publishSlot M v.pop_segment_
                (publishSlot M v.push_segment_ w).2).1 },
            (publishSlot M v.pop_segment_ (publishSlot M v.push_segment_ w).2).2) := by
  obtain ⟨push, pop⟩ := v
  cases push with
  | sentinel =>
    cases pop with
    | sentinel => simp [Local.Publish, Slot.IsEmpty, publishSlot]
    | owned p =>
      by_cases hp : p.IsEmpty = true
      · simp [Local.Publish, Slot.IsEmpty, publishSlot, hp]
      · simp [Local.Publish, Slot.IsEmpty, publishSlot, hp, Local.PublishPopSegment,
          Worklist.Push, Local.NewSegment]
  | owned q =>
    by_cases hq : q.IsEmpty = true
    · cases pop with
      | sentinel => simp [Local.Publish, Slot.IsEmpty, publishSlot, hq]
      | owned p =>
        by_cases hp : p.IsEmpty = true
        · simp [Local.Publish, Slot.IsEmpty, publishSlot, hp, hq]
        · simp [Local.Publish, Slot.IsEmpty, publishSlot, hp, hq, Local.PublishPopSegment,
            Worklist.Push, Local.NewSegment]
    · cases pop with
      | sentinel =>
        simp [Local.Publish, Slot.IsEmpty, publishSlot, hq, Local.PublishPushSegment,
          Worklist.Push, Local.NewSegment]
      | owned p =>
        by_cases hp : p.IsEmpty = true
        · simp [Local.Publish, Slot.IsEmpty, publishSlot, hp, hq, Local.PublishPushSegment,
            Worklist.Push, Local.NewSegment]
        · simp [Local.Publish, Slot.IsEmpty, publishSlot, hp, hq, Local.PublishPopSegment,
            Local.PublishPushSegment, Worklist.Push, Local.NewSegment]

end LocalCases

/-! ## Each view operation keeps the invariant and conserves the entries -/

section LocalSteps

variable {E : Type}

theorem Slot.live_owned (s : Segment E) : (Slot.owned s).live = s.live := rfl

theorem Slot.live_sentinel : (Slot.sentinel : Slot E).live = [] := rfl

theorem Worklist.coe_entries_cons (s : Segment E) (l : List (Segment E)) (n m : Nat) :
    ((({ top_ := s :: l, size_ := n } : Worklist E).entries : List E) : Multiset E) =
      (s.live : Multiset E) + ((({ top_ := l, size_ := m } : Worklist E).entries : List E) :
        Multiset E) := by
  simp [Worklist.entries]

theorem Local.coe_entries (v : Local E) :
    ((v.entries : List E) : Multiset E) =
      (v.push_segment_.live : Multiset E) + (v.pop_segment_.live : Multiset E) := by
  simp [Local.entries]

theorem Local.Push_ok (M : Nat) (hM1 : 1 ≤ M) (hM : M < 65536) (v : Local E) (w : Worklist E)
    (e : E) (hv : v.WF M) (hw : w.WF M) :
    ∃ v1 w1, Local.Push M v w e = some (v1, w1) ∧ v1.WF M ∧ w1.WF M ∧
      v1.pop_segment_ = v.pop_segment_ ∧
      ((v1.entries : Multiset E) + (w1.entries : Multiset E) =
        e ::ₘ ((v.entries : Multiset E) + (w.entries : Multiset E))) := by
  have hnew : (⟨M, 1, [e]⟩ : Segment E).WF M := ⟨rfl, hM1, by simp⟩
  have hnewlive : (⟨M, 1, [e]⟩ : Segment E).live = [e] := by simp [Segment.live]
  obtain ⟨hvpush, hvpop⟩ := hv
  cases hpush : v.push_segment_ with
  | sentinel =>
    refine ⟨_, _, Local.Push_sentinel M hM1 hM v w e hpush, ⟨hnew, hvpop⟩, hw, rfl, ?_⟩
    simp only [Local.coe_entries, hpush, Slot.live_owned, Slot.live_sentinel, hnewlive,
      ← Multiset.singleton_add, ← Multiset.coe_singleton, Multiset.coe_nil]
    abel
  | owned s =>
    rw [hpush] at hvpush
    have hswf : s.WF M := hvpush
    by_cases hfull : s.IsFull = true
    · have hidx : s.index_ = s.capacity_ := by simpa [Segment.IsFull] using hfull
      have hne : s.IsEmpty = false := by
        simp [Segment.IsEmpty]; have := hswf.1; omega
      refine ⟨_, _, Local.Push_full M hM1 hM v w e s hpush hfull hne, ⟨hnew, hvpop⟩, ?_, rfl, ?_⟩
      · refine ⟨by simp [hw.1], ?_⟩
        intro t ht
        rcases List.mem_cons.1 ht with rfl | ht
        · exact ⟨hswf, by have := hswf.1; omega⟩
        · exact hw.2 t ht
      · rw [Worklist.coe_entries_cons s w.top_ _ w.size_]
        simp only [Local.coe_entries, hpush, Slot.live_owned, hnewlive,
          ← Multiset.singleton_add, ← Multiset.coe_singleton]
        abel
    · have hfull : s.IsFull = false := by simpa using hfull
      obtain ⟨s1, hp, hs1, hlive, _⟩ := Segment.Push_spec M hM s e hswf hfull
      refine ⟨_, _, Local.Push_notFull M v w e s s1 hpush hfull hp, ⟨hs1, hvpop⟩, hw, rfl, ?_⟩
      simp only [Local.coe_entries, hpush, Slot.live_owned, hlive, ← Multiset.coe_add,
        ← Multiset.singleton_add, ← Multiset.coe_singleton]
      abel

theorem Slot.IsEmpty_false_owned (r : Slot E) (h : r.IsEmpty = false) :
    ∃ s, r = Slot.owned s ∧ s.IsEmpty = false := by
  cases r with
  | sentinel => simp [Slot.IsEmpty] at h
  | owned s => exact ⟨s, rfl, h⟩

theorem Local.Pop_ok (M : Nat) (v : Local E) (w : Worklist E) (hv : v.WF M) (hw : w.WF M) :
    ∃ r v1 w1, Local.Pop v w = some (r, v1, w1) ∧ v1.WF M ∧ w1.WF M ∧
      (r = none ↔
        v.push_segment_.IsEmpty = true ∧ v.pop_segment_.IsEmpty = true ∧ w.top_ = []) ∧
      (r = none → v1 = v ∧ w1 = w) ∧
      (∀ e, r = some e →
        (v.entries : Multiset E) + (w.entries : Multiset E) =
          e ::ₘ ((v1.entries : Multiset E) + (w1.entries : Multiset E))) := by
  obtain ⟨hvpush, hvpop⟩ := hv
  by_cases hpop : v.pop_segment_.IsEmpty = true
  · by_cases hpush : v.push_segment_.IsEmpty = true
    · by_cases hsz : w.size_ = 0
      · have htop : w.top_ = [] := by
          have := hw.1; rw [hsz] at this
          exact List.length_eq_zero.1 this.symm
        exact ⟨none, v, w, Local.Pop_poolEmpty v w hpop hpush hsz, ⟨hvpush, hvpop⟩, hw,
          by simp [hpush, hpop, htop], fun _ => ⟨rfl, rfl⟩, by simp⟩
      · cases htop : w.top_ with
        | nil => exact absurd (by rw [hw.1, htop]; rfl) hsz
        | cons t rest =>
          have ht := hw.2 t (by rw [htop]; exact List.mem_cons_self _ _)
          have htne : t.IsEmpty = false := by
            simp [Segment.IsEmpty]; omega
          obtain ⟨e, t1, hp, ht1, hlive, _⟩ := Segment.Pop_spec M t ht.1 htne
          refine ⟨some e, _, _, Local.Pop_steal v w t t1 rest e hpop hpush hsz htop hp,
            ⟨hvpush, ht1⟩, ?_, by simp [htop], by simp, ?_⟩
          · refine ⟨?_, ?_⟩
            · have := hw.1; rw [htop] at this; simp at this ⊢; omega
            · intro u hu
              exact hw.2 u (by rw [htop]; exact List.mem_cons_of_mem _ hu)
          · intro e1 he1
            have he1 : e = e1 := by simpa using he1
            subst he1
            have hwe : (w.entries : Multiset E) =
                (t.live : Multiset E) + ((({ top_ := rest, size_ := w.size_ - 1 } :
                  Worklist E).entries : List E) : Multiset E) := by
              rw [← Worklist.coe_entries_cons t rest w.size_ (w.size_ - 1)]
              exact congrArg _ (Worklist.entries_eq_of_top _ _ htop)
            rw [hwe]
            simp only [Local.coe_entries, Slot.live_owned, hlive,
              Slot.slot_live_eq_nil _ hpop, Slot.slot_live_eq_nil _ hpush,
              ← Multiset.coe_add, ← Multiset.singleton_add, ← Multiset.coe_singleton,
              Multiset.coe_nil]
            abel
    · have hpush : v.push_segment_.IsEmpty = false := by simpa using hpush
      obtain ⟨s, hs, hsne⟩ := Slot.IsEmpty_false_owned _ hpush
      have hswf : s.WF M := by rw [hs] at hvpush; exact hvpush
      obtain ⟨e, s1, hp, hs1, hlive, _⟩ := Segment.Pop_spec M s hswf hsne
      refine ⟨some e, _, _, Local.Pop_swap v w s s1 e hpop hs hsne hp, ⟨hvpop, hs1⟩, hw,
        by simp [hpush], by simp, ?_⟩
      intro e1 he1
      have he1 : e = e1 := by simpa using he1
      subst he1
      simp only [Local.coe_entries, hs, Slot.live_owned, hlive,
        Slot.slot_live_eq_nil _ hpop,
        ← Multiset.coe_add, ← Multiset.singleton_add, ← Multiset.coe_singleton,
        Multiset.coe_nil]
      abel
  · have hpop : v.pop_segment_.IsEmpty = false := by simpa using hpop
    obtain ⟨s, hs, hsne⟩ := Slot.IsEmpty_false_owned _ hpop
    have hswf : s.WF M := by rw [hs] at hvpop; exact hvpop
    obtain ⟨e, s1, hp, hs1, hlive, _⟩ := Segment.Pop_spec M s hswf hsne
    refine ⟨some e, _, _, Local.Pop_fromPop v w s s1 e hs hsne hp, ⟨hvpush, hs1⟩, hw,
      by simp [hpop], by simp, ?_⟩
    intro e1 he1
    have he1 : e = e1 := by simpa using he1
    subst he1
    simp only [Local.coe_entries, hs, Slot.live_owned, hlive,
      ← Multiset.coe_add, ← Multiset.singleton_add, ← Multiset.coe_singleton]
    abel

theorem publishSlot_IsEmpty (M : Nat) (r : Slot E) (w : Worklist E) :
    (publishSlot M r w).1.IsEmpty = true := by
  cases r with
  | sentinel => rfl
  | owned s =>
    by_cases h : s.IsEmpty = true
    · simp [publishSlot, h, Slot.IsEmpty]
    · simp only [publishSlot, h]
      rfl

theorem publishSlot_WF (M : Nat) (hM : M < 65536) (r : Slot E) (w : Worklist E)
    (hr : r.WF M) (hw : w.WF M) :
    (publishSlot M r w).1.WF M ∧ (publishSlot M r w).2.WF M := by
  cases r with
  | sentinel => exact ⟨trivial, hw⟩
  | owned s =>
    by_cases h : s.IsEmpty = true
    · simpa [publishSlot, h] using And.intro hr hw
    · have hs : s.WF M := hr
      have hpos : 0 < s.index_ := by
        have : s.index_ ≠ 0 := by simpa [Segment.IsEmpty] using h
        omega
      simp only [publishSlot, h]
      refine ⟨Segment.Create_WF M hM, by simp [hw.1], ?_⟩
      intro t ht
      rcases List.mem_cons.1 ht with rfl | ht
      · exact ⟨hs, hpos⟩
      · exact hw.2 t ht

theorem publishSlot_entries (M : Nat) (r : Slot E) (w : Worklist E) :
    (((publishSlot M r w).2.entries : List E) : Multiset E) =
      (r.live : Multiset E) + (w.entries : Multiset E) := by
  cases r with
  | sentinel => simp [publishSlot, Slot.live]
  | owned s =>
    by_cases h : s.IsEmpty = true
    · simp [publishSlot, h, Slot.live, Segment.live_eq_nil_of_IsEmpty s h]
    · simp only [publishSlot, h, Slot.live_owned]
      exact Worklist.coe_entries_cons s w.top_ _ w.size_

theorem Local.Publish_ok (M : Nat) (hM : M < 65536) (v : Local E) (w : Worklist E)
    (hv : v.WF M) (hw : w.WF M) :
    ∃ v1 w1, Local.Publish M v w = some (v1, w1) ∧ v1.WF M ∧ w1.WF M ∧
      v1.IsLocalEmpty = true ∧
      ((v1.entries : Multiset E) + (w1.entries : Multiset E) =
        (v.entries : Multiset E) + (w.entries : Multiset E)) := by
  have h1 := publishSlot_WF M hM v.push_segment_ w hv.1 hw
  have h2 := publishSlot_WF M hM v.pop_segment_ _ hv.2 h1.2
  refine ⟨_, _, Local.Publish_eq M v w, ⟨h1.1, h2.1⟩, h2.2, ?_, ?_⟩
  · simp [Local.IsLocalEmpty, publishSlot_IsEmpty]
  · rw [publishSlot_entries, publishSlot_entries]
    simp only [Local.coe_entries, Slot.slot_live_eq_nil _ (publishSlot_IsEmpty _ _ _),
      Multiset.coe_nil]
    abel

end LocalSteps

/-! ## The invariant and the conservation law of a pool with its views -/

section SysLemmas

variable {n : Nat} {E : Type}

theorem multiset_add_frame (A B X Y S R : Multiset E) (h : X + Y = S + (A + B)) :
    B + (A + R) + S = Y + (X + R) := by
  have h1 : Y + (X + R) = (X + Y) + R := by abel
  rw [h1, h]
  abel

theorem Sys.held_split (st : Sys n E) (i : Fin n) :
    st.held = (st.pool.entries : Multiset E) + (((st.views i).entries : Multiset E) +
      (Finset.univ.erase i).sum (fun j => ((st.views j).entries : Multiset E))) := by
  unfold Sys.held
  rw [Finset.add_sum_erase Finset.univ (fun j => ((st.views j).entries : Multiset E))
    (Finset.mem_univ i)]

theorem Sys.held_set (st : Sys n E) (i : Fin n) (v : Local E) (w : Worklist E) :
    (st.set i v w).held = (w.entries : Multiset E) + ((v.entries : Multiset E) +
      (Finset.univ.erase i).sum (fun j => ((st.views j).entries : Multiset E))) := by
  rw [Sys.held_split (st.set i v w) i]
  simp only [Sys.set, Function.update_same]
  congr 2
  refine Finset.sum_congr rfl ?_
  intro j hj
  rw [Function.update_noteq (Finset.ne_of_mem_erase hj)]

theorem Sys.set_WF (M : Nat) (st : Sys n E) (i : Fin n) (v : Local E) (w : Worklist E)
    (hst : st.WF M) (hv : v.WF M) (hw : w.WF M) : (st.set i v w).WF M := by
  refine ⟨hw, ?_⟩
  intro j
  by_cases hji : j = i
  · subst hji; simpa [Sys.set] using hv
  · simpa [Sys.set, Function.update_noteq hji] using hst.2 j

theorem Sys.init_WF (M : Nat) : (Sys.init : Sys n E).WF M := by
  refine ⟨⟨rfl, ?_⟩, ?_⟩
  · intro s hs; simp [Sys.init, Worklist.init] at hs
  · intro i; exact ⟨trivial, trivial⟩

theorem Sys.init_held : (Sys.init : Sys n E).held = 0 := by
  simp [Sys.held, Sys.init, Worklist.init, Worklist.entries, Local.attach, Local.entries,
    Slot.live]

/-- One call succeeds on a well-formed state, keeps the invariant, and moves entries only
between the arguments, the results and the state. -/
theorem Sys.step_ok (M : Nat) (hM1 : 1 ≤ M) (hM : M < 65536) (st : Sys n E) (op : Op n E)
    (hst : st.WF M) :
    ∃ r st1, Sys.step M st op = some (r, st1) ∧ st1.WF M ∧
      st.held + ((Sys.pushed [op] : List E) : Multiset E) =
        ((r.toList : List E) : Multiset E) + st1.held := by
  cases op with
  | push i e =>
    obtain ⟨v1, w1, hp, hv1, hw1, _, hcons⟩ :=
      Local.Push_ok M hM1 hM (st.views i) st.pool e (hst.2 i) hst.1
    refine ⟨none, st.set i v1 w1, by simp [Sys.step, hp], Sys.set_WF M st i v1 w1 hst hv1 hw1, ?_⟩
    rw [Sys.held_set, Sys.held_split st i]
    simp only [Sys.pushed, Option.toList, Multiset.coe_nil, zero_add]
    rw [← Multiset.singleton_add] at hcons
    rw [Multiset.coe_singleton]
    exact multiset_add_frame _ _ _ _ _ _ hcons
  | pop i =>
    obtain ⟨r, v1, w1, hp, hv1, hw1, _, hnone, hsome⟩ :=
      Local.Pop_ok M (st.views i) st.pool (hst.2 i) hst.1
    refine ⟨r, st.set i v1 w1, by simp [Sys.step, hp], Sys.set_WF M st i v1 w1 hst hv1 hw1, ?_⟩
    rw [Sys.held_set, Sys.held_split st i]
    simp only [Sys.pushed, Multiset.coe_nil, add_zero]
    cases r with
    | none =>
      obtain ⟨rfl, rfl⟩ := hnone rfl
      simp [Option.toList]
    | some e =>
      have h2 := hsome e rfl
      rw [← Multiset.singleton_add] at h2
      simp only [Option.toList, Multiset.coe_singleton]
      rw [add_comm ({e} : Multiset E)]
      exact (multiset_add_frame _ _ _ _ _ _ h2).symm
  | publish i =>
    obtain ⟨v1, w1, hp, hv1, hw1, _, hcons⟩ :=
      Local.Publish_ok M hM (st.views i) st.pool (hst.2 i) hst.1
    refine ⟨none, st.set i v1 w1, by simp [Sys.step, hp], Sys.set_WF M st i v1 w1 hst hv1 hw1, ?_⟩
    rw [Sys.held_set, Sys.held_split st i]
    simp only [Sys.pushed, Option.toList, Multiset.coe_nil, zero_add, add_zero]
    have h2 : (v1.entries : Multiset E) + (w1.entries : Multiset E) =
        0 + (((st.views i).entries : Multiset E) + (st.pool.entries : Multiset E)) := by
      rw [hcons, zero_add]
    simpa using multiset_add_frame _ _ _ _ _
      ((Finset.univ.erase i).sum (fun j => ((st.views j).entries : Multiset E))) h2

theorem Sys.pushed_cons (op : Op n E) (ops : List (Op n E)) :
    Sys.pushed (op :: ops) = Sys.pushed [op] ++ Sys.pushed ops := by
  cases op <;> simp [Sys.pushed]

/-- A sequence of calls succeeds on a well-formed state, keeps the invariant and conserves
the entries. -/
theorem Sys.run_ok (M : Nat) (hM1 : 1 ≤ M) (hM : M < 65536) (ops : List (Op n E)) :
    ∀ st : Sys n E, st.WF M →
    ∃ popped st1, Sys.run M st ops = some (popped, st1) ∧ st1.WF M ∧
      st.held + ((Sys.pushed ops : List E) : Multiset E) =
        ((popped : List E) : Multiset E) + st1.held := by
  induction ops with
  | nil =>
    intro st hst
    exact ⟨[], st, rfl, hst, by simp [Sys.pushed]⟩
  | cons op ops ih =>
    intro st hst
    obtain ⟨r, st1, hstep, hst1, hc1⟩ := Sys.step_ok M hM1 hM st op hst
    obtain ⟨popped, st2, hrun, hst2, hc2⟩ := ih st1 hst1
    refine ⟨r.toList ++ popped, st2, by simp [Sys.run, hstep, hrun], hst2, ?_⟩
    rw [Sys.pushed_cons, ← Multiset.coe_add, ← Multiset.coe_add, ← add_assoc, hc1,
      add_assoc, hc2, add_assoc]

end SysLemmas

/-! ## The top of the push slot -/

section LastPushed

variable {E : Type}

theorem Local.Push_last (M : Nat) (hM1 : 1 ≤ M) (hM : M < 65536) (v : Local E) (w : Worklist E)
    (e : E) (hv : v.WF M) (v1 : Local E) (w1 : Worklist E)
    (h : Local.Push M v w e = some (v1, w1)) :
    ∃ s1, v1.push_segment_ = Slot.owned s1 ∧ s1.live.getLast? = some e := by
  have hnewlive : (⟨M, 1, [e]⟩ : Segment E).live = [e] := by simp [Segment.live]
  cases hpush : v.push_segment_ with
  | sentinel =>
    rw [Local.Push_sentinel M hM1 hM v w e hpush] at h
    cases h
    exact ⟨_, rfl, by simp [hnewlive]⟩
  | owned s =>
    have hswf : s.WF M := by have := hv.1; rw [hpush] at this; exact this
    by_cases hfull : s.IsFull = true
    · have hidx : s.index_ = s.capacity_ := by simpa [Segment.IsFull] using hfull
      have hne : s.IsEmpty = false := by
        simp [Segment.IsEmpty]; have := hswf.1; omega
      rw [Local.Push_full M hM1 hM v w e s hpush hfull hne] at h
      cases h
      exact ⟨_, rfl, by simp [hnewlive]⟩
    · have hfull : s.IsFull = false := by simpa using hfull
      obtain ⟨s1, hp, _, hlive, _⟩ := Segment.Push_spec M hM s e hswf hfull
      rw [Local.Push_notFull M v w e s s1 hpush hfull hp] at h
      cases h
      exact ⟨_, rfl, by simp [hlive]⟩

theorem Local.PopFromPopSegment_push (v : Local E) (w : Worklist E) (r : Option E)
    (v1 : Local E) (w1 : Worklist E) (h : Local.PopFromPopSegment v w = some (r, v1, w1)) :
    v1.push_segment_ = v.push_segment_ := by
  unfold Local.PopFromPopSegment at h
  split at h
  · cases h
  · split at h
    · cases h
    · cases h; rfl

theorem Local.StealPopSegment_push (v : Local E) (w : Worklist E) (b : Bool)
    (v1 : Local E) (w1 : Worklist E) (h : Local.StealPopSegment v w = some (b, v1, w1)) :
    v1.push_segment_ = v.push_segment_ := by
  unfold Local.StealPopSegment at h
  split at h
  · cases h; rfl
  · split at h
    · cases h
    · cases h; rfl
    · cases h; rfl

theorem Local.Pop_push_slot (v : Local E) (w : Worklist E) (r : Option E)
    (v1 : Local E) (w1 : Worklist E) (h : Local.Pop v w = some (r, v1, w1)) :
    v1.push_segment_ = v.push_segment_ ∨ v1.push_segment_.IsEmpty = true := by
  unfold Local.Pop at h
  split at h
  · next hpop =>
    split at h
    · right
      rw [Local.PopFromPopSegment_push _ _ _ _ _ h]
      exact hpop
    · left
      split at h
      · cases h
      · next hs => cases h; exact Local.StealPopSegment_push _ _ _ _ _ hs
      · next hs =>
        rw [Local.PopFromPopSegment_push _ _ _ _ _ h]
        exact Local.StealPopSegment_push _ _ _ _ _ hs
  · left
    exact Local.PopFromPopSegment_push _ _ _ _ _ h

theorem Sys.step_LastOnTop (M : Nat) (hM1 : 1 ≤ M) (hM : M < 65536) (st : Sys 1 E)
    (op : Op 1 E) (pre : List E) (hst : st.WF M) (hlast : st.LastOnTop pre)
    (r : Option E) (st1 : Sys 1 E) (hstep : Sys.step M st op = some (r, st1)) :
    st1.LastOnTop (pre ++ Sys.pushed [op]) := by
  intro s hs hne
  cases op with
  | push i e =>
    have hi : i = 0 := Subsingleton.elim _ _
    subst hi
    simp only [Sys.step] at hstep
    split at hstep
    · next v w hp =>
      cases hstep
      obtain ⟨s1, hs1, hl⟩ := Local.Push_last M hM1 hM _ _ e (hst.2 0) v w hp
      simp only [Sys.set, Function.update_same] at hs
      rw [hs1] at hs
      cases hs
      simp [Sys.pushed, hl]
    · cases hstep
  | pop i =>
    have hi : i = 0 := Subsingleton.elim _ _
    subst hi
    simp only [Sys.step] at hstep
    split at hstep
    · next r1 v w hp =>
      cases hstep
      simp only [Sys.set, Function.update_same] at hs
      simp only [Sys.pushed, List.append_nil]
      rcases Local.Pop_push_slot _ _ _ _ _ hp with h1 | h1
      · exact hlast s (by rw [← h1, hs]) hne
      · rw [hs] at h1
        rw [show (Slot.owned s).IsEmpty = s.IsEmpty from rfl, hne] at h1
        cases h1
    · cases hstep
  | publish i =>
    have hi : i = 0 := Subsingleton.elim _ _
    subst hi
    simp only [Sys.step] at hstep
    split at hstep
    · next v w hp =>
      cases hstep
      simp only [Sys.set, Function.update_same] at hs
      rw [Local.Publish_eq] at hp
      cases hp
      have h1 := publishSlot_IsEmpty M (st.views 0).push_segment_ st.pool
      simp only at hs
      rw [hs, show (Slot.owned s).IsEmpty = s.IsEmpty from rfl, hne] at h1
      cases h1
    · cases hstep

theorem Sys.run_LastOnTop (M : Nat) (hM1 : 1 ≤ M) (hM : M < 65536) (ops : List (Op 1 E)) :
    ∀ (st : Sys 1 E) (pre : List E), st.WF M → st.LastOnTop pre →
      ∀ popped st1, Sys.run M st ops = some (popped, st1) →
        st1.LastOnTop (pre ++ Sys.pushed ops) := by
  induction ops with
  | nil =>
    intro st pre _ hlast popped st1 hrun
    simp only [Sys.run] at hrun
    cases hrun
    simpa [Sys.pushed] using hlast
  | cons op ops ih =>
    intro st pre hst hlast popped st2 hrun
    obtain ⟨r, st1, hstep, hst1, _⟩ := Sys.step_ok M hM1 hM st op hst
    have h1 := Sys.step_LastOnTop M hM1 hM st op pre hst hlast r st1 hstep
    obtain ⟨popped1, st3, hrun1, _, _⟩ := Sys.run_ok M hM1 hM ops st1 hst1
    have := ih st1 (pre ++ Sys.pushed [op]) hst1 h1 popped1 st3 hrun1
    simp only [Sys.run, hstep, hrun1] at hrun
    cases hrun
    rw [Sys.pushed_cons, ← List.append_assoc]
    exact this

theorem Sys.held_one (st : Sys 1 E) :
    st.held = (st.pool.entries : Multiset E) + ((st.views 0).entries : Multiset E) := by
  simp [Sys.held]

end LastPushed

/-! ## Publish -/

section PublishLemmas

variable {E : Type}

theorem publishSlot_of_IsEmpty (M : Nat) (r : Slot E) (w : Worklist E)
    (h : r.IsEmpty = true) : publishSlot M r w = (r, w) := by
  cases r with
  | sentinel => rfl
  | owned s =>
    have hs : s.IsEmpty = true := h
    simp [publishSlot, hs]

theorem publishSlot_pool (M : Nat) (r : Slot E) (w : Worklist E) :
    (publishSlot M r w).2 =
      { top_ := r.publishedSegment ++ w.top_,
        size_ := w.size_ + (if r.IsEmpty then 0 else 1) } := by
  cases r with
  | sentinel => simp [publishSlot, Slot.publishedSegment, Slot.IsEmpty]
  | owned s =>
    by_cases h : s.IsEmpty = true
    · simp [publishSlot, Slot.publishedSegment, Slot.IsEmpty, h]
    · simp [publishSlot, Slot.publishedSegment, Slot.IsEmpty, h]

end PublishLemmas

/-! ## Pushing a list and draining -/

section Drain

variable {E : Type}

theorem Local.pushAll_ok (M : Nat) (hM1 : 1 ≤ M) (hM : M < 65536) (xs : List E) :
    ∀ (v : Local E) (w : Worklist E), v.WF M → w.WF M →
    ∃ v1 w1, Local.pushAll M v w xs = some (v1, w1) ∧ v1.WF M ∧ w1.WF M ∧
      v1.pop_segment_ = v.pop_segment_ ∧
      ((v1.entries : Multiset E) + (w1.entries : Multiset E) =
        (xs : Multiset E) + ((v.entries : Multiset E) + (w.entries : Multiset E))) := by
  induction xs with
  | nil =>
    intro v w hv hw
    exact ⟨v, w, rfl, hv, hw, rfl, by simp⟩
  | cons x xs ih =>
    intro v w hv hw
    obtain ⟨v1, w1, hp, hv1, hw1, hpop1, hc1⟩ := Local.Push_ok M hM1 hM v w x hv hw
    obtain ⟨v2, w2, hp2, hv2, hw2, hpop2, hc2⟩ := ih v1 w1 hv1 hw1
    refine ⟨v2, w2, by simp [Local.pushAll, hp, hp2], hv2, hw2, hpop2.trans hpop1, ?_⟩
    rw [hc2, hc1, ← Multiset.cons_coe, ← Multiset.singleton_add, ← Multiset.singleton_add]
    abel

theorem Local.popN_drain (M : Nat) (k : Nat) :
    ∀ (v : Local E) (w : Worklist E), v.WF M → w.WF M →
      Multiset.card ((v.entries : Multiset E) + (w.entries : Multiset E)) = k →
    ∃ ys v2 w2, Local.popN (k + 1) v w = some (ys.map some ++ [none], v2, w2) ∧
      ((ys : List E) : Multiset E) = (v.entries : Multiset E) + (w.entries : Multiset E) ∧
      v2.IsLocalEmpty = true ∧ w2.top_ = [] ∧ w2.size_ = 0 := by
  induction k with
  | zero =>
    intro v w hv hw hcard
    obtain ⟨r, v1, w1, hp, _, _, hiff, hnone, hsome⟩ := Local.Pop_ok M v w hv hw
    cases r with
    | some e =>
      have h2 := hsome e rfl
      rw [h2] at hcard
      simp at hcard
    | none =>
      obtain ⟨rfl, rfl⟩ := hnone rfl
      obtain ⟨h1, h2, h3⟩ := hiff.1 rfl
      refine ⟨[], v1, w1, by simp [Local.popN, hp], ?_, ?_, h3, ?_⟩
      · exact (Multiset.card_eq_zero.1 hcard).symm
      · simp [Local.IsLocalEmpty, h1, h2]
      · rw [hw.1, h3]; rfl
  | succ k ih =>
    intro v w hv hw hcard
    obtain ⟨r, v1, w1, hp, hv1, hw1, hiff, hnone, hsome⟩ := Local.Pop_ok M v w hv hw
    cases r with
    | none =>
      obtain ⟨h1, h2, h3⟩ := hiff.1 rfl
      have hpool : w.entries = [] := by simp [Worklist.entries, h3]
      have hview : v.entries = [] := by
        simp [Local.entries, Slot.slot_live_eq_nil _ h1, Slot.slot_live_eq_nil _ h2]
      rw [hpool, hview] at hcard
      simp at hcard
    | some e =>
      have h2 := hsome e rfl
      have hcard1 : Multiset.card ((v1.entries : Multiset E) + (w1.entries : Multiset E)) = k := by
        rw [h2, Multiset.card_cons] at hcard
        omega
      obtain ⟨ys, v2, w2, hpn, hys, hv2, hw2, hsz⟩ := ih v1 w1 hv1 hw1 hcard1
      refine ⟨e :: ys, v2, w2, ?_, ?_, hv2, hw2, hsz⟩
      · rw [Local.popN, hp]
        simp only [hpn]
        rfl
      · rw [h2, ← hys]
        rfl

end Drain

/-! ## Counting published segments -/

section Counting

variable {E : Type}

theorem ceilDiv_zero (M : Nat) (hM1 : 1 ≤ M) : ceilDiv 0 M = 0 := by
  unfold ceilDiv
  exact Nat.div_eq_of_lt (by omega)

theorem ceilDiv_of_eq (M q p k : Nat) (hp1 : 1 ≤ p) (hpM : p ≤ M) (hk : k = q * M + p) :
    ceilDiv k M = q + 1 := by
  unfold ceilDiv
  apply Nat.div_eq_of_lt_le
  · rw [Nat.add_mul, one_mul]; omega
  · rw [Nat.add_mul, Nat.add_mul, one_mul]; omega

theorem le_ceilDiv_mul (M k : Nat) (hM1 : 1 ≤ M) : k ≤ ceilDiv k M * M := by
  unfold ceilDiv
  have h := Nat.div_add_mod (k + M - 1) M
  have h2 := Nat.mod_lt (k + M - 1) (show 0 < M by omega)
  rw [Nat.mul_comm] at h
  omega

theorem ceilDiv_le_of_le_mul (M k n : Nat) (hM1 : 1 ≤ M) (h : k ≤ n * M) : ceilDiv k M ≤ n := by
  unfold ceilDiv
  apply Nat.lt_succ_iff.1
  rw [Nat.div_lt_iff_lt_mul (by omega), Nat.succ_mul]
  omega

theorem Local.Push_count (M : Nat) (hM1 : 1 ≤ M) (hM : M < 65536) (v : Local E)
    (w : Worklist E) (e : E) (hv : v.WF M) (v1 : Local E) (w1 : Worklist E)
    (h : Local.Push M v w e = some (v1, w1)) :
    (v.push_segment_.Size < M →
      v1.push_segment_.Size = v.push_segment_.Size + 1 ∧ w1.size_ = w.size_) ∧
    (v.push_segment_.Size = M → v1.push_segment_.Size = 1 ∧ w1.size_ = w.size_ + 1) := by
  cases hpush : v.push_segment_ with
  | sentinel =>
    rw [Local.Push_sentinel M hM1 hM v w e hpush] at h
    cases h
    simp [Slot.Size, Segment.Size]
    omega
  | owned s =>
    have hswf : s.WF M := by have := hv.1; rw [hpush] at this; exact this
    by_cases hfull : s.IsFull = true
    · have hidx : s.index_ = s.capacity_ := by simpa [Segment.IsFull] using hfull
      have hne : s.IsEmpty = false := by
        simp [Segment.IsEmpty]; have := hswf.1; omega
      rw [Local.Push_full M hM1 hM v w e s hpush hfull hne] at h
      cases h
      have := hswf.1
      simp [Slot.Size, Segment.Size]
      omega
    · have hfull : s.IsFull = false := by simpa using hfull
      have hidx : s.index_ ≠ s.capacity_ := by simpa [Segment.IsFull] using hfull
      obtain ⟨s1, hp, _, _, hi1⟩ := Segment.Push_spec M hM s e hswf hfull
      rw [Local.Push_notFull M v w e s s1 hpush hfull hp] at h
      cases h
      have := hswf.1
      simp [Slot.Size, Segment.Size, hi1]
      omega

theorem Slot.Size_le (M : Nat) (r : Slot E) (h : r.WF M) : r.Size ≤ M := by
  cases r with
  | sentinel => exact Nat.zero_le _
  | owned s =>
    have hs : s.WF M := h
    have := hs.1
    have := hs.2.1
    simp only [Slot.Size, Segment.Size]
    omega

end Counting

/-! ## Update -/

section UpdateLemmas

variable {E σ : Type}

theorem take_set_self (l : List E) (k : Nat) (x : E) : (l.set k x).take k = l.take k := by
  induction l generalizing k with
  | nil => simp
  | cons a l ih =>
    cases k with
    | zero => simp
    | succ k => simp [ih k]

/-- The loop of `Segment::Update` with a callback that decides by `p` on the entry alone and
stores every entry it keeps: the cells below `new_index` are extended by the kept entries
among the next `n` cells. -/
theorem Segment.UpdateLoop_filter (callback : σ → E → E → σ × E × Bool) (p : E → Bool)
    (hkeep : ∀ st e d, (callback st e d).2.2 = p e)
    (hstore : ∀ st e d, p e = true → (callback st e d).2.1 = e) (n : Nat) :
    ∀ (i k : Nat) (st : σ) (storage : List E), k ≤ i → i + n ≤ storage.length →
    ∃ st1 k1 storage1, Segment.UpdateLoop callback n i k st storage = some (st1, k1, storage1) ∧
      k1 ≤ i + n ∧
      storage1.take k1 = storage.take k ++ ((storage.drop i).take n).filter p := by
  induction n with
  | zero =>
    intro i k st storage hk _
    exact ⟨st, k, storage, rfl, by omega, by simp⟩
  | succ n ih =>
    intro i k st storage hk hlen
    have hi : i < storage.length := by omega
    have hkl : k < storage.length := by omega
    have hk1 := hkeep st storage[i] storage[k]
    have hs1 := hstore st storage[i] storage[k]
    rcases hcb : callback st storage[i] storage[k] with ⟨st1, dst1, keep⟩
    rw [hcb] at hk1 hs1
    simp only at hk1 hs1
    have hlen1 : i + 1 + n ≤ (storage.set k dst1).length := by
      rw [List.length_set]; omega
    have hdrop : (storage.set k dst1).drop (i + 1) = storage.drop (i + 1) :=
      List.drop_set_of_lt dst1 storage (by omega)
    have hdropi : (storage.drop i).take (n + 1) =
        storage[i] :: (storage.drop (i + 1)).take n := by
      rw [List.drop_eq_getElem_cons hi, List.take_succ_cons]
    have hunfold : Segment.UpdateLoop callback (n + 1) i k st storage =
        Segment.UpdateLoop callback n (i + 1) (if keep then k + 1 else k) st1
          (storage.set k dst1) := by
      simp only [Segment.UpdateLoop, List.getElem?_eq_getElem hi, List.getElem?_eq_getElem hkl,
        hcb]
    by_cases hp : p storage[i] = true
    · have hkeep1 : keep = true := by rw [hk1, hp]
      have hdst : dst1 = storage[i] := hs1 hp
      obtain ⟨st2, k2, storage2, hrun, hle, htake⟩ :=
        ih (i + 1) (k + 1) st1 (storage.set k dst1) (by omega) hlen1
      refine ⟨st2, k2, storage2, ?_, by omega, ?_⟩
      · rw [hunfold, hkeep1]; exact hrun
      · rw [htake, hdrop, hdropi, take_succ_set_self storage k dst1 hkl, hdst]
        simp [List.filter_cons, hp]
    · have hp : p storage[i] = false := by simpa using hp
      have hkeep1 : keep = false := by rw [hk1, hp]
      obtain ⟨st2, k2, storage2, hrun, hle, htake⟩ :=
        ih (i + 1) k st1 (storage.set k dst1) (by omega) hlen1
      refine ⟨st2, k2, storage2, ?_, by omega, ?_⟩
      · rw [hunfold, hkeep1]; exact hrun
      · rw [htake, hdrop, hdropi, take_set_self]
        simp [List.filter_cons, hp]

theorem Segment.UpdateLoop_length (callback : σ → E → E → σ × E × Bool) (n : Nat) :
    ∀ (i k : Nat) (st : σ) (storage : List E) (st1 : σ) (k1 : Nat) (storage1 : List E),
      Segment.UpdateLoop callback n i k st storage = some (st1, k1, storage1) →
      storage1.length = storage.length := by
  induction n with
  | zero =>
    intro i k st storage st1 k1 storage1 h
    simp only [Segment.UpdateLoop] at h
    cases h
    rfl
  | succ n ih =>
    intro i k st storage st1 k1 storage1 h
    simp only [Segment.UpdateLoop] at h
    split at h
    · have := ih _ _ _ _ _ _ _ h
      simpa using this
    · cases h

/-- Method `Segment::Update` with a storing filter callback on a well-formed segment: the live
entries afterwards are the kept live entries, in order. -/
theorem Segment.Update_filter (M : Nat) (hM : M < 65536)
    (callback : σ → E → E → σ × E × Bool) (p : E → Bool)
    (hkeep : ∀ st e d, (callback st e d).2.2 = p e)
    (hstore : ∀ st e d, p e = true → (callback st e d).2.1 = e)
    (st : σ) (s : Segment E) (hs : s.WF M) :
    ∃ st1 s1, s.Update callback st = some (st1, s1) ∧ s1.WF M ∧
      s1.live = s.live.filter p := by
  obtain ⟨hc, hi, hl⟩ := hs
  obtain ⟨st1, k1, storage1, hrun, hle, htake⟩ :=
    Segment.UpdateLoop_filter callback p hkeep hstore s.index_ 0 0 st s.storage (le_refl 0)
      (by omega)
  have hlen := Segment.UpdateLoop_length callback _ _ _ _ _ _ _ _ hrun
  have hmod : k1 % 65536 = k1 := Nat.mod_eq_of_lt (by omega)
  refine ⟨st1, { s with index_ := k1 % 65536, storage := storage1 }, ?_, ?_, ?_⟩
  · simp [Segment.Update, hrun]
  · refine ⟨hc, ?_, ?_⟩
    · simp only [hmod]; omega
    · simp only [hmod]; omega
  · simp only [Segment.live, hmod, htake]
    simp

end UpdateLemmas

section UpdateKeepsInvariant

variable {E σ : Type}

theorem Segment.UpdateLoop_le (callback : σ → E → E → σ × E × Bool) (n : Nat) :
    ∀ (i k : Nat) (st : σ) (storage : List E) (st1 : σ) (k1 : Nat) (storage1 : List E),
      k ≤ i → Segment.UpdateLoop callback n i k st storage = some (st1, k1, storage1) →
      k1 ≤ i + n := by
  induction n with
  | zero =>
    intro i k st storage st1 k1 storage1 hk h
    simp only [Segment.UpdateLoop] at h
    cases h
    omega
  | succ n ih =>
    intro i k st storage st1 k1 storage1 hk h
    simp only [Segment.UpdateLoop] at h
    split at h
    · have := ih _ _ _ _ _ _ _ (by split <;> omega) h
      omega
    · cases h

/-- `Segment::Update` with any callback keeps a segment well formed and does not grow it. -/
theorem Segment.Update_WF (M : Nat) (callback : σ → E → E → σ × E × Bool) (st : σ)
    (s : Segment E) (hs : s.WF M) (st1 : σ) (s1 : Segment E)
    (h : s.Update callback st = some (st1, s1)) :
    s1.WF M ∧ s1.index_ ≤ s.index_ := by
  obtain ⟨hc, hi, hl⟩ := hs
  simp only [Segment.Update] at h
  split at h
  · next st2 k1 storage1 hrun =>
    cases h
    have hle := Segment.UpdateLoop_le callback _ _ _ _ _ _ _ _ (le_refl 0) hrun
    have hlen := Segment.UpdateLoop_length callback _ _ _ _ _ _ _ _ hrun
    have hmod : k1 % 65536 ≤ k1 := Nat.mod_le _ _
    refine ⟨⟨hc, ?_, ?_⟩, ?_⟩ <;> simp only <;> omega
  · cases h

/-- The loop of `Worklist::Update` with any callback: the segments that remain linked are
well formed and not empty, and every segment is still linked or counted in `num_deleted`. -/
theorem Worklist.poolUpdateLoop_WF (M : Nat) (callback : σ → E → E → σ × E × Bool)
    (size_ : Nat) (segs : List (Segment E)) :
    ∀ (st st1 : σ) (rest : List (Segment E)) (num_deleted : Nat),
      (∀ s ∈ segs, s.WF M) →
      Worklist.UpdateLoop callback size_ st segs = some (st1, rest, num_deleted) →
      (∀ s ∈ rest, s.WF M ∧ 0 < s.index_) ∧ rest.length + num_deleted = segs.length := by
  induction segs with
  | nil =>
    intro st st1 rest nd _ h
    simp only [Worklist.UpdateLoop] at h
    cases h
    exact ⟨by simp, rfl⟩
  | cons s segs ih =>
    intro st st1 rest nd hwf h
    simp only [Worklist.UpdateLoop] at h
    split at h
    · cases h
    · next st2 s1 hupd =>
      have hs1 := (Segment.Update_WF M callback st s (hwf s (List.mem_cons_self _ _)) st2 s1
        hupd).1
      split at h
      · split at h
        · cases h
        · split at h
          · next st3 rest1 nd1 hloop =>
            have := ih st2 st3 rest1 nd1 (fun t ht => hwf t (List.mem_cons_of_mem _ ht)) hloop
            cases h
            exact ⟨this.1, by simp only [List.length_cons]; omega⟩
          · cases h
      · next hne =>
        split at h
        · next st3 rest1 nd1 hloop =>
          have := ih st2 st3 rest1 nd1 (fun t ht => hwf t (List.mem_cons_of_mem _ ht)) hloop
          cases h
          refine ⟨?_, by simp only [List.length_cons]; omega⟩
          intro t ht
          rcases List.mem_cons.1 ht with rfl | ht
          · refine ⟨hs1, ?_⟩
            have : t.index_ ≠ 0 := by simpa [Segment.IsEmpty] using hne
            omega
          · exact this.1 t ht
        · cases h

/-- `Worklist::Update` with any callback keeps the pool invariant. -/
theorem Worklist.poolUpdate_WF (M : Nat) (callback : σ → E → E → σ × E × Bool) (st : σ)
    (w : Worklist E) (hw : w.WF M) (st1 : σ) (w1 : Worklist E)
    (h : w.Update callback st = some (st1, w1)) : w1.WF M := by
  simp only [Worklist.Update] at h
  split at h
  · next st2 rest nd hloop =>
    obtain ⟨hrest, hlen⟩ :=
      Worklist.poolUpdateLoop_WF M callback w.size_ w.top_ st st2 rest nd
        (fun s hs => (hw.2 s hs).1) hloop
    cases h
    refine ⟨?_, hrest⟩
    have hle : nd ≤ w.size_ := by rw [hw.1]; omega
    simp only [Worklist.fetchSub, hle, if_true]
    rw [hw.1]
    omega
  · cases h

theorem Local.Clear_WF (M : Nat) (v : Local E) (hv : v.WF M) : v.Clear.WF M := by
  have hslot : ∀ r : Slot E, r.WF M → r.Clear.WF M := by
    intro r hr
    cases r with
    | sentinel => trivial
    | owned s =>
      have hs : s.WF M := hr
      exact ⟨hs.1, Nat.zero_le _, Nat.zero_le _⟩
  exact ⟨hslot _ hv.1, hslot _ hv.2⟩

end UpdateKeepsInvariant

section PoolUpdateLemmas

variable {E σ : Type}

theorem Segment.IsEmpty_iff_live (M : Nat) (s : Segment E) (hs : s.WF M) :
    s.IsEmpty = true ↔ s.live = [] := by
  constructor
  · exact Segment.live_eq_nil_of_IsEmpty s
  · intro h
    have hl := Segment.length_live M s hs
    rw [h] at hl
    simp only [List.length_nil] at hl
    simp [Segment.IsEmpty, ← hl]

/-- The loop of `Worklist::Update` with a storing filter callback over well-formed segments:
it returns, the segments that remain linked are the filtered segments that are not empty, in
order, and every segment is either still linked or counted in `num_deleted`. -/
theorem Worklist.poolUpdateLoop_filter (M : Nat) (hM : M < 65536)
    (callback : σ → E → E → σ × E × Bool) (p : E → Bool)
    (hkeep : ∀ st e d, (callback st e d).2.2 = p e)
    (hstore : ∀ st e d, p e = true → (callback st e d).2.1 = e) (size_ : Nat)
    (segs : List (Segment E)) :
    ∀ (st : σ), (∀ s ∈ segs, s.WF M) → (segs ≠ [] → 0 < size_) →
    ∃ st1 rest num_deleted,
      Worklist.UpdateLoop callback size_ st segs = some (st1, rest, num_deleted) ∧
      rest.map Segment.live =
        (segs.map (fun s => s.live.filter p)).filter (fun l => !l.isEmpty) ∧
      (∀ s ∈ rest, s.WF M ∧ 0 < s.index_) ∧
      rest.length + num_deleted = segs.length := by
  induction segs with
  | nil =>
    intro st _ _
    exact ⟨st, [], 0, rfl, rfl, by simp, rfl⟩
  | cons s segs ih =>
    intro st hwf hsz
    have h0 : 0 < size_ := hsz (by simp)
    have h0ne : size_ ≠ 0 := by omega
    obtain ⟨st1, s1, hupd, hs1, hlive⟩ :=
      Segment.Update_filter M hM callback p hkeep hstore st s (hwf s (List.mem_cons_self _ _))
    obtain ⟨st2, rest, nd, hloop, hmap, hrest, hlen⟩ :=
      ih st1 (fun t ht => hwf t (List.mem_cons_of_mem _ ht)) (fun _ => h0)
    by_cases he : s1.IsEmpty = true
    · have hnil : s.live.filter p = [] := by
        rw [← hlive]; exact (Segment.IsEmpty_iff_live M s1 hs1).1 he
      refine ⟨st2, rest, nd + 1, ?_, ?_, hrest, by simp only [List.length_cons]; omega⟩
      · simp [Worklist.UpdateLoop, hupd, he, h0ne, hloop]
      · simp only [List.map_cons, hnil]
        rw [List.filter_cons_of_neg (by simp)]
        exact hmap
    · have hne : s.live.filter p ≠ [] := by
        rw [← hlive]
        intro h
        exact he ((Segment.IsEmpty_iff_live M s1 hs1).2 h)
      have hpos : 0 < s1.index_ := by
        have : s1.index_ ≠ 0 := by simpa [Segment.IsEmpty] using he
        omega
      refine ⟨st2, s1 :: rest, nd, ?_, ?_, ?_, by simp only [List.length_cons]; omega⟩
      · simp [Worklist.UpdateLoop, hupd, he, hloop]
      · simp only [List.map_cons]
        rw [List.filter_cons_of_pos (by simpa [List.isEmpty_iff] using hne), hlive, hmap]
      · intro t ht
        rcases List.mem_cons.1 ht with rfl | ht
        · exact ⟨hs1, hpos⟩
        · exact hrest t ht

end PoolUpdateLemmas

/-! ## Counting published segments in an arbitrary interleaving -/

section Interleaving

variable {n : Nat} {E : Type}

theorem sum_add_of_eq_off (f g : Fin n → Nat) (i : Fin n) (h : ∀ j, j ≠ i → f j = g j) :
    Finset.univ.sum f + g i = Finset.univ.sum g + f i := by
  rw [← Finset.add_sum_erase Finset.univ f (Finset.mem_univ i),
    ← Finset.add_sum_erase Finset.univ g (Finset.mem_univ i)]
  have : (∑ x ∈ Finset.univ.erase i, f x) = ∑ x ∈ Finset.univ.erase i, g x :=
    Finset.sum_congr rfl (fun j hj => h j (Finset.ne_of_mem_erase hj))
  omega

theorem Slot.IsEmpty_iff_Size (r : Slot E) : r.IsEmpty = true ↔ r.Size = 0 := by
  cases r with
  | sentinel => simp [Slot.IsEmpty, Slot.Size]
  | owned s => simp [Slot.IsEmpty, Slot.Size, Segment.IsEmpty, Segment.Size]

theorem Sys.CountInv_push (M : Nat) (hM1 : 1 ≤ M) (hM : M < 65536) (st : Sys n E)
    (published : Fin n → Bool) (k : Fin n → Nat) (i : Fin n) (e : E)
    (hinv : Sys.CountInv M st published k) (hpub : published i = false) :
    ∃ r st1, Sys.step M st (Op.push i e) = some (r, st1) ∧
      Sys.CountInv M st1 published (Function.update k i (k i + 1)) := by
  obtain ⟨hwf, hpop, hunp, hp, hsum⟩ := hinv
  obtain ⟨v1, w1, hpush, hv1, hw1, hpop1, _⟩ :=
    Local.Push_ok M hM1 hM (st.views i) st.pool e (hwf.2 i) hwf.1
  obtain ⟨hlt, heq⟩ := Local.Push_count M hM1 hM (st.views i) st.pool e (hwf.2 i) v1 w1 hpush
  have hle := Slot.Size_le M _ (hwf.2 i).1
  refine ⟨none, st.set i v1 w1, by simp [Sys.step, hpush], Sys.set_WF M st i v1 w1 hwf hv1 hw1,
    ?_, ?_, ?_, ?_⟩
  · intro j
    by_cases hji : j = i
    · subst hji; simp only [Sys.set, Function.update_same]; rw [hpop1]; exact hpop j
    · simp only [Sys.set, Function.update_noteq hji]; exact hpop j
  · intro j hj
    by_cases hji : j = i
    · subst hji
      simp only [Sys.set, Function.update_same]
      right
      rcases hunp j hj with ⟨hk0, hs0⟩ | ⟨q, hq, hq1⟩
      · obtain ⟨h1, _⟩ := hlt (by omega)
        exact ⟨0, by omega, by omega⟩
      · rcases Nat.lt_or_ge (st.views j).push_segment_.Size M with h | h
        · obtain ⟨h1, _⟩ := hlt h
          exact ⟨q, by omega, by omega⟩
        · obtain ⟨h1, _⟩ := heq (by omega)
          refine ⟨q + 1, ?_, by omega⟩
          rw [Nat.add_mul, one_mul]; omega
    · simp only [Sys.set, Function.update_noteq hji]
      exact hunp j hj
  · intro j hj
    have hji : j ≠ i := by intro h; rw [h, hpub] at hj; cases hj
    simp only [Sys.set, Function.update_noteq hji]
    exact hp j hj
  · have h1 := sum_add_of_eq_off
      (fun j => ((st.set i v1 w1).views j).pendingSegments)
      (fun j => (st.views j).pendingSegments) i
      (fun j hji => by simp only [Sys.set, Function.update_noteq hji])
    have h2 := sum_add_of_eq_off
      (fun j => ceilDiv (Function.update k i (k i + 1) j) M)
      (fun j => ceilDiv (k j) M) i
      (fun j hji => by simp only [Function.update_noteq hji])
    simp only [Sys.set, Function.update_same] at h1 h2
    simp only [Sys.set]
    rcases hunp i hpub with ⟨hk0, hs0⟩ | ⟨q, hq, hq1⟩
    · obtain ⟨hs1, hw⟩ := hlt (by omega)
      have hc0 : ceilDiv (k i) M = 0 := by rw [hk0]; exact ceilDiv_zero M hM1
      have hc1 : ceilDiv (k i + 1) M = 1 := ceilDiv_of_eq M 0 1 _ (le_refl 1) hM1 (by omega)
      simp only [Local.pendingSegments, hs0, hs1, if_true] at h1
      simp only [hc0, hc1] at h2
      simp only [Local.pendingSegments] at hsum ⊢
      simp at h1
      omega
    · have hc0 : ceilDiv (k i) M = q + 1 := ceilDiv_of_eq M q _ _ hq1 hle hq
      have hne : (st.views i).push_segment_.Size ≠ 0 := by omega
      rcases Nat.lt_or_ge (st.views i).push_segment_.Size M with h | h
      · obtain ⟨hs1, hw⟩ := hlt h
        have hc1 : ceilDiv (k i + 1) M = q + 1 :=
          ceilDiv_of_eq M q ((st.views i).push_segment_.Size + 1) _ (by omega) (by omega)
            (by omega)
        have hne1 : v1.push_segment_.Size ≠ 0 := by omega
        simp only [Local.pendingSegments, hne, hne1, if_false] at h1
        simp only [hc0, hc1] at h2
        simp only [Local.pendingSegments] at hsum ⊢
        omega
      · obtain ⟨hs1, hw⟩ := heq (by omega)
        have hc1 : ceilDiv (k i + 1) M = q + 1 + 1 :=
          ceilDiv_of_eq M (q + 1) 1 _ (le_refl 1) hM1
            (by rw [Nat.add_mul, one_mul]; omega)
        have hne1 : v1.push_segment_.Size ≠ 0 := by omega
        simp only [Local.pendingSegments, hne, hne1, if_false] at h1
        simp only [hc0, hc1] at h2
        simp only [Local.pendingSegments] at hsum ⊢
        omega

theorem Sys.CountInv_publish (M : Nat) (hM : M < 65536) (st : Sys n E)
    (published : Fin n → Bool) (k : Fin n → Nat) (i : Fin n)
    (hinv : Sys.CountInv M st published k) (_hpub : published i = false) :
    ∃ r st1, Sys.step M st (Op.publish i) = some (r, st1) ∧
      Sys.CountInv M st1 (Function.update published i true) k := by
  obtain ⟨hwf, hpop, hunp, hp, hsum⟩ := hinv
  obtain ⟨v1, w1, hpublish, hv1, hw1, hempty, _⟩ :=
    Local.Publish_ok M hM (st.views i) st.pool (hwf.2 i) hwf.1
  have hpub_eq := Local.Publish_eq M (st.views i) st.pool
  rw [hpublish] at hpub_eq
  simp only [publishSlot_of_IsEmpty M _ _ (hpop i), Option.some.injEq, Prod.mk.injEq]
    at hpub_eq
  obtain ⟨hv1eq, hw1eq⟩ := hpub_eq
  have hv1pop : v1.pop_segment_ = (st.views i).pop_segment_ := by rw [hv1eq]
  have hv1push : v1.push_segment_.Size = 0 := by
    simp only [Local.IsLocalEmpty, Bool.and_eq_true] at hempty
    exact (Slot.IsEmpty_iff_Size _).1 hempty.1
  have hw1size : w1.size_ = st.pool.size_ + (st.views i).pendingSegments := by
    rw [hw1eq, publishSlot_pool]
    simp only [Local.pendingSegments]
    by_cases h0 : (st.views i).push_segment_.Size = 0
    · simp [h0, (Slot.IsEmpty_iff_Size _).2 h0]
    · have : (st.views i).push_segment_.IsEmpty = false := by
        cases hE : (st.views i).push_segment_.IsEmpty with
        | false => rfl
        | true => exact absurd ((Slot.IsEmpty_iff_Size _).1 hE) h0
      simp [h0, this]
  refine ⟨none, st.set i v1 w1, by simp [Sys.step, hpublish],
    Sys.set_WF M st i v1 w1 hwf hv1 hw1, ?_, ?_, ?_, ?_⟩
  · intro j
    by_cases hji : j = i
    · subst hji; simp only [Sys.set, Function.update_same]; rw [hv1pop]; exact hpop j
    · simp only [Sys.set, Function.update_noteq hji]; exact hpop j
  · intro j hj
    have hji : j ≠ i := by
      intro h; rw [h, Function.update_same] at hj; cases hj
    rw [Function.update_noteq hji] at hj
    simp only [Sys.set, Function.update_noteq hji]
    exact hunp j hj
  · intro j hj
    by_cases hji : j = i
    · subst hji; simp only [Sys.set, Function.update_same]; exact hv1push
    · rw [Function.update_noteq hji] at hj
      simp only [Sys.set, Function.update_noteq hji]
      exact hp j hj
  · have h1 := sum_add_of_eq_off
      (fun j => ((st.set i v1 w1).views j).pendingSegments)
      (fun j => (st.views j).pendingSegments) i
      (fun j hji => by simp only [Sys.set, Function.update_noteq hji])
    simp only [Sys.set, Function.update_same] at h1
    have hv1pend : v1.pendingSegments = 0 := by simp [Local.pendingSegments, hv1push]
    simp only [Sys.set]
    omega

theorem Sys.pushCount_zero_add (i : Fin n) (ops : List (Op n E)) (k : Fin n → Nat)
    (j : Fin n) (e : E) :
    Function.update k i (k i + 1) j + Sys.pushCount j ops =
      k j + Sys.pushCount j (Op.push i e :: ops) := by
  by_cases hji : j = i
  · subst hji
    simp only [Function.update_same, Sys.pushCount, if_true]
    omega
  · have hij : ¬ i = j := fun h => hji h.symm
    simp only [Function.update_noteq hji, Sys.pushCount, hij, if_false]
    omega

/-- In any interleaving in which every view pushes and then publishes once, the run succeeds
and the pool ends with the sum of `ceil(pushes of view i / M)` segments. -/
theorem Sys.run_count (M : Nat) (hM1 : 1 ≤ M) (hM : M < 65536) (ops : List (Op n E)) :
    ∀ (st : Sys n E) (published : Fin n → Bool) (k : Fin n → Nat),
      Sys.CountInv M st published k → Sys.PushThenPublish published ops →
      ∃ popped st1, Sys.run M st ops = some (popped, st1) ∧ st1.WF M ∧
        st1.pool.size_ = Finset.univ.sum (fun i => ceilDiv (k i + Sys.pushCount i ops) M) := by
  induction ops with
  | nil =>
    intro st published k hinv hs
    obtain ⟨hwf, _, _, hp, hsum⟩ := hinv
    refine ⟨[], st, rfl, hwf, ?_⟩
    have hzero : Finset.univ.sum (fun i => (st.views i).pendingSegments) = 0 := by
      apply Finset.sum_eq_zero
      intro i _
      simp [Local.pendingSegments, hp i (hs i)]
    simp only [Sys.pushCount, Nat.add_zero]
    omega
  | cons op ops ih =>
    intro st published k hinv hs
    cases op with
    | push i e =>
      obtain ⟨hpub, hs1⟩ := hs
      obtain ⟨r, st1, hstep, hinv1⟩ := Sys.CountInv_push M hM1 hM st published k i e hinv hpub
      obtain ⟨popped, st2, hrun, hwf2, hsz⟩ := ih st1 published _ hinv1 hs1
      refine ⟨r.toList ++ popped, st2, by simp [Sys.run, hstep, hrun], hwf2, ?_⟩
      rw [hsz]
      exact Finset.sum_congr rfl (fun j _ => by rw [Sys.pushCount_zero_add])
    | pop i => exact absurd hs (by simp [Sys.PushThenPublish])
    | publish i =>
      obtain ⟨hpub, hs1⟩ := hs
      obtain ⟨r, st1, hstep, hinv1⟩ := Sys.CountInv_publish M hM st published k i hinv hpub
      obtain ⟨popped, st2, hrun, hwf2, hsz⟩ := ih st1 _ k hinv1 hs1
      refine ⟨r.toList ++ popped, st2, by simp [Sys.run, hstep, hrun], hwf2, ?_⟩
      rw [hsz]
      rfl

theorem Sys.init_CountInv (M : Nat) (hM1 : 1 ≤ M) :
    Sys.CountInv M (Sys.init : Sys n E) (fun _ => false) (fun _ => 0) := by
  refine ⟨Sys.init_WF M, fun _ => rfl, fun _ _ => Or.inl ⟨rfl, rfl⟩, ?_, ?_⟩
  · intro i h; cases h
  · simp [Sys.init, Worklist.init, Local.attach, Local.pendingSegments, Slot.Size,
      ceilDiv_zero M hM1]

theorem ceilDiv_finsum_le (M : Nat) (hM1 : 1 ≤ M) (k : Fin n → Nat) :
    ceilDiv (Finset.univ.sum k) M ≤ Finset.univ.sum (fun i => ceilDiv (k i) M) := by
  apply ceilDiv_le_of_le_mul M _ _ hM1
  rw [Finset.sum_mul]
  exact Finset.sum_le_sum (fun i _ => le_ceilDiv_mul M (k i) hM1)

end Interleaving

section ReachableStates

variable {n : Nat} {E : Type}

/-- Every reachable state satisfies the invariant. -/
theorem Sys.Reachable_WF (M : Nat) (hM1 : 1 ≤ M) (hM : M < 65536) (st : Sys n E)
    (h : Sys.Reachable M st) : st.WF M := by
  induction h with
  | init => exact Sys.init_WF M
  | step st op r st1 _ hstep ih =>
    obtain ⟨r1, st2, hstep1, hst2, _⟩ := Sys.step_ok M hM1 hM st op ih
    rw [hstep] at hstep1
    cases hstep1
    exact hst2
  | clear st i _ ih =>
    exact Sys.set_WF M st i _ _ ih (Local.Clear_WF M _ (ih.2 i)) ih.1
  | poolClear st _ ih =>
    exact ⟨⟨rfl, by intro s hs; simp [Worklist.Clear] at hs⟩, ih.2⟩
  | poolUpdate st σ callback s0 s1 w1 _ hupd ih =>
    exact ⟨Worklist.poolUpdate_WF M callback s0 st.pool ih.1 s1 w1 hupd, ih.2⟩

end ReachableStates

/-! ## Iterate -/

section IterateLemmas

variable {E σ : Type}

theorem Segment.IterateLoop_eq (callback : σ → E → σ) (n : Nat) :
    ∀ (i : Nat) (st : σ) (storage : List E), i + n ≤ storage.length →
      Segment.IterateLoop callback n i st storage =
        some (((storage.drop i).take n).foldl callback st) := by
  induction n with
  | zero =>
    intro i st storage _
    simp [Segment.IterateLoop]
  | succ n ih =>
    intro i st storage hlen
    have hi : i < storage.length := by omega
    have hdrop : (storage.drop i).take (n + 1) =
        storage[i] :: (storage.drop (i + 1)).take n := by
      rw [List.drop_eq_getElem_cons hi, List.take_succ_cons]
    simp only [Segment.IterateLoop, List.getElem?_eq_getElem hi]
    rw [ih (i + 1) _ storage (by omega), hdrop, List.foldl_cons]

theorem Segment.Iterate_eq (callback : σ → E → σ) (st : σ) (s : Segment E)
    (hs : s.index_ ≤ s.storage.length) :
    s.Iterate callback st = some (s.live.foldl callback st) := by
  unfold Segment.Iterate
  rw [Segment.IterateLoop_eq callback s.index_ 0 st s.storage (by omega)]
  simp [Segment.live]

theorem Worklist.poolIterateLoop_eq (callback : σ → E → σ) (segs : List (Segment E)) :
    ∀ (st : σ), (∀ s ∈ segs, s.index_ ≤ s.storage.length) →
      Worklist.IterateLoop callback st segs =
        some ((segs.flatMap Segment.live).foldl callback st) := by
  induction segs with
  | nil =>
    intro st _
    simp [Worklist.IterateLoop]
  | cons s segs ih =>
    intro st hs
    simp only [Worklist.IterateLoop,
      Segment.Iterate_eq callback st s (hs s (List.mem_cons_self _ _))]
    rw [ih _ (fun t ht => hs t (List.mem_cons_of_mem _ ht))]
    simp [List.flatMap_cons, List.foldl_append]

theorem foldl_logCallback (l log : List E) : l.foldl logCallback log = log ++ l := by
  induction l generalizing log with
  | nil => simp
  | cons a l ih => simp [List.foldl_cons, ih, logCallback]

end IterateLemmas

/-! ## Merge -/

section MergeLemmas

variable {P E : Type} [DecidableEq P]

theorem Worklist.MergeAt_self (pools : P → Worklist E) (a : P) :
    Worklist.MergeAt pools a a = pools := by
  unfold Worklist.MergeAt
  split
  · rfl
  · next top rest htop =>
    funext c
    by_cases hc : c = a
    · subst hc
      simp only [Function.update_same, List.append_nil, Nat.zero_add]
      rw [← htop]
    · simp only [Function.update_noteq hc]

theorem Worklist.MergeAt_ne (pools : P → Worklist E) (a b : P) (hab : a ≠ b) :
    Worklist.MergeAt pools a b a = (Worklist.Merge (pools a) (pools b)).1 ∧
    Worklist.MergeAt pools a b b = (Worklist.Merge (pools a) (pools b)).2 ∧
    ∀ c, c ≠ a → c ≠ b → Worklist.MergeAt pools a b c = pools c := by
  have hba : b ≠ a := fun h => hab h.symm
  cases htop : (pools b).top_ with
  | nil =>
    simp [Worklist.MergeAt, Worklist.Merge, htop]
  | cons top rest =>
    simp only [Worklist.MergeAt, Worklist.Merge, htop]
    refine ⟨?_, ?_, ?_⟩
    · simp only [Function.update_same, Function.update_noteq hab]
    · simp only [Function.update_same, Function.update_noteq hba]
    · intro c hca hcb
      simp only [Function.update_noteq hca, Function.update_noteq hcb]

theorem Worklist.Merge_spec (A B : Worklist E) (hB : B.size_ = B.top_.length) :
    (Worklist.Merge A B).2 = { top_ := [], size_ := 0 } ∧
    (Worklist.Merge A B).1 = { top_ := B.top_ ++ A.top_, size_ := A.size_ + B.size_ } := by
  cases htop : B.top_ with
  | nil =>
    have hsz : B.size_ = 0 := by rw [hB, htop]; rfl
    have hBeq : B = { top_ := [], size_ := 0 } := by
      cases B; simp_all
    simp only [Worklist.Merge, htop, hsz, List.nil_append, Nat.add_zero]
    exact ⟨hBeq, trivial⟩
  | cons t rest =>
    simp only [Worklist.Merge, htop]
    exact ⟨trivial, trivial⟩

theorem Slot.length_publishedSegment (r : Slot E) :
    r.publishedSegment.length = (if r.IsEmpty then 0 else 1) := by
  cases r with
  | sentinel => rfl
  | owned s =>
    by_cases h : s.IsEmpty = true
    · simp [Slot.publishedSegment, Slot.IsEmpty, h]
    · simp [Slot.publishedSegment, Slot.IsEmpty, h]

/-- The pool after `Publish`, in closed form. -/
theorem Local.Publish_pool (M : Nat) (v : Local E) (w : Worklist E) :
    ∃ v1 w1, Local.Publish M v w = some (v1, w1) ∧ v1.IsLocalEmpty = true ∧
      w1.top_ = v.pop_segment_.publishedSegment ++ (v.push_segment_.publishedSegment ++ w.top_) ∧
      w1.size_ = w.size_ + v.push_segment_.publishedSegment.length +
        v.pop_segment_.publishedSegment.length ∧
      ((w1.entries : List E) : Multiset E) =
        (w.entries : Multiset E) + (v.entries : Multiset E) := by
  refine ⟨_, _, Local.Publish_eq M v w, ?_, ?_, ?_, ?_⟩
  · simp [Local.IsLocalEmpty, publishSlot_IsEmpty]
  · rw [publishSlot_pool, publishSlot_pool]
  · rw [publishSlot_pool, publishSlot_pool, Slot.length_publishedSegment,
      Slot.length_publishedSegment]
  · rw [publishSlot_entries, publishSlot_entries, Local.coe_entries]
    abel

end MergeLemmas

/-! ## Lock order -/

section LockOrder

theorem locksHeld_SwapLocking (a b : Nat) (hab : a ≠ b) (pc : Nat) :
    locksHeld (Worklist.SwapLocking a b) pc =
      (if pc = 0 then [] else if pc = 1 then [a] else if pc = 2 then [b, a]
       else if pc = 3 then [a] else []) := by
  have hba : b ≠ a := fun h => hab h.symm
  rcases pc with _ | _ | _ | _ | pc
  · rfl
  · rfl
  · rfl
  · simp [locksHeld, Worklist.SwapLocking]
  · simp [locksHeld, Worklist.SwapLocking]

theorem canStep_SwapLocking (a b c d : Nat) (hab : a ≠ b) (pc1 pc2 : Nat) :
    canStep (Worklist.SwapLocking a b) (Worklist.SwapLocking c d) pc1 pc2 =
      (if pc1 = 0 then !(locksHeld (Worklist.SwapLocking c d) pc2).contains a
       else if pc1 = 1 then !(locksHeld (Worklist.SwapLocking c d) pc2).contains b
       else if pc1 = 2 then true else if pc1 = 3 then true else false) := by
  have hba : b ≠ a := fun h => hab h.symm
  rcases pc1 with _ | _ | _ | _ | pc1
  · simp [canStep, Worklist.SwapLocking, locksHeld]
  · simp [canStep, Worklist.SwapLocking, locksHeld, hba]
  · simp [canStep, Worklist.SwapLocking]
  · simp [canStep, Worklist.SwapLocking]
  · simp [canStep, Worklist.SwapLocking]

/-- Two `Swap` calls, each on two distinct pools, are never deadlocked unless they swap the
same two pools in opposite directions. -/
theorem not_deadlocked_SwapLocking (a b c d : Nat) (hab : a ≠ b) (hcd : c ≠ d)
    (hopp : ¬ (a = d ∧ b = c)) (pc1 pc2 : Nat) :
    deadlocked (Worklist.SwapLocking a b) (Worklist.SwapLocking c d) pc1 pc2 = false := by
  unfold deadlocked
  rw [canStep_SwapLocking a b c d hab, canStep_SwapLocking c d a b hcd,
    locksHeld_SwapLocking a b hab, locksHeld_SwapLocking c d hcd]
  have h1 : pc1 = 0 ∨ pc1 = 1 ∨ pc1 = 2 ∨ pc1 = 3 ∨ 4 ≤ pc1 := by omega
  have h2 : pc2 = 0 ∨ pc2 = 1 ∨ pc2 = 2 ∨ pc2 = 3 ∨ 4 ≤ pc2 := by omega
  have hlen : ∀ x y : Nat, (Worklist.SwapLocking x y).length = 4 := fun _ _ => rfl
  rw [hlen, hlen]
  rcases h1 with h1 | h1 | h1 | h1 | h1 <;> rcases h2 with h2 | h2 | h2 | h2 | h2
  all_goals first
    | (subst h1; subst h2; simp; try omega)
    | (subst h1; have : ¬ pc2 < 4 := by omega
       have e0 : pc2 ≠ 0 := by omega
       have e1 : pc2 ≠ 1 := by omega
       have e2 : pc2 ≠ 2 := by omega
       have e3 : pc2 ≠ 3 := by omega
       simp [this, e0, e1, e2, e3])
    | (subst h2; have : ¬ pc1 < 4 := by omega
       have e0 : pc1 ≠ 0 := by omega
       have e1 : pc1 ≠ 1 := by omega
       have e2 : pc1 ≠ 2 := by omega
       have e3 : pc1 ≠ 3 := by omega
       simp [this, e0, e1, e2, e3])
    | (have : ¬ pc1 < 4 := by omega
       have : ¬ pc2 < 4 := by omega
       simp [*])

end LockOrder

/-! ## The counter invariant -/

section CounterInvariant

variable {E σ : Type}

theorem Worklist.poolUpdateLoop_count (callback : σ → E → E → σ × E × Bool) (size_ : Nat)
    (segs : List (Segment E)) :
    ∀ (st st1 : σ) (rest : List (Segment E)) (num_deleted : Nat),
      Worklist.UpdateLoop callback size_ st segs = some (st1, rest, num_deleted) →
      rest.length + num_deleted = segs.length := by
  induction segs with
  | nil =>
    intro st st1 rest nd h
    simp only [Worklist.UpdateLoop] at h
    cases h
    rfl
  | cons s segs ih =>
    intro st st1 rest nd h
    simp only [Worklist.UpdateLoop] at h
    split at h
    · cases h
    · split at h
      · split at h
        · cases h
        · split at h
          · next st3 rest1 nd1 hloop =>
            have := ih _ st3 rest1 nd1 hloop
            cases h
            simp only [List.length_cons]; omega
          · cases h
      · split at h
        · next st3 rest1 nd1 hloop =>
          have := ih _ st3 rest1 nd1 hloop
          cases h
          simp only [List.length_cons]; omega
        · cases h

/-- Every reachable pool has its counter equal to the number of linked segments. -/
theorem Worklist.Reachable_counter (w : Worklist E) (h : Worklist.Reachable w) :
    w.size_ = w.top_.length := by
  induction h with
  | init => rfl
  | push w segment w1 _ hpush ih =>
    simp only [Worklist.Push] at hpush
    split at hpush
    · cases hpush
    · cases hpush
      simp [ih]
  | pop w r w1 _ hpop ih =>
    simp only [Worklist.Pop] at hpop
    split at hpop
    · cases hpop; exact ih
    · next top next htop =>
      split at hpop
      · cases hpop
      · next hne =>
        cases hpop
        have h1 : 1 ≤ w.size_ := by omega
        simp only [Worklist.fetchSub, h1, if_true]
        rw [ih, htop]
        simp
  | clear w _ _ => rfl
  | update w σ callback s0 s1 w1 _ hupd ih =>
    simp only [Worklist.Update] at hupd
    split at hupd
    · next st2 rest nd hloop =>
      have hlen := Worklist.poolUpdateLoop_count callback _ _ _ _ _ _ hloop
      cases hupd
      have hle : nd ≤ w.size_ := by omega
      simp only [Worklist.fetchSub, hle, if_true]
      omega
    · cases hupd
  | mergeThis w other _ _ ih1 ih2 =>
    rw [(Worklist.Merge_spec w other ih2).2]
    simp only [List.length_append]
    omega
  | mergeOther this w _ _ _ ih2 =>
    rw [(Worklist.Merge_spec this w ih2).1]
    rfl
  | mergeSelf w _ ih =>
    rw [Worklist.MergeAt_self]
    exact ih
  | swapThis w other _ _ _ ih2 => exact ih2
  | swapOther this w _ _ ih1 _ => exact ih1

end CounterInvariant

/-! ## The invariant of several pools with views -/

section WorldLemmas

variable {E σ : Type}

theorem forall_update {α β : Type} [DecidableEq α] (Q : β → Prop) (f : α → β) (a : α) (v : β)
    (hf : ∀ c, Q (f c)) (hv : Q v) : ∀ c, Q (Function.update f a v c) := by
  intro c
  by_cases hc : c = a
  · subst hc; rw [Function.update_same]; exact hv
  · rw [Function.update_noteq hc]; exact hf c

theorem Local.Push_keeps_WF (M : Nat) (hM1 : 1 ≤ M) (hM : M < 65536) (v : Local E)
    (w : Worklist E) (e : E) (hv : v.WF M) (hw : w.WF M) (v1 : Local E) (w1 : Worklist E)
    (h : Local.Push M v w e = some (v1, w1)) : v1.WF M ∧ w1.WF M := by
  obtain ⟨v2, w2, hp, hv2, hw2, _⟩ := Local.Push_ok M hM1 hM v w e hv hw
  rw [h] at hp
  cases hp
  exact ⟨hv2, hw2⟩

theorem Local.Pop_keeps_WF (M : Nat) (v : Local E) (w : Worklist E) (hv : v.WF M)
    (hw : w.WF M) (r : Option E) (v1 : Local E) (w1 : Worklist E)
    (h : Local.Pop v w = some (r, v1, w1)) : v1.WF M ∧ w1.WF M := by
  obtain ⟨r2, v2, w2, hp, hv2, hw2, _⟩ := Local.Pop_ok M v w hv hw
  rw [h] at hp
  cases hp
  exact ⟨hv2, hw2⟩

theorem Local.Publish_keeps_WF (M : Nat) (hM : M < 65536) (v : Local E) (w : Worklist E)
    (hv : v.WF M) (hw : w.WF M) (v1 : Local E) (w1 : Worklist E)
    (h : Local.Publish M v w = some (v1, w1)) : v1.WF M ∧ w1.WF M := by
  obtain ⟨v2, w2, hp, hv2, hw2, _⟩ := Local.Publish_ok M hM v w hv hw
  rw [h] at hp
  cases hp
  exact ⟨hv2, hw2⟩

theorem Worklist.Merge_keeps_WF (M : Nat) (A B : Worklist E) (hA : A.WF M) (hB : B.WF M) :
    (Worklist.Merge A B).1.WF M ∧ (Worklist.Merge A B).2.WF M := by
  obtain ⟨h2, h1⟩ := Worklist.Merge_spec A B hB.1
  rw [h1, h2]
  refine ⟨⟨?_, ?_⟩, ⟨rfl, ?_⟩⟩
  · simp only [List.length_append]
    have := hA.1
    have := hB.1
    omega
  · intro s hs
    rcases List.mem_append.1 hs with h | h
    · exact hB.2 s h
    · exact hA.2 s h
  · intro s hs
    simp at hs

theorem Worklist.MergeAt_keeps_WF {P : Type} [DecidableEq P] (M : Nat)
    (pools : P → Worklist E) (a b : P) (h : ∀ c, (pools c).WF M) :
    ∀ c, (Worklist.MergeAt pools a b c).WF M := by
  by_cases hab : a = b
  · subst hab
    rw [Worklist.MergeAt_self]
    exact h
  · obtain ⟨h1, h2, h3⟩ := Worklist.MergeAt_ne pools a b hab
    obtain ⟨g1, g2⟩ := Worklist.Merge_keeps_WF M (pools a) (pools b) (h a) (h b)
    intro c
    by_cases hca : c = a
    · subst hca; rw [h1]; exact g1
    · by_cases hcb : c = b
      · subst hcb; rw [h2]; exact g2
      · rw [h3 c hca hcb]; exact h c

theorem Worklist.SwapAt_keeps_WF {P : Type} [DecidableEq P] (M : Nat)
    (pools pools1 : P → Worklist E) (a b : P) (h : ∀ c, (pools c).WF M)
    (hs : Worklist.SwapAt pools a b = some pools1) : ∀ c, (pools1 c).WF M := by
  unfold Worklist.SwapAt at hs
  split at hs
  · cases hs
  · cases hs
    apply forall_update (fun w => Worklist.WF M w)
    · apply forall_update (fun w => Worklist.WF M w) _ _ _ h
      exact h b
    · exact h a

theorem Worklist.poolClear_keeps_WF (M : Nat) (w : Worklist E) : w.Clear.WF M :=
  ⟨rfl, by intro s hs; simp [Worklist.Clear] at hs⟩

/-- Every reachable state of several pools with views satisfies the invariant. -/
theorem World.Reachable_keeps_WF {p n : Nat} (M : Nat) (hM1 : 1 ≤ M) (hM : M < 65536)
    (att : Fin n → Fin p) (wd : World p n E) (h : World.Reachable M att wd) : wd.WF M := by
  induction h with
  | init =>
    exact ⟨fun _ => ⟨rfl, by intro s hs; simp [World.init, Worklist.init] at hs⟩,
      fun _ => ⟨trivial, trivial⟩⟩
  | push wd i e v w _ hp ih =>
    obtain ⟨hv, hw⟩ := Local.Push_keeps_WF M hM1 hM _ _ e (ih.2 i) (ih.1 (att i)) v w hp
    exact ⟨forall_update (fun w => Worklist.WF M w) _ _ _ ih.1 hw,
      forall_update (fun v => Local.WF M v) _ _ _ ih.2 hv⟩
  | pop wd i r v w _ hp ih =>
    obtain ⟨hv, hw⟩ := Local.Pop_keeps_WF M _ _ (ih.2 i) (ih.1 (att i)) r v w hp
    exact ⟨forall_update (fun w => Worklist.WF M w) _ _ _ ih.1 hw,
      forall_update (fun v => Local.WF M v) _ _ _ ih.2 hv⟩
  | publish wd i v w _ hp ih =>
    obtain ⟨hv, hw⟩ := Local.Publish_keeps_WF M hM _ _ (ih.2 i) (ih.1 (att i)) v w hp
    exact ⟨forall_update (fun w => Worklist.WF M w) _ _ _ ih.1 hw,
      forall_update (fun v => Local.WF M v) _ _ _ ih.2 hv⟩
  | clear wd i _ ih =>
    exact ⟨ih.1, forall_update (fun v => Local.WF M v) _ _ _ ih.2
      (Local.Clear_WF M _ (ih.2 i))⟩
  | merge wd i j l o pools1 _ hm ih =>
    simp only [Local.Merge] at hm
    split at hm
    · cases hm
    · next o1 w1 hpub =>
      obtain ⟨ho, hw⟩ :=
        Local.Publish_keeps_WF M hM _ _ (ih.2 j) (ih.1 (att j)) o1 w1 hpub
      cases hm
      exact ⟨Worklist.MergeAt_keeps_WF M _ _ _
          (forall_update (fun w => Worklist.WF M w) _ _ _ ih.1 hw),
        forall_update (fun v => Local.WF M v) _ _ _ ih.2 ho⟩
  | poolMerge wd a b _ ih =>
    exact ⟨Worklist.MergeAt_keeps_WF M _ _ _ ih.1, ih.2⟩
  | poolSwap wd a b pools1 _ hs ih =>
    exact ⟨Worklist.SwapAt_keeps_WF M _ _ a b ih.1 hs, ih.2⟩
  | poolClear wd a _ ih =>
    exact ⟨forall_update (fun w => Worklist.WF M w) _ _ _ ih.1
      (Worklist.poolClear_keeps_WF M _), ih.2⟩
  | poolUpdate wd a σ callback s0 s1 w1 _ hupd ih =>
    exact ⟨forall_update (fun w => Worklist.WF M w) _ _ _ ih.1
      (Worklist.poolUpdate_WF M callback s0 _ (ih.1 a) s1 w1 hupd), ih.2⟩

end WorldLemmas

/-! ## Update always returns on a well-formed pool -/

section UpdateTotal

variable {E σ : Type}

theorem Segment.UpdateLoop_total (callback : σ → E → E → σ × E × Bool) (n : Nat) :
    ∀ (i k : Nat) (st : σ) (storage : List E), k ≤ i → i + n ≤ storage.length →
      ∃ r, Segment.UpdateLoop callback n i k st storage = some r := by
  induction n with
  | zero =>
    intro i k st storage _ _
    exact ⟨_, rfl⟩
  | succ n ih =>
    intro i k st storage hk hlen
    have hi : i < storage.length := by omega
    have hkl : k < storage.length := by omega
    simp only [Segment.UpdateLoop, List.getElem?_eq_getElem hi, List.getElem?_eq_getElem hkl]
    apply ih
    · split <;> omega
    · rw [List.length_set]; omega

theorem Segment.Update_total (M : Nat) (callback : σ → E → E → σ × E × Bool) (st : σ)
    (s : Segment E) (hs : s.WF M) : ∃ st1 s1, s.Update callback st = some (st1, s1) := by
  obtain ⟨⟨st1, k1, storage1⟩, hr⟩ :=
    Segment.UpdateLoop_total callback s.index_ 0 0 st s.storage (le_refl 0)
      (by have := hs.2.2; omega)
  exact ⟨st1, { s with index_ := k1 % 65536, storage := storage1 },
    by simp [Segment.Update, hr]⟩

theorem Worklist.poolUpdateLoop_total (M : Nat) (callback : σ → E → E → σ × E × Bool)
    (size_ : Nat) (segs : List (Segment E)) :
    ∀ (st : σ), (∀ s ∈ segs, s.WF M) → (segs ≠ [] → 0 < size_) →
      ∃ r, Worklist.UpdateLoop callback size_ st segs = some r := by
  induction segs with
  | nil =>
    intro st _ _
    exact ⟨_, rfl⟩
  | cons s segs ih =>
    intro st hwf hsz
    have h0 : size_ ≠ 0 := by have := hsz (by simp); omega
    obtain ⟨st1, s1, hupd⟩ :=
      Segment.Update_total M callback st s (hwf s (List.mem_cons_self _ _))
    obtain ⟨⟨st2, rest, nd⟩, hloop⟩ :=
      ih st1 (fun t ht => hwf t (List.mem_cons_of_mem _ ht)) (fun _ => by omega)
    by_cases he : s1.IsEmpty = true
    · exact ⟨(st2, rest, nd + 1), by simp [Worklist.UpdateLoop, hupd, he, h0, hloop]⟩
    · exact ⟨(st2, s1 :: rest, nd), by simp [Worklist.UpdateLoop, hupd, he, hloop]⟩

/-- `Worklist::Update` with any callback returns on a pool that satisfies the invariant, and
the pool satisfies the invariant afterwards. -/
theorem Worklist.poolUpdate_total (M : Nat) (callback : σ → E → E → σ × E × Bool) (st : σ)
    (w : Worklist E) (hw : w.WF M) :
    ∃ st1 w1, w.Update callback st = some (st1, w1) ∧ w1.WF M := by
  have hsz : w.top_ ≠ [] → 0 < w.size_ := by
    intro h
    rw [hw.1]
    exact List.length_pos.2 h
  obtain ⟨⟨st1, rest, nd⟩, hloop⟩ :=
    Worklist.poolUpdateLoop_total M callback w.size_ w.top_ st (fun s hs => (hw.2 s hs).1) hsz
  have hupd : w.Update callback st =
      some (st1, { top_ := rest, size_ := Worklist.fetchSub w.size_ nd }) := by
    simp [Worklist.Update, hloop]
  exact ⟨st1, _, hupd, Worklist.poolUpdate_WF M callback st w hw _ _ hupd⟩

end UpdateTotal

section PublishDchecks

variable {E : Type}

theorem Local.PublishPushSegment_of_full (M : Nat) (hM1 : 1 ≤ M) (v : Local E) (hv : v.WF M)
    (w : Worklist E) (hfull : v.push_segment_.IsFull = true) :
    ∃ r, Local.PublishPushSegment M v w = some r := by
  cases hpush : v.push_segment_ with
  | sentinel =>
    simp only [Local.PublishPushSegment, hpush]
    exact ⟨_, rfl⟩
  | owned s =>
    rw [hpush] at hfull
    have hswf : s.WF M := by have := hv.1; rw [hpush] at this; exact this
    have hidx : s.index_ = s.capacity_ := by simpa [Slot.IsFull, Segment.IsFull] using hfull
    have hne : s.IsEmpty = false := by
      simp [Segment.IsEmpty]; have := hswf.1; omega
    simp only [Local.PublishPushSegment, hpush, Worklist.Push, hne]
    exact ⟨_, rfl⟩

theorem Local.PublishPushSegment_of_nonempty (M : Nat) (v : Local E) (w : Worklist E)
    (hne : v.push_segment_.IsEmpty = false) :
    ∃ r, Local.PublishPushSegment M v w = some r := by
  obtain ⟨s, hs, hsne⟩ := Slot.IsEmpty_false_owned _ hne
  simp only [Local.PublishPushSegment, hs, Worklist.Push, hsne]
  exact ⟨_, rfl⟩

theorem Local.PublishPopSegment_of_nonempty (M : Nat) (v : Local E) (w : Worklist E)
    (hne : v.pop_segment_.IsEmpty = false) :
    ∃ r, Local.PublishPopSegment M v w = some r := by
  obtain ⟨s, hs, hsne⟩ := Slot.IsEmpty_false_owned _ hne
  simp only [Local.PublishPopSegment, hs, Worklist.Push, hsne]
  exact ⟨_, rfl⟩

end PublishDchecks

section SegmentPreconditions

variable {E : Type}

theorem World.afterPush3_Reachable :
    World.Reachable 2 (fun _ : Fin 1 => (0 : Fin 1)) World.afterPush3 :=
  World.Reachable.push World.afterPush2 0 3
    { push_segment_ := Slot.owned { capacity_ := 2, index_ := 1, storage := [3] },
      pop_segment_ := Slot.sentinel } poolOneTwo
    (World.Reachable.push World.afterPush1 0 2
      { push_segment_ := Slot.owned { capacity_ := 2, index_ := 2, storage := [1, 2] },
        pop_segment_ := Slot.sentinel } Worklist.init
      (World.Reachable.push World.init 0 1
        { push_segment_ := Slot.owned { capacity_ := 2, index_ := 1, storage := [1] },
          pop_segment_ := Slot.sentinel } Worklist.init World.Reachable.init rfl) rfl) rfl

/-- On a well-formed view `Local::Push` writes into an owned segment that is not full: the
segment of the push slot, or a new segment when that slot had to be published. -/
theorem Local.Push_writes (M : Nat) (hM1 : 1 ≤ M) (hM : M < 65536) (v : Local E)
    (w : Worklist E) (e : E) (hv : v.WF M) :
    ∃ s s1 v1 w1, (v.push_segment_ = Slot.owned s ∨ s = Local.NewSegment M) ∧
      s.IsFull = false ∧ s.Push e = some s1 ∧ s1.index_ = s.index_ + 1 ∧
      s1.index_ ≤ s1.capacity_ ∧
      Local.Push M v w e = some (v1, w1) ∧ v1.push_segment_ = Slot.owned s1 := by
  have hnewfull : (Local.NewSegment M : Segment E).IsFull = false := by
    have h0 : (0 : Nat) ≠ M := by omega
    simp [Local.NewSegment, Segment.Create, Segment.IsFull, Nat.mod_eq_of_lt hM, h0]
  have hnewpush := Segment.Create_Push M hM1 hM e
  cases hpush : v.push_segment_ with
  | sentinel =>
    exact ⟨Local.NewSegment M, _, _, _, Or.inr rfl, hnewfull, hnewpush, rfl, hM1,
      Local.Push_sentinel M hM1 hM v w e hpush, rfl⟩
  | owned s =>
    have hswf : s.WF M := by have := hv.1; rw [hpush] at this; exact this
    by_cases hfull : s.IsFull = true
    · have hidx : s.index_ = s.capacity_ := by simpa [Segment.IsFull] using hfull
      have hne : s.IsEmpty = false := by
        simp [Segment.IsEmpty]; have := hswf.1; omega
      exact ⟨Local.NewSegment M, _, _, _, Or.inr rfl, hnewfull, hnewpush, rfl, hM1,
        Local.Push_full M hM1 hM v w e s hpush hfull hne, rfl⟩
    · have hfull : s.IsFull = false := by simpa using hfull
      obtain ⟨s1, hp, hs1, _, hidx⟩ := Segment.Push_spec M hM s e hswf hfull
      exact ⟨s, s1, _, _, Or.inl rfl, hfull, hp, hidx, hs1.2.1,
        Local.Push_notFull M v w e s s1 hpush hfull hp, rfl⟩

/-- On a well-formed view and pool `Local::Pop` returns, and when it returns `true` it has
read from an owned segment that is not empty: the segment of the pop slot, of the push slot
(after the swap) or the head of the pool (after the steal). -/
theorem Local.Pop_reads (M : Nat) (v : Local E) (w : Worklist E) (hv : v.WF M) (hw : w.WF M) :
    ∃ r v1 w1, Local.Pop v w = some (r, v1, w1) ∧
      ∀ e, r = some e →
        ∃ s s1, (v.pop_segment_ = Slot.owned s ∨ v.push_segment_ = Slot.owned s ∨
            w.top_.head? = some s) ∧
          s.IsEmpty = false ∧ s.Pop = some (e, s1) ∧ s1.index_ + 1 = s.index_ ∧
          v1.pop_segment_ = Slot.owned s1 := by
  by_cases hpop : v.pop_segment_.IsEmpty = true
  · by_cases hpush : v.push_segment_.IsEmpty = true
    · by_cases hsz : w.size_ = 0
      · exact ⟨none, v, w, Local.Pop_poolEmpty v w hpop hpush hsz, fun e he => by cases he⟩
      · cases htop : w.top_ with
        | nil => exact absurd (by rw [hw.1, htop]; rfl) hsz
        | cons t rest =>
          have ht := hw.2 t (by rw [htop]; exact List.mem_cons_self _ _)
          have htne : t.IsEmpty = false := by
            simp [Segment.IsEmpty]; omega
          obtain ⟨e, t1, hp, _, _, hidx⟩ := Segment.Pop_spec M t ht.1 htne
          refine ⟨some e, _, _, Local.Pop_steal v w t t1 rest e hpop hpush hsz htop hp, ?_⟩
          intro e1 he1
          cases he1
          exact ⟨t, t1, Or.inr (Or.inr rfl), htne, hp, hidx, rfl⟩
    · have hpush : v.push_segment_.IsEmpty = false := by simpa using hpush
      obtain ⟨s, hs, hsne⟩ := Slot.IsEmpty_false_owned _ hpush
      have hswf : s.WF M := by have := hv.1; rw [hs] at this; exact this
      obtain ⟨e, s1, hp, _, _, hidx⟩ := Segment.Pop_spec M s hswf hsne
      refine ⟨some e, _, _, Local.Pop_swap v w s s1 e hpop hs hsne hp, ?_⟩
      intro e1 he1
      cases he1
      exact ⟨s, s1, Or.inr (Or.inl hs), hsne, hp, hidx, rfl⟩
  · have hpop : v.pop_segment_.IsEmpty = false := by simpa using hpop
    obtain ⟨s, hs, hsne⟩ := Slot.IsEmpty_false_owned _ hpop
    have hswf : s.WF M := by have := hv.2; rw [hs] at this; exact this
    obtain ⟨e, s1, hp, _, _, hidx⟩ := Segment.Pop_spec M s hswf hsne
    refine ⟨some e, _, _, Local.Pop_fromPop v w s s1 e hs hsne hp, ?_⟩
    intro e1 he1
    cases he1
    exact ⟨s, s1, Or.inl hs, hsne, hp, hidx, rfl⟩

end SegmentPreconditions

/-! ## Segment update as a filter-map -/

section SegmentFilterMap

variable {E σ : Type}

theorem filterMapSpec_length_le (f : σ → E → σ × Option E) (es : List E) :
    ∀ st, (filterMapSpec f st es).2.length ≤ es.length := by
  induction es with
  | nil => intro st; simp [filterMapSpec]
  | cons e es ih =>
    intro st
    rcases hf : f st e with ⟨st1, _ | v⟩
    · simp only [filterMapSpec, hf, List.length_cons]
      have := ih st1
      omega
    · simp only [filterMapSpec, hf, List.length_cons]
      have := ih st1
      omega

/-- The loop of `Segment::Update` with a storing callback: the cells below `new_index` are
extended by the values stored for the kept entries among the next `n` cells, each call having
seen the original content of its cell. -/
theorem Segment.UpdateLoop_filterMap (f : σ → E → σ × Option E) (n : Nat) :
    ∀ (i k : Nat) (st : σ) (storage : List E), k ≤ i → i + n ≤ storage.length →
    ∃ st1 k1 storage1,
      Segment.UpdateLoop (storingCallback f) n i k st storage = some (st1, k1, storage1) ∧
      st1 = (filterMapSpec f st ((storage.drop i).take n)).1 ∧
      k1 = k + (filterMapSpec f st ((storage.drop i).take n)).2.length ∧
      storage1.take k1 =
        storage.take k ++ (filterMapSpec f st ((storage.drop i).take n)).2 := by
  induction n with
  | zero =>
    intro i k st storage _ _
    exact ⟨st, k, storage, rfl, by simp [filterMapSpec], by simp [filterMapSpec],
      by simp [filterMapSpec]⟩
  | succ n ih =>
    intro i k st storage hk hlen
    have hi : i < storage.length := by omega
    have hkl : k < storage.length := by omega
    have hdropi : (storage.drop i).take (n + 1) =
        storage[i] :: (storage.drop (i + 1)).take n := by
      rw [List.drop_eq_getElem_cons hi, List.take_succ_cons]
    rcases hf : f st storage[i] with ⟨st1, _ | v⟩
    · have hcb : storingCallback f st storage[i] storage[k] = (st1, storage[k], false) := by
        simp [storingCallback, hf]
      have hunfold : Segment.UpdateLoop (storingCallback f) (n + 1) i k st storage =
          Segment.UpdateLoop (storingCallback f) n (i + 1) k st1
            (storage.set k storage[k]) := by
        simp [Segment.UpdateLoop, List.getElem?_eq_getElem hi, List.getElem?_eq_getElem hkl,
          hcb]
      have hlen1 : i + 1 + n ≤ (storage.set k storage[k]).length := by
        rw [List.length_set]; omega
      have hdrop : (storage.set k storage[k]).drop (i + 1) = storage.drop (i + 1) :=
        List.drop_set_of_lt _ storage (by omega)
      obtain ⟨st2, k2, storage2, hrun, hst, hk2, htake⟩ :=
        ih (i + 1) k st1 (storage.set k storage[k]) (by omega) hlen1
      rw [hdrop] at hst hk2 htake
      refine ⟨st2, k2, storage2, by rw [hunfold]; exact hrun, ?_, ?_, ?_⟩
      · rw [hdropi]; simp only [filterMapSpec, hf]; exact hst
      · rw [hdropi]; simp only [filterMapSpec, hf]; exact hk2
      · rw [hdropi]; simp only [filterMapSpec, hf]
        rw [htake, take_set_self]
    · have hcb : storingCallback f st storage[i] storage[k] = (st1, v, true) := by
        simp [storingCallback, hf]
      have hunfold : Segment.UpdateLoop (storingCallback f) (n + 1) i k st storage =
          Segment.UpdateLoop (storingCallback f) n (i + 1) (k + 1) st1 (storage.set k v) := by
        simp [Segment.UpdateLoop, List.getElem?_eq_getElem hi, List.getElem?_eq_getElem hkl,
          hcb]
      have hlen1 : i + 1 + n ≤ (storage.set k v).length := by
        rw [List.length_set]; omega
      have hdrop : (storage.set k v).drop (i + 1) = storage.drop (i + 1) :=
        List.drop_set_of_lt _ storage (by omega)
      obtain ⟨st2, k2, storage2, hrun, hst, hk2, htake⟩ :=
        ih (i + 1) (k + 1) st1 (storage.set k v) (by omega) hlen1
      rw [hdrop] at hst hk2 htake
      refine ⟨st2, k2, storage2, by rw [hunfold]; exact hrun, ?_, ?_, ?_⟩
      · rw [hdropi]; simp only [filterMapSpec, hf]; exact hst
      · rw [hdropi]; simp only [filterMapSpec, hf, List.length_cons]; omega
      · rw [hdropi]; simp only [filterMapSpec, hf]
        rw [htake, take_succ_set_self storage k v hkl]
        simp

end SegmentFilterMap

/-! ## The top of the push slot of each view -/

section TopOfPushSlot

variable {n : Nat} {E : Type}

theorem Sys.pushedOn_cons (i : Fin n) (op : Op n E) (ops : List (Op n E)) :
    Sys.pushedOn i (op :: ops) = Sys.pushedOn i [op] ++ Sys.pushedOn i ops := by
  cases op with
  | push j e =>
    by_cases h : j = i
    · simp [Sys.pushedOn, h]
    · simp [Sys.pushedOn, h]
  | pop j => simp [Sys.pushedOn]
  | publish j => simp [Sys.pushedOn]

theorem Sys.step_TopIsLastPushed (M : Nat) (hM1 : 1 ≤ M) (hM : M < 65536) (st : Sys n E)
    (i : Fin n) (op : Op n E) (pre : List E) (hst : st.WF M)
    (hlast : st.TopIsLastPushed i pre) (r : Option E) (st1 : Sys n E)
    (hstep : Sys.step M st op = some (r, st1)) :
    st1.TopIsLastPushed i (pre ++ Sys.pushedOn i [op]) := by
  intro s hs hne
  cases op with
  | push j e =>
    simp only [Sys.step] at hstep
    split at hstep
    · next v w hp =>
      cases hstep
      by_cases hji : j = i
      · subst hji
        obtain ⟨s1, hs1, hl⟩ := Local.Push_last M hM1 hM _ _ e (hst.2 j) v w hp
        simp only [Sys.set, Function.update_same] at hs
        rw [hs1] at hs
        cases hs
        simp [Sys.pushedOn, hl]
      · have hij : i ≠ j := fun h => hji h.symm
        simp only [Sys.set, Function.update_noteq hij] at hs
        simp only [Sys.pushedOn, hji, if_false, List.append_nil]
        exact hlast s hs hne
    · cases hstep
  | pop j =>
    simp only [Sys.step] at hstep
    split at hstep
    · next r1 v w hp =>
      cases hstep
      simp only [Sys.pushedOn, List.append_nil]
      by_cases hji : j = i
      · subst hji
        simp only [Sys.set, Function.update_same] at hs
        rcases Local.Pop_push_slot _ _ _ _ _ hp with h1 | h1
        · exact hlast s (by rw [← h1, hs]) hne
        · rw [hs] at h1
          rw [show (Slot.owned s).IsEmpty = s.IsEmpty from rfl, hne] at h1
          cases h1
      · have hij : i ≠ j := fun h => hji h.symm
        simp only [Sys.set, Function.update_noteq hij] at hs
        exact hlast s hs hne
    · cases hstep
  | publish j =>
    simp only [Sys.step] at hstep
    split at hstep
    · next v w hp =>
      cases hstep
      simp only [Sys.pushedOn, List.append_nil]
      by_cases hji : j = i
      · subst hji
        simp only [Sys.set, Function.update_same] at hs
        rw [Local.Publish_eq] at hp
        cases hp
        have h1 := publishSlot_IsEmpty M (st.views j).push_segment_ st.pool
        simp only at hs
        rw [hs, show (Slot.owned s).IsEmpty = s.IsEmpty from rfl, hne] at h1
        cases h1
      · have hij : i ≠ j := fun h => hji h.symm
        simp only [Sys.set, Function.update_noteq hij] at hs
        exact hlast s hs hne
    · cases hstep

/-- After any run from a well-formed state the invariant on the top of the push slot of view
`i` holds for the values pushed on that view. -/
theorem Sys.run_TopIsLastPushed (M : Nat) (hM1 : 1 ≤ M) (hM : M < 65536) (i : Fin n)
    (ops : List (Op n E)) :
    ∀ (st : Sys n E) (pre : List E), st.WF M → st.TopIsLastPushed i pre →
      ∀ popped st1, Sys.run M st ops = some (popped, st1) →
        st1.TopIsLastPushed i (pre ++ Sys.pushedOn i ops) := by
  induction ops with
  | nil =>
    intro st pre _ hlast popped st1 hrun
    simp only [Sys.run] at hrun
    cases hrun
    simpa [Sys.pushedOn] using hlast
  | cons op ops ih =>
    intro st pre hst hlast popped st2 hrun
    obtain ⟨r, st1, hstep, hst1, _⟩ := Sys.step_ok M hM1 hM st op hst
    have h1 := Sys.step_TopIsLastPushed M hM1 hM st i op pre hst hlast r st1 hstep
    obtain ⟨popped1, st3, hrun1, _, _⟩ := Sys.run_ok M hM1 hM ops st1 hst1
    have := ih st1 (pre ++ Sys.pushedOn i [op]) hst1 h1 popped1 st3 hrun1
    simp only [Sys.run, hstep, hrun1] at hrun
    cases hrun
    rw [Sys.pushedOn_cons, ← List.append_assoc]
    exact this

end TopOfPushSlot

/-! ## A segment is a stack -/

section SegmentStack

variable {E : Type}

/-- Every segment that can exist has a `uint16_t` capacity, a fill index within the capacity,
and its live cells written. -/
theorem Segment.Reachable_invariant (s : Segment E) (h : Segment.Reachable s) :
    ∃ M, M < 65536 ∧ s.WF M := by
  induction h with
  | create n =>
    exact ⟨n % 65536, Nat.mod_lt _ (by decide),
      by simp [Segment.Create], by simp [Segment.Create], by simp [Segment.Create]⟩
  | push s e s1 _ hp ih =>
    obtain ⟨M, hM, hwf⟩ := ih
    have hfull : s.IsFull = false := by
      cases hf : s.IsFull with
      | false => rfl
      | true => simp [Segment.Push, hf] at hp
    obtain ⟨s2, hp2, hwf2, _, _⟩ := Segment.Push_spec M hM s e hwf hfull
    rw [hp] at hp2
    cases hp2
    exact ⟨M, hM, hwf2⟩
  | pop s e s1 _ hp ih =>
    obtain ⟨M, hM, hwf⟩ := ih
    have hne : s.IsEmpty = false := by
      cases hf : s.IsEmpty with
      | false => rfl
      | true => simp [Segment.Pop, hf] at hp
    obtain ⟨e2, s2, hp2, hwf2, _, _⟩ := Segment.Pop_spec M s hwf hne
    rw [hp] at hp2
    cases hp2
    exact ⟨M, hM, hwf2⟩
  | clear s _ ih =>
    obtain ⟨M, hM, hwf⟩ := ih
    exact ⟨M, hM, hwf.1, Nat.zero_le _, Nat.zero_le _⟩
  | update s σ callback st st1 s1 _ hu ih =>
    obtain ⟨M, hM, hwf⟩ := ih
    exact ⟨M, hM, (Segment.Update_WF M callback st s hwf st1 s1 hu).1⟩

/-- Pushing a list that fits: every `Push` passes its assertion and the entries are appended
to the live entries. -/
theorem Segment.pushAll_spec (M : Nat) (hM : M < 65536) (xs : List E) :
    ∀ s : Segment E, s.WF M → s.index_ + xs.length ≤ M →
      ∃ s1, s.pushAll xs = some s1 ∧ s1.WF M ∧ s1.live = s.live ++ xs ∧
        s1.index_ = s.index_ + xs.length := by
  induction xs with
  | nil =>
    intro s hwf _
    exact ⟨s, rfl, hwf, by simp, rfl⟩
  | cons x xs ih =>
    intro s hwf hfit
    simp only [List.length_cons] at hfit
    have hfull : s.IsFull = false := by
      have := hwf.1
      simp [Segment.IsFull]
      omega
    obtain ⟨s1, hp, hwf1, hlive1, hidx1⟩ := Segment.Push_spec M hM s x hwf hfull
    obtain ⟨s2, hp2, hwf2, hlive2, hidx2⟩ := ih s1 hwf1 (by omega)
    refine ⟨s2, by simp [Segment.pushAll, hp, hp2], hwf2, ?_, ?_⟩
    · rw [hlive2, hlive1, List.append_assoc, List.singleton_append]
    · rw [hidx2, hidx1, List.length_cons]
      omega

/-- Popping as many entries as the list `xs` on top of a segment: every `Pop` passes its
assertion and the entries come back in reverse order. -/
theorem Segment.popN_reverse (M : Nat) (xs : List E) :
    ∀ (s : Segment E) (base : List E), s.WF M → s.live = base ++ xs →
      ∃ s2, s.popN xs.length = some (xs.reverse, s2) ∧ s2.WF M ∧ s2.live = base ∧
        s2.index_ + xs.length = s.index_ := by
  induction xs using List.reverseRecOn with
  | nil =>
    intro s base hwf hlive
    exact ⟨s, rfl, hwf, by simpa using hlive, rfl⟩
  | append_singleton ys x ih =>
    intro s base hwf hlive
    have hlen := Segment.length_live M s hwf
    have hne : s.IsEmpty = false := by
      rw [hlive] at hlen
      simp only [List.length_append, List.length_singleton] at hlen
      simp [Segment.IsEmpty]
      omega
    obtain ⟨e, s1, hp, hwf1, hlive1, hidx1⟩ := Segment.Pop_spec M s hwf hne
    rw [hlive1, ← List.append_assoc] at hlive
    have hl := List.append_inj_left' hlive rfl
    have he := List.append_inj_right' hlive rfl
    have hex : e = x := by simpa using he
    subst hex
    obtain ⟨s2, hp2, hwf2, hlive2, hidx2⟩ := ih s1 base hwf1 hl
    refine ⟨s2, ?_, hwf2, hlive2, ?_⟩
    · simp [Segment.popN, hp, hp2]
    · simp only [List.length_append, List.length_singleton]
      omega

end SegmentStack

/-! ## Claims -/

section Claims

variable {E : Type}

/-- C1 (conservation).  For every number `n` of views attached to one initially empty pool,
every `MinSegmentSize` from 1 to 65535 and every finite sequence of `Push`, `Pop` and
`Publish` calls, the run succeeds, and the multiset of the values pushed is the multiset of
the values returned by successful `Pop`s plus the multiset of the entries still held in the
pool and in the slots of the views.  In particular, if there have been as many successful
`Pop`s as `Push`es, the values popped are, as a multiset, the values pushed. -/
theorem C1_conservation (n M : Nat) (hM1 : 1 ≤ M) (hM : M < 65536) (ops : List (Op n E)) :
    ∃ popped st, Sys.run M (Sys.init : Sys n E) ops = some (popped, st) ∧
      ((Sys.pushed ops : List E) : Multiset E) = ((popped : List E) : Multiset E) + st.held ∧
      (popped.length = (Sys.pushed ops).length →
        ((popped : List E) : Multiset E) = ((Sys.pushed ops : List E) : Multiset E)) := by
  obtain ⟨popped, st, hrun, _, hc⟩ := Sys.run_ok M hM1 hM ops Sys.init (Sys.init_WF M)
  rw [Sys.init_held, zero_add] at hc
  refine ⟨popped, st, hrun, hc, ?_⟩
  intro hlen
  have hcard := congrArg Multiset.card hc
  rw [Multiset.card_add, Multiset.coe_card, Multiset.coe_card, hlen] at hcard
  have hz : st.held = 0 := Multiset.card_eq_zero.1 (by omega)
  rw [hc, hz, add_zero]

/-- Witness for C1: two views, `MinSegmentSize = 2`; view 0 pushes 1, 2, 3 and publishes,
view 1 pops three times and gets 3, 2, 1. -/
theorem C1_conservation_witness :
    (1 ≤ 2 ∧ 2 < 65536) ∧
    (∃ popped st, Sys.run 2 (Sys.init : Sys 2 Nat) pushPublishSteal = some (popped, st) ∧
      ((Sys.pushed pushPublishSteal : List Nat) : Multiset Nat) =
        ((popped : List Nat) : Multiset Nat) + st.held ∧
      (popped.length = (Sys.pushed pushPublishSteal).length →
        ((popped : List Nat) : Multiset Nat) =
          ((Sys.pushed pushPublishSteal : List Nat) : Multiset Nat))) ∧
    (Sys.run 2 (Sys.init : Sys 2 Nat) pushPublishSteal).map Prod.fst = some [3, 2, 1] :=
  ⟨by decide, C1_conservation 2 2 (by decide) (by decide) pushPublishSteal, by decide⟩

/-- C2 (the boolean of `Local::Pop` indicates emptiness).  In every state reachable from a
fresh pool with freshly attached views (`MinSegmentSize` from 1 to 65535; by `Push`, `Pop`,
`Publish` and `Clear` on the views and `Clear` and `Update` on the pool), `Pop` on any view
returns; it returns `false` if and only if both slots of the view are empty and the pool
links no segment; when it returns `false` the view and the pool (list and counter) are
unchanged; when it returns `true` with `e`, the entries of the view and the pool before are
those afterwards plus the one entry `e`. -/
theorem C2_pop_false_iff_empty (n M : Nat) (hM1 : 1 ≤ M) (hM : M < 65536) (st : Sys n E)
    (hreach : Sys.Reachable M st) (i : Fin n) :
    ∃ r v1 w1, Local.Pop (st.views i) st.pool = some (r, v1, w1) ∧
      (r = none ↔
        (st.views i).push_segment_.IsEmpty = true ∧ (st.views i).pop_segment_.IsEmpty = true ∧
          st.pool.top_ = []) ∧
      (r = none → v1 = st.views i ∧ w1 = st.pool) ∧
      (∀ e, r = some e →
        ((st.views i).entries : Multiset E) + (st.pool.entries : Multiset E) =
          e ::ₘ ((v1.entries : Multiset E) + (w1.entries : Multiset E))) := by
  have hwf := Sys.Reachable_WF M hM1 hM st hreach
  obtain ⟨r, v1, w1, hp, _, _, hiff, hnone, hsome⟩ :=
    Local.Pop_ok M (st.views i) st.pool (hwf.2 i) hwf.1
  exact ⟨r, v1, w1, hp, hiff, hnone, hsome⟩

/-- Witness for C2: the state after one `Push(7)` on a single view, `MinSegmentSize = 2`. -/
theorem C2_pop_false_iff_empty_witness :
    (1 ≤ 2 ∧ 2 < 65536 ∧ Sys.Reachable 2 Sys.afterPush7) ∧
    ∃ r v1 w1, Local.Pop (Sys.afterPush7.views 0) Sys.afterPush7.pool = some (r, v1, w1) ∧
      (r = none ↔
        (Sys.afterPush7.views 0).push_segment_.IsEmpty = true ∧
          (Sys.afterPush7.views 0).pop_segment_.IsEmpty = true ∧
          Sys.afterPush7.pool.top_ = []) ∧
      (r = none → v1 = Sys.afterPush7.views 0 ∧ w1 = Sys.afterPush7.pool) ∧
      (∀ e, r = some e →
        ((Sys.afterPush7.views 0).entries : Multiset Nat) +
            (Sys.afterPush7.pool.entries : Multiset Nat) =
          e ::ₘ ((v1.entries : Multiset Nat) + (w1.entries : Multiset Nat))) :=
  ⟨⟨by decide, by decide,
      Sys.Reachable.step Sys.init (Op.push 0 7) none Sys.afterPush7 Sys.Reachable.init rfl⟩,
    C2_pop_false_iff_empty 1 2 (by decide) (by decide) Sys.afterPush7
      (Sys.Reachable.step Sys.init (Op.push 0 7) none Sys.afterPush7 Sys.Reachable.init rfl) 0⟩

/-- C3 (amended; a single view is a bag with per-segment LIFO, not a stack).  For every
sequence of calls on a single view attached to an empty pool (`MinSegmentSize` from 1 to
65535) the run succeeds, and a `Pop` issued next returns; it returns `false` exactly when
every pushed value has been popped; when it returns `true` the value is one that was pushed
and has not been popped before; it is the most recently pushed value whenever the pop slot
is empty and the push slot is not at the time of the call; and it is the top entry of the
pop slot whenever the pop slot is not empty, whatever has been pushed since. -/
theorem C3_single_view_pop (M : Nat) (hM1 : 1 ≤ M) (hM : M < 65536) (ops : List (Op 1 E)) :
    ∃ popped st, Sys.run M (Sys.init : Sys 1 E) ops = some (popped, st) ∧
      ∃ r v1 w1, Local.Pop (st.views 0) st.pool = some (r, v1, w1) ∧
        (r = none ↔ ((popped : List E) : Multiset E) = ((Sys.pushed ops : List E) : Multiset E)) ∧
        (∀ e, r = some e →
          e ::ₘ ((popped : List E) : Multiset E) ≤ ((Sys.pushed ops : List E) : Multiset E)) ∧
        ((st.views 0).pop_segment_.IsEmpty = true →
          (st.views 0).push_segment_.IsEmpty = false → r = (Sys.pushed ops).getLast?) ∧
        ((st.views 0).pop_segment_.IsEmpty = false →
          r = (st.views 0).pop_segment_.live.getLast?) := by
  obtain ⟨popped, st, hrun, hwf, hc⟩ := Sys.run_ok M hM1 hM ops Sys.init (Sys.init_WF M)
  rw [Sys.init_held, zero_add, Sys.held_one] at hc
  replace hc : ((Sys.pushed ops : List E) : Multiset E) = (popped : Multiset E) +
      (((st.views 0).entries : Multiset E) + (st.pool.entries : Multiset E)) := by
    rw [hc]; abel
  have hlast := Sys.run_LastOnTop M hM1 hM ops Sys.init [] (Sys.init_WF M)
    (by intro s hs; simp [Sys.init, Local.attach] at hs) popped st hrun
  obtain ⟨r, v1, w1, hp, _, _, hiff, _, hsome⟩ :=
    Local.Pop_ok M (st.views 0) st.pool (hwf.2 0) hwf.1
  refine ⟨popped, st, hrun, r, v1, w1, hp, ?_, ?_, ?_, ?_⟩
  · constructor
    · intro hr
      obtain ⟨h1, h2, h3⟩ := hiff.1 hr
      have hpool : st.pool.entries = [] := by simp [Worklist.entries, h3]
      have hview : (st.views 0).entries = [] := by
        simp [Local.entries, Slot.slot_live_eq_nil _ h1, Slot.slot_live_eq_nil _ h2]
      rw [hc, hpool, hview]
      simp
    · intro heq
      cases r with
      | none => rfl
      | some e =>
        exfalso
        have h2 := hsome e rfl
        rw [h2, ← heq] at hc
        have hcard := congrArg Multiset.card hc
        simp only [Multiset.card_add, Multiset.card_cons] at hcard
        omega
  · intro e he
    have h2 := hsome e he
    rw [h2] at hc
    rw [hc, ← Multiset.singleton_add, ← Multiset.singleton_add, ← add_assoc,
      add_comm (popped : Multiset E)]
    exact Multiset.le_add_right _ _
  · intro hpop hpush
    obtain ⟨s, hs, hsne⟩ := Slot.IsEmpty_false_owned _ hpush
    have hswf : s.WF M := by have := (hwf.2 0).1; rw [hs] at this; exact this
    obtain ⟨e, s1, hpe, _, hlive, _⟩ := Segment.Pop_spec M s hswf hsne
    rw [Local.Pop_swap (st.views 0) st.pool s s1 e hpop hs hsne hpe] at hp
    cases hp
    have h3 := hlast s hs hsne
    simp only [List.nil_append] at h3
    rw [← h3, hlive]
    simp
  · intro hpop
    obtain ⟨s, hs, hsne⟩ := Slot.IsEmpty_false_owned _ hpop
    have hswf : s.WF M := by have := (hwf.2 0).2; rw [hs] at this; exact this
    obtain ⟨e, s1, hpe, _, hlive, _⟩ := Segment.Pop_spec M s hswf hsne
    rw [Local.Pop_fromPop (st.views 0) st.pool s s1 e hs hsne hpe] at hp
    cases hp
    rw [hs, Slot.live_owned, hlive]
    simp

/-- Witness for C3: after Push 1, Push 2, Pop, Push 3 with `MinSegmentSize = 2`. -/
theorem C3_single_view_pop_witness :
    (1 ≤ 2 ∧ 2 < 65536) ∧
    ∃ popped st, Sys.run 2 (Sys.init : Sys 1 Nat)
        [Op.push 0 1, Op.push 0 2, Op.pop 0, Op.push 0 3] = some (popped, st) ∧
      ∃ r v1 w1, Local.Pop (st.views 0) st.pool = some (r, v1, w1) ∧
        (r = none ↔ ((popped : List Nat) : Multiset Nat) =
          ((Sys.pushed ([Op.push 0 1, Op.push 0 2, Op.pop 0, Op.push 0 3] : List (Op 1 Nat)) :
            List Nat) : Multiset Nat)) ∧
        (∀ e, r = some e →
          e ::ₘ ((popped : List Nat) : Multiset Nat) ≤
            ((Sys.pushed ([Op.push 0 1, Op.push 0 2, Op.pop 0, Op.push 0 3] : List (Op 1 Nat)) :
              List Nat) : Multiset Nat)) ∧
        ((st.views 0).pop_segment_.IsEmpty = true →
          (st.views 0).push_segment_.IsEmpty = false →
          r = (Sys.pushed ([Op.push 0 1, Op.push 0 2, Op.pop 0, Op.push 0 3] :
            List (Op 1 Nat))).getLast?) ∧
        ((st.views 0).pop_segment_.IsEmpty = false →
          r = (st.views 0).pop_segment_.live.getLast?) :=
  ⟨by decide, C3_single_view_pop 2 (by decide) (by decide) _⟩

/-- Counterexample to C3 as stated: on a single view with `MinSegmentSize = 2` the sequence
Push 1, Push 2, Pop, Push 3, Pop returns 2 and then 1, where a stack returns 2 and then 3;
the pool is empty after every call (nothing is published, nothing is stolen). -/
theorem C3_not_a_stack :
    Sys.popResults 2 (Sys.init : Sys 1 Nat) pushPushPopPushPop = some [some 2, some 1] ∧
    stackPopResults ([] : List Nat) pushPushPopPushPop = [some 2, some 3] ∧
    (∀ k : Fin 6,
      (Sys.run 2 (Sys.init : Sys 1 Nat) (pushPushPopPushPop.take k)).map (fun x => x.2.pool) =
        some Worklist.init) := by
  decide

/-- C4 (`Publish` drains the view).  For every attached view and pool, `Local::Publish`
returns; afterwards `IsLocalEmpty()` is true; the segment of each slot that was not empty has
been linked in front of the pool's list (the push slot first, then the pool's new head is the
pop slot's segment), so `Size()` has grown by the number of non-empty slots; the pool's
entries are, as a multiset, its former entries plus the view's former local entries; and a
slot that was empty is left as it was. -/
theorem C4_publish_drains (M : Nat) (v : Local E) (w : Worklist E) :
    ∃ v1 w1, Local.Publish M v w = some (v1, w1) ∧
      v1.IsLocalEmpty = true ∧
      w1.top_ = v.pop_segment_.publishedSegment ++ (v.push_segment_.publishedSegment ++ w.top_) ∧
      w1.Size = w.Size + (if v.push_segment_.IsEmpty then 0 else 1) +
        (if v.pop_segment_.IsEmpty then 0 else 1) ∧
      ((w1.entries : List E) : Multiset E) =
        (w.entries : Multiset E) + (v.entries : Multiset E) ∧
      (v.push_segment_.IsEmpty = true → v1.push_segment_ = v.push_segment_) ∧
      (v.pop_segment_.IsEmpty = true → v1.pop_segment_ = v.pop_segment_) := by
  refine ⟨_, _, Local.Publish_eq M v w, ?_, ?_, ?_, ?_, ?_, ?_⟩
  · simp [Local.IsLocalEmpty, publishSlot_IsEmpty]
  · rw [publishSlot_pool, publishSlot_pool]
  · rw [publishSlot_pool, publishSlot_pool]
    rfl
  · rw [publishSlot_entries, publishSlot_entries, Local.coe_entries]
    abel
  · intro h
    simp only [publishSlot_of_IsEmpty M _ w h]
  · intro h
    simp only [publishSlot_of_IsEmpty M _ _ h]

/-- C5 (idempotent `Publish`).  For every attached view and pool, `Local::Publish` returns,
and a second `Local::Publish` issued immediately afterwards returns and leaves the view (both
slots) and the pool (list and counter) exactly as the first one left them. -/
theorem C5_publish_idempotent (M : Nat) (v : Local E) (w : Worklist E) :
    ∃ v1 w1, Local.Publish M v w = some (v1, w1) ∧ Local.Publish M v1 w1 = some (v1, w1) := by
  refine ⟨_, _, Local.Publish_eq M v w, ?_⟩
  rw [Local.Publish_eq]
  simp only [publishSlot_of_IsEmpty M _ _ (publishSlot_IsEmpty M _ _)]

/-- C6 (publish, then steal everything).  For every list `xs` of entries and every
`MinSegmentSize` from 1 to 65535: when a view attached to a fresh pool pushes `xs` in order
and publishes, and a fresh view attached to the same pool then calls `Pop`
`xs.length + 1` times, all calls succeed, the first `xs.length` `Pop`s return `true`, the
last returns `false`, the values returned are a permutation of `xs`, and afterwards the pool
is empty (no segment linked, `Size() = 0`) and both views are locally empty. -/
theorem C6_publish_then_steal (M : Nat) (hM1 : 1 ≤ M) (hM : M < 65536) (xs : List E) :
    ∃ (ys : List E) (l1 l2 : Local E) (w : Worklist E),
      publishThenSteal M xs = some (ys.map some ++ [none], l1, l2, w) ∧
      ys.length = xs.length ∧ ys.Perm xs ∧
      w.top_ = [] ∧ w.Size = 0 ∧ l1.IsLocalEmpty = true ∧ l2.IsLocalEmpty = true := by
  have hwf0 : (Worklist.init : Worklist E).WF M :=
    ⟨rfl, by intro s hs; simp [Worklist.init] at hs⟩
  have hat : (Local.attach : Local E).WF M := ⟨trivial, trivial⟩
  obtain ⟨l1, w1, hpush, hl1, hw1, _, hc1⟩ :=
    Local.pushAll_ok M hM1 hM xs Local.attach Worklist.init hat hwf0
  obtain ⟨l1p, w2, hpub, _, hw2, hempty, hc2⟩ := Local.Publish_ok M hM l1 w1 hl1 hw1
  have hl1p : l1p.entries = [] := by
    simp only [Local.IsLocalEmpty, Bool.and_eq_true] at hempty
    simp [Local.entries, Slot.slot_live_eq_nil _ hempty.1, Slot.slot_live_eq_nil _ hempty.2]
  have hw2e : ((w2.entries : List E) : Multiset E) = (xs : Multiset E) := by
    rw [hc1, hl1p] at hc2
    simpa [Local.attach, Local.entries, Slot.live, Worklist.init, Worklist.entries] using hc2
  have hcard : Multiset.card (((Local.attach : Local E).entries : Multiset E) +
      (w2.entries : Multiset E)) = xs.length := by
    rw [hw2e]
    simp [Local.attach, Local.entries, Slot.live]
  obtain ⟨ys, l2, w3, hpn, hys, hl2, hw3, hsz⟩ :=
    Local.popN_drain M xs.length Local.attach w2 hat hw2 hcard
  have hperm : ys.Perm xs := by
    rw [hw2e] at hys
    have : ((ys : List E) : Multiset E) = (xs : Multiset E) := by
      simpa [Local.attach, Local.entries, Slot.live] using hys
    exact Multiset.coe_eq_coe.1 this
  refine ⟨ys, l1p, l2, w3, ?_, hperm.length_eq, hperm, hw3, hsz, hempty, hl2⟩
  simp [publishThenSteal, hpush, hpub, hpn]

/-- Witness for C6: `xs = [1, 2, 3]` and `MinSegmentSize = 2`; the values come back as
3, 2, 1. -/
theorem C6_publish_then_steal_witness :
    (1 ≤ 2 ∧ 2 < 65536) ∧
    (∃ (ys : List Nat) (l1 l2 : Local Nat) (w : Worklist Nat),
      publishThenSteal 2 [1, 2, 3] = some (ys.map some ++ [none], l1, l2, w) ∧
      ys.length = [1, 2, 3].length ∧ ys.Perm [1, 2, 3] ∧
      w.top_ = [] ∧ w.Size = 0 ∧ l1.IsLocalEmpty = true ∧ l2.IsLocalEmpty = true) ∧
    (publishThenSteal 2 [1, 2, 3]).map (fun x => x.1) = some [some 3, some 2, some 1, none] :=
  ⟨by decide, C6_publish_then_steal 2 (by decide) (by decide) [1, 2, 3], by decide⟩

/-- C7 (segment-count bounds after publishing).  For a fresh pool with `n` attached views and
`MinSegmentSize = M` from 1 to 65535, and every sequence of calls, in any interleaving, in
which each view `L_i` pushes `x_i` entries, does not pop, and then calls `Publish`: all calls
succeed, and afterwards `Size()` is at least `ceil((sum of x_i) / M)` and at most the sum of
`ceil(x_i / M)` (which it equals); every linked segment has capacity exactly `M`, so `M` is
also the largest capacity of any segment. -/
theorem C7_segment_count_bounds (n M : Nat) (hM1 : 1 ≤ M) (hM : M < 65536)
    (ops : List (Op n E)) (hs : Sys.PushThenPublish (fun _ => false) ops) :
    ∃ popped st, Sys.run M (Sys.init : Sys n E) ops = some (popped, st) ∧
      ceilDiv (Finset.univ.sum (fun i => Sys.pushCount i ops)) M ≤ st.pool.Size ∧
      st.pool.Size ≤ Finset.univ.sum (fun i => ceilDiv (Sys.pushCount i ops) M) ∧
      st.pool.Size = Finset.univ.sum (fun i => ceilDiv (Sys.pushCount i ops) M) ∧
      ∀ s ∈ st.pool.top_, s.Capacity = M := by
  obtain ⟨popped, st, hrun, hwf, hsz⟩ :=
    Sys.run_count M hM1 hM ops Sys.init (fun _ => false) (fun _ => 0)
      (Sys.init_CountInv M hM1) hs
  simp only [Nat.zero_add] at hsz
  have hsize : st.pool.Size = Finset.univ.sum (fun i => ceilDiv (Sys.pushCount i ops) M) := hsz
  refine ⟨popped, st, hrun, ?_, le_of_eq hsize, hsize, fun s hs => (hwf.1.2 s hs).1.1⟩
  rw [hsize]
  exact ceilDiv_finsum_le M hM1 (fun i => Sys.pushCount i ops)

/-- Witness for C7: `MinSegmentSize = 2` and three views pushing 3, 1 and 0 entries,
interleaved: the pool ends with 3 segments, between `ceil(4 / 2) = 2` and `2 + 1 + 0 = 3`. -/
theorem C7_segment_count_bounds_witness :
    (1 ≤ 2 ∧ 2 < 65536 ∧ Sys.PushThenPublish (fun _ => false) threeViewsPushPublish) ∧
    (∃ popped st, Sys.run 2 (Sys.init : Sys 3 Nat) threeViewsPushPublish = some (popped, st) ∧
      ceilDiv (Finset.univ.sum (fun i => Sys.pushCount i threeViewsPushPublish)) 2 ≤
        st.pool.Size ∧
      st.pool.Size ≤
        Finset.univ.sum (fun i => ceilDiv (Sys.pushCount i threeViewsPushPublish) 2) ∧
      st.pool.Size =
        Finset.univ.sum (fun i => ceilDiv (Sys.pushCount i threeViewsPushPublish) 2) ∧
      ∀ s ∈ st.pool.top_, s.Capacity = 2) ∧
    (Sys.run 2 (Sys.init : Sys 3 Nat) threeViewsPushPublish).map (fun x => x.2.pool.Size) =
      some 3 ∧
    ceilDiv (Finset.univ.sum (fun i => Sys.pushCount i threeViewsPushPublish)) 2 = 2 :=
  have hs : Sys.PushThenPublish (fun _ => false) threeViewsPushPublish := by
    simp only [threeViewsPushPublish, Sys.PushThenPublish]
    decide
  ⟨⟨by decide, by decide, hs⟩,
    C7_segment_count_bounds 3 2 (by decide) (by decide) threeViewsPushPublish hs,
    by decide, by decide⟩

/-- C8 (pool `Merge`).  For two distinct pools `A` and `B`, `B` satisfying the pool invariant
(its counter is the number of its linked segments): after `A.Merge(&B)` the pool `B` has no
head and `Size() = 0`; the list of `A` is the former list of `B` followed by the former list
of `A`, with the segments unchanged; `A.Size()` is the sum of the two former sizes; the
entries of `A` are the multiset union of the former entries of both; and if `B` was empty,
`A` is unchanged. -/
theorem C8_pool_merge (A B : Worklist E) (hB : B.size_ = B.top_.length) :
    (Worklist.Merge A B).2.top_ = [] ∧ (Worklist.Merge A B).2.Size = 0 ∧
    (Worklist.Merge A B).1.top_ = B.top_ ++ A.top_ ∧
    (Worklist.Merge A B).1.Size = A.Size + B.Size ∧
    (((Worklist.Merge A B).1.entries : List E) : Multiset E) =
      (A.entries : Multiset E) + (B.entries : Multiset E) ∧
    (B.IsEmpty = true → (Worklist.Merge A B).1 = A) ∧
    (B.top_ = [] → (Worklist.Merge A B).1 = A) := by
  cases htop : B.top_ with
  | nil =>
    have hsz : B.size_ = 0 := by rw [hB, htop]; rfl
    simp [Worklist.Merge, htop, Worklist.Size, hsz, Worklist.entries]
  | cons t rest =>
    have hsz : B.size_ ≠ 0 := by rw [hB, htop]; simp
    simp only [Worklist.Merge, htop, Worklist.Size, Worklist.entries, Worklist.IsEmpty,
      List.flatMap_append, ← Multiset.coe_add, true_and]
    refine ⟨add_comm _ _, ?_, ?_⟩
    · intro h
      simp [hsz] at h
    · intro h
      cases h

/-- Witness for C8: `A` empty, `B` holding the segments `[1, 2]` and `[3]`; afterwards `A`
holds the two segments with `Size() = 2` and `B` is empty. -/
theorem C8_pool_merge_witness :
    (poolOneTwoThree.size_ = poolOneTwoThree.top_.length) ∧
    ((Worklist.Merge Worklist.init poolOneTwoThree).2.top_ = [] ∧
      (Worklist.Merge Worklist.init poolOneTwoThree).2.Size = 0 ∧
      (Worklist.Merge Worklist.init poolOneTwoThree).1.top_ =
        poolOneTwoThree.top_ ++ (Worklist.init : Worklist Nat).top_ ∧
      (Worklist.Merge Worklist.init poolOneTwoThree).1.Size =
        (Worklist.init : Worklist Nat).Size + poolOneTwoThree.Size ∧
      (((Worklist.Merge Worklist.init poolOneTwoThree).1.entries : List Nat) : Multiset Nat) =
        ((Worklist.init : Worklist Nat).entries : Multiset Nat) +
          (poolOneTwoThree.entries : Multiset Nat) ∧
      (poolOneTwoThree.IsEmpty = true →
        (Worklist.Merge Worklist.init poolOneTwoThree).1 = Worklist.init) ∧
      (poolOneTwoThree.top_ = [] →
        (Worklist.Merge Worklist.init poolOneTwoThree).1 = Worklist.init)) ∧
    Worklist.Merge Worklist.init poolOneTwoThree = (poolOneTwoThree, Worklist.init) :=
  ⟨rfl, C8_pool_merge Worklist.init poolOneTwoThree rfl, by decide⟩

/-- C9 (pool `Swap` exchanges and is an involution).  For two distinct pools `A` and `B`,
after `A.Swap(&B)` the pool `A` holds the former list and counter of `B` and `B` the former
list and counter of `A`; a second `A.Swap(&B)` restores both pools. -/
theorem C9_pool_swap (A B : Worklist E) :
    (Worklist.Swap A B).1 = B ∧ (Worklist.Swap A B).2 = A ∧
    Worklist.Swap (Worklist.Swap A B).1 (Worklist.Swap A B).2 = (A, B) := by
  refine ⟨rfl, rfl, rfl⟩

/-- C10 (amended; pool `Update` filters and evicts, for callbacks that store what they keep).
`Segment::Update` calls `callback(entry(i), &entry(new_index))`, so a kept entry survives
only if the callback writes it through the destination pointer.  For every pool satisfying
the pool invariant (counter = number of linked segments, segments well formed and non-empty,
`MinSegmentSize < 65536`) and every callback that returns `p e` on entry `e` and stores `e`
in the destination whenever it returns `true`: `Update` returns; afterwards no linked segment
is empty; the live entries of the linked segments are, segment by segment and in the original
order, the entries with `p e = true`, the segments left without entries being unlinked and
the others keeping their relative order; and `Size()` is the number of linked segments. -/
theorem C10_pool_update_filter {σ : Type} (M : Nat) (hM : M < 65536) (p : E → Bool)
    (callback : σ → E → E → σ × E × Bool)
    (hkeep : ∀ st e d, (callback st e d).2.2 = p e)
    (hstore : ∀ st e d, p e = true → (callback st e d).2.1 = e)
    (st : σ) (w : Worklist E) (hw : w.WF M) :
    ∃ st1 w1, w.Update callback st = some (st1, w1) ∧
      (∀ s ∈ w1.top_, s.IsEmpty = false) ∧
      w1.top_.map Segment.live =
        (w.top_.map (fun s => s.live.filter p)).filter (fun l => !l.isEmpty) ∧
      w1.Size = w1.top_.length := by
  have hsz : w.top_ ≠ [] → 0 < w.size_ := by
    intro h
    rw [hw.1]
    exact List.length_pos.2 h
  obtain ⟨st1, rest, nd, hloop, hmap, hrest, hlen⟩ :=
    Worklist.poolUpdateLoop_filter M hM callback p hkeep hstore w.size_ w.top_ st
      (fun s hs => (hw.2 s hs).1) hsz
  refine ⟨st1, { top_ := rest, size_ := Worklist.fetchSub w.size_ nd }, ?_, ?_, hmap, ?_⟩
  · simp [Worklist.Update, hloop]
  · intro s hs
    have := (hrest s hs).2
    simp [Segment.IsEmpty]
    omega
  · have hle : nd ≤ w.size_ := by rw [hw.1]; omega
    simp only [Worklist.Size, Worklist.fetchSub, hle, if_true]
    rw [hw.1]
    omega

/-- Witness for C10: the pool `[[1, 2], [3, 4], [5, 6]]` and the storing callback for "keep
odd" give `[[1], [3], [5]]` with `Size() = 3`. -/
theorem C10_pool_update_filter_witness :
    (2 < 65536 ∧ (∀ (st : Unit) (e d : Nat), (filterCallback keepOdd st e d).2.2 = keepOdd e) ∧
      (∀ (st : Unit) (e d : Nat), keepOdd e = true → (filterCallback keepOdd st e d).2.1 = e) ∧
      poolOneToSix.WF 2) ∧
    (∃ st1 w1, poolOneToSix.Update (filterCallback keepOdd) () = some (st1, w1) ∧
      (∀ s ∈ w1.top_, s.IsEmpty = false) ∧
      w1.top_.map Segment.live =
        (poolOneToSix.top_.map (fun s => s.live.filter keepOdd)).filter (fun l => !l.isEmpty) ∧
      w1.Size = w1.top_.length) ∧
    (poolOneToSix.Update (filterCallback keepOdd) ()).map
        (fun x => (x.2.top_.map Segment.live, x.2.Size)) = some ([[1], [3], [5]], 3) :=
  have hk : ∀ (st : Unit) (e d : Nat), (filterCallback keepOdd st e d).2.2 = keepOdd e :=
    fun _ _ _ => rfl
  have hs : ∀ (st : Unit) (e d : Nat), keepOdd e = true →
      (filterCallback keepOdd st e d).2.1 = e :=
    fun _ e d h => by simp [filterCallback, h]
  have hw : poolOneToSix.WF 2 := by
    refine ⟨rfl, ?_⟩
    intro s hs
    simp only [poolOneToSix, List.mem_cons, List.mem_singleton, List.not_mem_nil, or_false] at hs
    rcases hs with rfl | rfl | rfl <;> simp [Segment.WF]
  ⟨⟨by decide, hk, hs, hw⟩,
    C10_pool_update_filter 2 (by decide) keepOdd (filterCallback keepOdd) hk hs () poolOneToSix
      hw,
    by decide⟩

/-- Counterexample to C10 as stated: the pool holds the one non-empty segment `[1, 2]`, and
the callback returns `true` exactly for the even entries but does not write through the
destination pointer.  The callback returned keep for 2 only, yet the entry that remains after
`Update` is 1. -/
theorem C10_not_storing_callback :
    (∀ s ∈ poolOneTwo.top_, s.IsEmpty = false) ∧
    (∀ (e d : Nat), (notStoringCallback keepEven () e d).2.2 = keepEven e) ∧
    poolOneTwo.top_.map (fun s => s.live.filter keepEven) = [[2]] ∧
    (poolOneTwo.Update (notStoringCallback keepEven) ()).map
        (fun x => (x.2.top_.map Segment.live, x.2.Size)) = some ([[1]], 1) :=
  ⟨by decide, fun _ _ => rfl, by decide, by decide⟩

/-- C11 (pool `Iterate`).  For every pool, linked to any views, whose linked segments have
their live cells written, and every callback `f` (with its state): `Iterate(f)` returns, and
it has invoked `f` exactly on the concatenation of the live entries of the linked segments,
head to tail and in ascending index order within a segment, each entry once: the callback
state at the end is the fold of `f` over that list, and a callback that records its arguments
has recorded exactly that list.  `Iterate` is a `const` method that reads the pool alone: it
yields nothing but the callback state, the pool (list, entries, counter) is as before, and
the slots of the views are not consulted. -/
theorem C11_pool_iterate {σ : Type} {n : Nat} (callback : σ → E → σ) (s0 : σ) (st : Sys n E)
    (hw : ∀ s ∈ st.pool.top_, s.index_ ≤ s.storage.length) :
    st.pool.Iterate callback s0 = some (st.pool.entries.foldl callback s0) ∧
    st.pool.Iterate logCallback [] = some (st.pool.top_.flatMap Segment.live) := by
  constructor
  · exact Worklist.poolIterateLoop_eq callback st.pool.top_ s0 hw
  · have := Worklist.poolIterateLoop_eq (logCallback : List E → E → List E) st.pool.top_ [] hw
    rw [foldl_logCallback, List.nil_append] at this
    exact this

/-- Witness for C11: the pool links `[1, 2]` and `[3]` and a view holds 9 unpublished; the
recording callback sees 1, 2, 3. -/
theorem C11_pool_iterate_witness :
    (∀ s ∈ Sys.poolAndUnpublished.pool.top_, s.index_ ≤ s.storage.length) ∧
    (Sys.poolAndUnpublished.pool.Iterate logCallback [] =
        some (Sys.poolAndUnpublished.pool.entries.foldl logCallback []) ∧
      Sys.poolAndUnpublished.pool.Iterate logCallback [] =
        some (Sys.poolAndUnpublished.pool.top_.flatMap Segment.live)) ∧
    Sys.poolAndUnpublished.pool.Iterate logCallback [] = some [1, 2, 3] ∧
    (Sys.poolAndUnpublished.views 0).entries = [9] :=
  ⟨by decide,
    C11_pool_iterate logCallback [] Sys.poolAndUnpublished (by decide),
    by decide, by decide⟩

/-- C12 (`Local::Merge`).  For two views `L` and `O` (distinct objects) attached to the pools
at `a` and `b`, the pool of `O` satisfying the pool invariant (counter = number of linked
segments): `L.Merge(&O)` returns, `O` is locally empty afterwards and the slots of `L` are as
before.  If the pools
are distinct, the pool of `O` ends with no head and `Size() = 0`, and the entries of the pool
of `L` are its former entries plus the former entries of the pool of `O` plus the former
local entries of `O`.  If both views are attached to the same pool, the entries of that pool
are its former entries plus the former local entries of `O`, and its counter is the number
of linked segments. -/
theorem C12_local_merge {P : Type} [DecidableEq P] (M : Nat) (pools : P → Worklist E)
    (L O : Local E) (a b : P) (hb : (pools b).size_ = (pools b).top_.length) :
    ∃ O1 pools1, Local.Merge M pools L a O b = some (L, O1, pools1) ∧
      O1.IsLocalEmpty = true ∧
      (a ≠ b → (pools1 b).top_ = [] ∧ (pools1 b).Size = 0 ∧
        (((pools1 a).entries : List E) : Multiset E) =
          ((pools a).entries : Multiset E) + ((pools b).entries : Multiset E) +
            (O.entries : Multiset E)) ∧
      (a = b →
        (((pools1 a).entries : List E) : Multiset E) =
          ((pools a).entries : Multiset E) + (O.entries : Multiset E) ∧
        (pools1 a).Size = (pools1 a).top_.length) := by
  obtain ⟨O1, w1, hpub, hempty, htop, hsize, hentries⟩ := Local.Publish_pool M O (pools b)
  have hw1 : w1.size_ = w1.top_.length := by
    rw [hsize, htop, hb]
    simp only [List.length_append]
    omega
  refine ⟨O1, Worklist.MergeAt (Function.update pools b w1) a b, ?_, hempty, ?_, ?_⟩
  · simp [Local.Merge, hpub]
  · intro hab
    obtain ⟨h1, h2, _⟩ := Worklist.MergeAt_ne (Function.update pools b w1) a b hab
    simp only [Function.update_same, Function.update_noteq hab] at h1 h2
    obtain ⟨hm2, hm1⟩ := Worklist.Merge_spec (pools a) w1 hw1
    rw [h2, hm2, h1, hm1]
    refine ⟨rfl, rfl, ?_⟩
    simp only [Worklist.entries, List.flatMap_append, ← Multiset.coe_add] at hentries ⊢
    rw [hentries]
    abel
  · intro hab
    subst hab
    rw [Worklist.MergeAt_self]
    simp only [Function.update_same]
    exact ⟨hentries, hw1⟩

/-- Witness for C12: a view holding 4 and 5, attached to the pool `[[1, 2]]`, is merged by a
view attached to the pool `[[1, 2], [3]]`; and the same with both views attached to the pool
`[[1, 2], [3]]`. -/
theorem C12_local_merge_witness :
    ((twoPools 1).size_ = (twoPools 1).top_.length) ∧
    (∃ O1 pools1, Local.Merge 2 twoPools Local.attach 0 viewFourFive 1 =
        some (Local.attach, O1, pools1) ∧
      O1.IsLocalEmpty = true ∧
      ((0 : Fin 2) ≠ 1 → (pools1 1).top_ = [] ∧ (pools1 1).Size = 0 ∧
        (((pools1 0).entries : List Nat) : Multiset Nat) =
          ((twoPools 0).entries : Multiset Nat) + ((twoPools 1).entries : Multiset Nat) +
            (viewFourFive.entries : Multiset Nat)) ∧
      ((0 : Fin 2) = 1 →
        (((pools1 0).entries : List Nat) : Multiset Nat) =
          ((twoPools 0).entries : Multiset Nat) + (viewFourFive.entries : Multiset Nat) ∧
        (pools1 0).Size = (pools1 0).top_.length)) ∧
    (Local.Merge 2 twoPools Local.attach 0 viewFourFive 1).map
        (fun x => ((x.2.2 0).entries, (x.2.2 0).Size, (x.2.2 1).entries, (x.2.2 1).Size)) =
      some ([5, 4, 1, 2, 1, 2, 3], 5, [], 0) ∧
    (Local.Merge 2 twoPools Local.attach 0 viewFourFive 0).map
        (fun x => ((x.2.2 0).entries, (x.2.2 0).Size, (x.2.2 1).entries, (x.2.2 1).Size)) =
      some ([5, 4, 1, 2, 3], 4, [1, 2], 1) :=
  ⟨by decide, C12_local_merge 2 twoPools Local.attach viewFourFive 0 1 (by decide),
    by decide, by decide⟩

/-- C13 (`Local::Clear` discards local work only).  For every attached view, after
`Local::Clear` both slots have size 0 and `IsLocalEmpty()` is true; a slot that held the
sentinel still holds it, and a slot that held a segment holds the same segment (same
capacity, same cells) with `index_ = 0`; nothing is handed to the pool: the pool (list,
entries, counter) and the other views are unchanged. -/
theorem C13_local_clear {n : Nat} (st : Sys n E) (i : Fin n) :
    ((st.Clear i).views i).IsLocalEmpty = true ∧
    ((st.Clear i).views i).push_segment_.Size = 0 ∧
    ((st.Clear i).views i).pop_segment_.Size = 0 ∧
    ((st.Clear i).views i).push_segment_.Capacity = (st.views i).push_segment_.Capacity ∧
    ((st.Clear i).views i).pop_segment_.Capacity = (st.views i).pop_segment_.Capacity ∧
    ((st.views i).push_segment_ = Slot.sentinel →
      ((st.Clear i).views i).push_segment_ = Slot.sentinel) ∧
    ((st.views i).pop_segment_ = Slot.sentinel →
      ((st.Clear i).views i).pop_segment_ = Slot.sentinel) ∧
    (∀ s, (st.views i).push_segment_ = Slot.owned s →
      ((st.Clear i).views i).push_segment_ =
        Slot.owned { capacity_ := s.capacity_, index_ := 0, storage := s.storage }) ∧
    (∀ s, (st.views i).pop_segment_ = Slot.owned s →
      ((st.Clear i).views i).pop_segment_ =
        Slot.owned { capacity_ := s.capacity_, index_ := 0, storage := s.storage }) ∧
    (st.Clear i).pool = st.pool ∧
    (st.Clear i).pool.entries = st.pool.entries ∧
    (st.Clear i).pool.Size = st.pool.Size ∧
    (∀ j, j ≠ i → (st.Clear i).views j = st.views j) := by
  have hv : (st.Clear i).views i = (st.views i).Clear := by
    simp [Sys.Clear, Sys.set]
  have hslot : ∀ r : Slot E, r.Clear.Size = 0 ∧ r.Clear.IsEmpty = true ∧
      r.Clear.Capacity = r.Capacity ∧ (r = Slot.sentinel → r.Clear = Slot.sentinel) ∧
      (∀ s, r = Slot.owned s →
        r.Clear = Slot.owned { capacity_ := s.capacity_, index_ := 0, storage := s.storage }) := by
    intro r
    cases r with
    | sentinel => exact ⟨rfl, rfl, rfl, fun _ => rfl, fun s h => (by cases h)⟩
    | owned t =>
      refine ⟨rfl, rfl, rfl, fun h => (by cases h), fun s h => ?_⟩
      cases h
      rfl
  obtain ⟨h1, h2, h3, h4, h5⟩ := hslot (st.views i).push_segment_
  obtain ⟨g1, g2, g3, g4, g5⟩ := hslot (st.views i).pop_segment_
  rw [hv]
  refine ⟨?_, h1, g1, h3, g3, h4, g4, h5, g5, rfl, rfl, rfl, ?_⟩
  · simp only [Local.IsLocalEmpty, Local.Clear, h2, g2, Bool.and_self]
  · intro j hj
    simp [Sys.Clear, Sys.set, Function.update_noteq hj]

/-- C14 (amended; the lock order of `Swap` is receiver first).  `Worklist::Swap` locks the
receiver and then the argument, whatever their addresses: there is no ordering by address.
Consequently two threads that each run a `Swap` on two distinct pools are not deadlocked in
any state they can reach, unless the two calls swap the same two pools in opposite
directions. -/
theorem C14_swap_lock_order (a b c d : Nat) (hab : a ≠ b) (hcd : c ≠ d)
    (hopp : ¬ (a = d ∧ b = c)) (pc1 pc2 : Nat)
    (_hr : Interleaved (Worklist.SwapLocking a b) (Worklist.SwapLocking c d) pc1 pc2) :
    acquisitions (Worklist.SwapLocking a b) = [a, b] ∧
    acquisitions (Worklist.SwapLocking c d) = [c, d] ∧
    deadlocked (Worklist.SwapLocking a b) (Worklist.SwapLocking c d) pc1 pc2 = false :=
  ⟨rfl, rfl, not_deadlocked_SwapLocking a b c d hab hcd hopp pc1 pc2⟩

/-- Witness for C14: two threads both run `A.Swap(&B)`, `A` at address 2 and `B` at address
1; the state in which the first thread holds the lock of `A` is not a deadlock. -/
theorem C14_swap_lock_order_witness :
    ((2 : Nat) ≠ 1 ∧ (2 : Nat) ≠ 1 ∧ ¬ ((2 : Nat) = 1 ∧ (1 : Nat) = 2) ∧
      Interleaved (Worklist.SwapLocking 2 1) (Worklist.SwapLocking 2 1) 1 0) ∧
    (acquisitions (Worklist.SwapLocking 2 1) = [2, 1] ∧
      acquisitions (Worklist.SwapLocking 2 1) = [2, 1] ∧
      deadlocked (Worklist.SwapLocking 2 1) (Worklist.SwapLocking 2 1) 1 0 = false) :=
  ⟨⟨by decide, by decide, by decide,
      Interleaved.first 0 0 Interleaved.start (by decide)⟩,
    C14_swap_lock_order 2 1 2 1 (by decide) (by decide) (by decide) 1 0
      (Interleaved.first 0 0 Interleaved.start (by decide))⟩

/-- Counterexample to C14 as stated: with `A` at address 1 and `B` at address 2, `A.Swap(&B)`
locks 1 then 2 while `B.Swap(&A)` locks 2 then 1, so the order follows the receiver and not
the addresses; and two threads running them reach, after one step each, a state in which
each holds the lock of its receiver and waits for the other: a deadlock. -/
theorem C14_opposite_swaps_deadlock :
    acquisitions (Worklist.SwapLocking 1 2) = [1, 2] ∧
    acquisitions (Worklist.SwapLocking 2 1) = [2, 1] ∧
    Interleaved (Worklist.SwapLocking 1 2) (Worklist.SwapLocking 2 1) 1 1 ∧
    deadlocked (Worklist.SwapLocking 1 2) (Worklist.SwapLocking 2 1) 1 1 = true :=
  ⟨by decide, by decide,
    Interleaved.second 1 0 (Interleaved.first 0 0 Interleaved.start (by decide)) (by decide),
    by decide⟩

/-- C15 (counter invariant).  In every pool state reachable from a default-constructed pool
by sequential calls of `Worklist::Push` (of a non-empty segment), `Worklist::Pop`, `Merge`,
`Swap`, `Clear` and `Update`, `Size()` is the number of segments linked from the head, and
`IsEmpty()` is true if and only if the head is absent. -/
theorem C15_counter_invariant (w : Worklist E) (h : Worklist.Reachable w) :
    w.Size = w.top_.length ∧ (w.IsEmpty = true ↔ w.top_ = []) := by
  have hc := Worklist.Reachable_counter w h
  refine ⟨hc, ?_⟩
  simp only [Worklist.IsEmpty, Worklist.Size, hc, beq_iff_eq]
  exact List.length_eq_zero

/-- Witness for C15: the pool reached by pushing the segment `[3]`. -/
theorem C15_counter_invariant_witness :
    Worklist.Reachable
      ({ top_ := [{ capacity_ := 2, index_ := 1, storage := [3] }], size_ := 1 } :
        Worklist Nat) ∧
    (({ top_ := [{ capacity_ := 2, index_ := 1, storage := [3] }], size_ := 1 } :
        Worklist Nat).Size =
      ({ top_ := [{ capacity_ := 2, index_ := 1, storage := [3] }], size_ := 1 } :
        Worklist Nat).top_.length ∧
    (({ top_ := [{ capacity_ := 2, index_ := 1, storage := [3] }], size_ := 1 } :
        Worklist Nat).IsEmpty = true ↔
      ({ top_ := [{ capacity_ := 2, index_ := 1, storage := [3] }], size_ := 1 } :
        Worklist Nat).top_ = [])) :=
  ⟨Worklist.Reachable.push Worklist.init { capacity_ := 2, index_ := 1, storage := [3] } _
      Worklist.Reachable.init rfl,
    C15_counter_invariant _
      (Worklist.Reachable.push Worklist.init { capacity_ := 2, index_ := 1, storage := [3] } _
        Worklist.Reachable.init rfl)⟩

/-- C16 (no empty segment is ever linked).  With `MinSegmentSize` from 1 to 65535, in every
state reachable from fresh pools and freshly attached views through the public operations
(`Push`, `Pop`, `Publish`, `Clear`, `Merge` on views; `Merge`, `Swap`, `Clear`, `Update` on
pools), every segment linked in a pool has size greater than 0.  Moreover the calls of
`Worklist::Push` pass its assertion: `PublishPushSegment` returns when `Local::Push` calls it
(push slot full) and when `Publish` calls it (push slot not empty), and `PublishPopSegment`
returns when `Publish` calls it (pop slot not empty); and `Update` with any callback returns
and leaves no empty segment linked. -/
theorem C16_no_empty_segment_linked {p n : Nat} (M : Nat) (hM1 : 1 ≤ M) (hM : M < 65536)
    (att : Fin n → Fin p) (wd : World p n E) (h : World.Reachable M att wd) :
    (∀ a, ∀ s ∈ (wd.pools a).top_, 0 < s.Size) ∧
    (∀ i w, (wd.views i).push_segment_.IsFull = true →
      ∃ r, Local.PublishPushSegment M (wd.views i) w = some r) ∧
    (∀ i w, (wd.views i).push_segment_.IsEmpty = false →
      ∃ r, Local.PublishPushSegment M (wd.views i) w = some r) ∧
    (∀ i w, (wd.views i).pop_segment_.IsEmpty = false →
      ∃ r, Local.PublishPopSegment M (wd.views i) w = some r) ∧
    (∀ a (σ : Type) (callback : σ → E → E → σ × E × Bool) (s0 : σ),
      ∃ s1 w1, (wd.pools a).Update callback s0 = some (s1, w1) ∧
        ∀ s ∈ w1.top_, 0 < s.Size) := by
  have hwf := World.Reachable_keeps_WF M hM1 hM att wd h
  refine ⟨fun a s hs => ((hwf.1 a).2 s hs).2, ?_, ?_, ?_, ?_⟩
  · exact fun i w hfull => Local.PublishPushSegment_of_full M hM1 _ (hwf.2 i) w hfull
  · exact fun i w hne => Local.PublishPushSegment_of_nonempty M _ w hne
  · exact fun i w hne => Local.PublishPopSegment_of_nonempty M _ w hne
  · intro a σ callback s0
    obtain ⟨s1, w1, hupd, hw1⟩ := Worklist.poolUpdate_total M callback s0 _ (hwf.1 a)
    exact ⟨s1, w1, hupd, fun s hs => (hw1.2 s hs).2⟩

/-- Witness for C16: one pool with one view after `Push(1)`, `Push(2)`, `Push(3)` with
`MinSegmentSize = 2`; the pool links the segment `[1, 2]`. -/
theorem C16_no_empty_segment_linked_witness :
    (1 ≤ 2 ∧ 2 < 65536 ∧
      World.Reachable 2 (fun _ : Fin 1 => (0 : Fin 1)) World.afterPush3) ∧
    ((∀ a, ∀ s ∈ (World.afterPush3.pools a).top_, 0 < s.Size) ∧
      (∀ i w, (World.afterPush3.views i).push_segment_.IsFull = true →
        ∃ r, Local.PublishPushSegment 2 (World.afterPush3.views i) w = some r) ∧
      (∀ i w, (World.afterPush3.views i).push_segment_.IsEmpty = false →
        ∃ r, Local.PublishPushSegment 2 (World.afterPush3.views i) w = some r) ∧
      (∀ i w, (World.afterPush3.views i).pop_segment_.IsEmpty = false →
        ∃ r, Local.PublishPopSegment 2 (World.afterPush3.views i) w = some r) ∧
      (∀ a (σ : Type) (callback : σ → Nat → Nat → σ × Nat × Bool) (s0 : σ),
        ∃ s1 w1, (World.afterPush3.pools a).Update callback s0 = some (s1, w1) ∧
          ∀ s ∈ w1.top_, 0 < s.Size)) ∧
    (World.afterPush3.pools 0).top_ = [{ capacity_ := 2, index_ := 2, storage := [1, 2] }] :=
  ⟨⟨by decide, by decide, World.afterPush3_Reachable⟩,
    C16_no_empty_segment_linked 2 (by decide) (by decide) _ World.afterPush3
      World.afterPush3_Reachable,
    by decide⟩

/-- C17 (segment preconditions are never violated by an attached view).  With
`MinSegmentSize` from 1 to 65535, in every state reachable from fresh pools and freshly
attached views through the public operations, on every view: `Local::Push` returns, it
writes into an owned segment that is not full (the segment of the push slot, or the new
segment that replaced it), and the fill index grows by one and stays within the capacity;
`Local::Pop` returns, and when it returns `true` it has read from an owned segment that is
not empty (the segment of the pop slot, the segment of the push slot after the swap, or the
head of the pool after the steal), the fill index going down by one. -/
theorem C17_segment_preconditions {p n : Nat} (M : Nat) (hM1 : 1 ≤ M) (hM : M < 65536)
    (att : Fin n → Fin p) (wd : World p n E) (h : World.Reachable M att wd) (i : Fin n) :
    (∀ e, ∃ s s1 v1 w1,
      ((wd.views i).push_segment_ = Slot.owned s ∨ s = Local.NewSegment M) ∧
      s.IsFull = false ∧ s.Push e = some s1 ∧ s1.index_ = s.index_ + 1 ∧
      s1.index_ ≤ s1.capacity_ ∧
      Local.Push M (wd.views i) (wd.pools (att i)) e = some (v1, w1) ∧
      v1.push_segment_ = Slot.owned s1) ∧
    (∃ r v1 w1, Local.Pop (wd.views i) (wd.pools (att i)) = some (r, v1, w1) ∧
      ∀ e, r = some e →
        ∃ s s1, ((wd.views i).pop_segment_ = Slot.owned s ∨
            (wd.views i).push_segment_ = Slot.owned s ∨
            (wd.pools (att i)).top_.head? = some s) ∧
          s.IsEmpty = false ∧ s.Pop = some (e, s1) ∧ s1.index_ + 1 = s.index_ ∧
          v1.pop_segment_ = Slot.owned s1) := by
  have hwf := World.Reachable_keeps_WF M hM1 hM att wd h
  exact ⟨fun e => Local.Push_writes M hM1 hM _ _ e (hwf.2 i),
    Local.Pop_reads M _ _ (hwf.2 i) (hwf.1 (att i))⟩

/-- Witness for C17: the same state; `Push(4)` fills the push slot `[3]`, and `Pop` swaps the
slots and reads 3. -/
theorem C17_segment_preconditions_witness :
    (1 ≤ 2 ∧ 2 < 65536 ∧
      World.Reachable 2 (fun _ : Fin 1 => (0 : Fin 1)) World.afterPush3) ∧
    ((∀ e, ∃ s s1 v1 w1,
        ((World.afterPush3.views 0).push_segment_ = Slot.owned s ∨ s = Local.NewSegment 2) ∧
        s.IsFull = false ∧ s.Push e = some s1 ∧ s1.index_ = s.index_ + 1 ∧
        s1.index_ ≤ s1.capacity_ ∧
        Local.Push 2 (World.afterPush3.views 0) (World.afterPush3.pools 0) e = some (v1, w1) ∧
        v1.push_segment_ = Slot.owned s1) ∧
      (∃ r v1 w1, Local.Pop (World.afterPush3.views 0) (World.afterPush3.pools 0) =
          some (r, v1, w1) ∧
        ∀ e, r = some e →
          ∃ s s1, ((World.afterPush3.views 0).pop_segment_ = Slot.owned s ∨
              (World.afterPush3.views 0).push_segment_ = Slot.owned s ∨
              (World.afterPush3.pools 0).top_.head? = some s) ∧
            s.IsEmpty = false ∧ s.Pop = some (e, s1) ∧ s1.index_ + 1 = s.index_ ∧
            v1.pop_segment_ = Slot.owned s1)) ∧
    (Local.Pop (World.afterPush3.views 0) (World.afterPush3.pools 0)).map (fun x => x.1) =
      some (some 3) :=
  ⟨⟨by decide, by decide, World.afterPush3_Reachable⟩,
    C17_segment_preconditions 2 (by decide) (by decide) (fun _ : Fin 1 => (0 : Fin 1))
      World.afterPush3 World.afterPush3_Reachable 0,
    by decide⟩

/-- C18 (`Segment::Update` is a stable in-place filter-map).  For every segment whose live
cells are written and whose fill index is a `uint16_t` value, and every callback that either
stores a value in the destination and returns keep or returns drop: `Update` returns; it has
called the callback on the live entries in ascending order, each call seeing the original
value of its entry (the final callback state is that of the specification, which runs over
the original entries); afterwards the live entries are exactly the values stored for the
kept entries, in the original relative order; the new size is the number of keeps and is not
larger than the old size; the capacity is unchanged. -/
theorem C18_segment_update_filter_map {σ : Type} (f : σ → E → σ × Option E) (st : σ)
    (s : Segment E) (hlive : s.index_ ≤ s.storage.length) (hidx : s.index_ < 65536) :
    ∃ st1 s1, s.Update (storingCallback f) st = some (st1, s1) ∧
      st1 = (filterMapSpec f st s.live).1 ∧
      s1.live = (filterMapSpec f st s.live).2 ∧
      s1.Size = (filterMapSpec f st s.live).2.length ∧
      s1.Size ≤ s.Size ∧
      s1.Capacity = s.Capacity := by
  obtain ⟨st1, k1, storage1, hrun, hst, hk1, htake⟩ :=
    Segment.UpdateLoop_filterMap f s.index_ 0 0 st s.storage (le_refl 0) (by omega)
  have hlen := Segment.UpdateLoop_length (storingCallback f) _ _ _ _ _ _ _ _ hrun
  have hlive_eq : (s.storage.drop 0).take s.index_ = s.live := by simp [Segment.live]
  rw [hlive_eq] at hst hk1 htake
  have hle := filterMapSpec_length_le f s.live st
  have hll : s.live.length = s.index_ := by
    simp [Segment.live, List.length_take, Nat.min_eq_left hlive]
  have hmod : k1 % 65536 = k1 := Nat.mod_eq_of_lt (by omega)
  refine ⟨st1, { s with index_ := k1 % 65536, storage := storage1 }, ?_, hst, ?_, ?_, ?_, rfl⟩
  · simp [Segment.Update, hrun]
  · simp only [Segment.live, hmod, htake]
    simp
  · simp only [Segment.Size, hmod]; omega
  · simp only [Segment.Size, hmod]; omega

/-- Witness for C18: the segment `[1, 2, 3, 4, 5]` and a callback that records its calls,
keeps the odd entries and stores ten times the entry: the calls are on 1, 2, 3, 4, 5 and the
segment holds 10, 30, 50 afterwards. -/
theorem C18_segment_update_filter_map_witness :
    ((5 : Nat) ≤ [1, 2, 3, 4, 5].length ∧ (5 : Nat) < 65536) ∧
    (∃ st1 s1,
      ({ capacity_ := 8, index_ := 5, storage := [1, 2, 3, 4, 5] } : Segment Nat).Update
        (storingCallback recordAndScaleOdd) [] = some (st1, s1) ∧
      st1 = (filterMapSpec recordAndScaleOdd []
        ({ capacity_ := 8, index_ := 5, storage := [1, 2, 3, 4, 5] } : Segment Nat).live).1 ∧
      s1.live = (filterMapSpec recordAndScaleOdd []
        ({ capacity_ := 8, index_ := 5, storage := [1, 2, 3, 4, 5] } : Segment Nat).live).2 ∧
      s1.Size = (filterMapSpec recordAndScaleOdd []
        ({ capacity_ := 8, index_ := 5, storage := [1, 2, 3, 4, 5] } :
          Segment Nat).live).2.length ∧
      s1.Size ≤ ({ capacity_ := 8, index_ := 5, storage := [1, 2, 3, 4, 5] } :
        Segment Nat).Size ∧
      s1.Capacity = ({ capacity_ := 8, index_ := 5, storage := [1, 2, 3, 4, 5] } :
        Segment Nat).Capacity) ∧
    (({ capacity_ := 8, index_ := 5, storage := [1, 2, 3, 4, 5] } : Segment Nat).Update
        (storingCallback recordAndScaleOdd) []).map (fun x => (x.1, x.2.live, x.2.Size)) =
      some ([1, 2, 3, 4, 5], [10, 30, 50], 3) :=
  ⟨by decide,
    C18_segment_update_filter_map recordAndScaleOdd []
      { capacity_ := 8, index_ := 5, storage := [1, 2, 3, 4, 5] } (by decide) (by decide),
    by decide⟩

/-- C19 (`Local::Push` publishes exactly when the push slot is a full owned segment).  For
every well-formed attached view, pool, entry `e` and `MinSegmentSize` from 1 to 65535:
if the push slot is a full owned segment, `Push(e)` links that segment, unchanged, as the new
head of the pool, `Size()` grows by exactly 1, and the push slot becomes a new segment
holding only `e` (`PushSegmentSize() = 1`); if the push slot is the sentinel, the pool is
unchanged and the push slot becomes a new segment holding only `e`; otherwise the pool is
unchanged, `e` is appended on top of the push slot and `PushSegmentSize()` grows by 1.  In
every case the pop slot is unchanged. -/
theorem C19_local_push_cases (M : Nat) (hM1 : 1 ≤ M) (hM : M < 65536) (v : Local E)
    (w : Worklist E) (e : E) (hv : v.WF M) :
    (∀ s, v.push_segment_ = Slot.owned s → s.IsFull = true →
      ∃ v1 w1, Local.Push M v w e = some (v1, w1) ∧
        w1.top_ = s :: w.top_ ∧ w1.Size = w.Size + 1 ∧
        v1.push_segment_ = Slot.owned { capacity_ := M, index_ := 1, storage := [e] } ∧
        v1.push_segment_.live = [e] ∧ v1.PushSegmentSize = 1 ∧
        v1.pop_segment_ = v.pop_segment_) ∧
    (v.push_segment_ = Slot.sentinel →
      ∃ v1, Local.Push M v w e = some (v1, w) ∧
        v1.push_segment_ = Slot.owned { capacity_ := M, index_ := 1, storage := [e] } ∧
        v1.push_segment_.live = [e] ∧ v1.PushSegmentSize = 1 ∧
        v1.pop_segment_ = v.pop_segment_) ∧
    (∀ s, v.push_segment_ = Slot.owned s → s.IsFull = false →
      ∃ v1, Local.Push M v w e = some (v1, w) ∧
        v1.push_segment_.live = v.push_segment_.live ++ [e] ∧
        v1.PushSegmentSize = v.PushSegmentSize + 1 ∧
        v1.push_segment_.Capacity = v.push_segment_.Capacity ∧
        v1.pop_segment_ = v.pop_segment_) := by
  have hnewlive : (⟨M, 1, [e]⟩ : Segment E).live = [e] := by simp [Segment.live]
  refine ⟨?_, ?_, ?_⟩
  · intro s hs hfull
    have hswf : s.WF M := by have := hv.1; rw [hs] at this; exact this
    have hidx : s.index_ = s.capacity_ := by simpa [Segment.IsFull] using hfull
    have hne : s.IsEmpty = false := by
      simp [Segment.IsEmpty]; have := hswf.1; omega
    exact ⟨_, _, Local.Push_full M hM1 hM v w e s hs hfull hne, rfl, rfl, rfl, hnewlive, rfl,
      rfl⟩
  · intro hs
    exact ⟨_, Local.Push_sentinel M hM1 hM v w e hs, rfl, hnewlive, rfl, rfl⟩
  · intro s hs hfull
    have hswf : s.WF M := by have := hv.1; rw [hs] at this; exact this
    obtain ⟨s1, hp, hs1, hlive, hidx⟩ := Segment.Push_spec M hM s e hswf hfull
    refine ⟨_, Local.Push_notFull M v w e s s1 hs hfull hp, ?_, ?_, ?_, rfl⟩
    · simp only [hs, Slot.live_owned, hlive]
    · simp only [Local.PushSegmentSize, hs, Slot.Size, Segment.Size, hidx]
    · simp only [hs, Slot.Capacity, Segment.Capacity, hs1.1, hswf.1]

/-- Witness for C19: `MinSegmentSize = 2`, the view whose push slot is the full segment
`[1, 2]`, the pool `[[1, 2], [3]]` and the entry 7. -/
theorem C19_local_push_cases_witness :
    (1 ≤ 2 ∧ 2 < 65536 ∧ viewFullPush.WF 2) ∧
    ((∀ s, viewFullPush.push_segment_ = Slot.owned s → s.IsFull = true →
        ∃ v1 w1, Local.Push 2 viewFullPush poolOneTwoThree 7 = some (v1, w1) ∧
          w1.top_ = s :: poolOneTwoThree.top_ ∧ w1.Size = poolOneTwoThree.Size + 1 ∧
          v1.push_segment_ = Slot.owned { capacity_ := 2, index_ := 1, storage := [7] } ∧
          v1.push_segment_.live = [7] ∧ v1.PushSegmentSize = 1 ∧
          v1.pop_segment_ = viewFullPush.pop_segment_) ∧
      (viewFullPush.push_segment_ = Slot.sentinel →
        ∃ v1, Local.Push 2 viewFullPush poolOneTwoThree 7 = some (v1, poolOneTwoThree) ∧
          v1.push_segment_ = Slot.owned { capacity_ := 2, index_ := 1, storage := [7] } ∧
          v1.push_segment_.live = [7] ∧ v1.PushSegmentSize = 1 ∧
          v1.pop_segment_ = viewFullPush.pop_segment_) ∧
      (∀ s, viewFullPush.push_segment_ = Slot.owned s → s.IsFull = false →
        ∃ v1, Local.Push 2 viewFullPush poolOneTwoThree 7 = some (v1, poolOneTwoThree) ∧
          v1.push_segment_.live = viewFullPush.push_segment_.live ++ [7] ∧
          v1.PushSegmentSize = viewFullPush.PushSegmentSize + 1 ∧
          v1.push_segment_.Capacity = viewFullPush.push_segment_.Capacity ∧
          v1.pop_segment_ = viewFullPush.pop_segment_)) ∧
    (Local.Push 2 viewFullPush poolOneTwoThree 7).map
        (fun x => (x.1.push_segment_.live, x.2.entries, x.2.Size)) =
      some ([7], [1, 2, 1, 2, 3], 3) :=
  have hv : viewFullPush.WF 2 := by
    refine ⟨?_, trivial⟩
    exact ⟨rfl, by decide, by decide⟩
  ⟨⟨by decide, by decide, hv⟩,
    C19_local_push_cases 2 (by decide) (by decide) viewFullPush poolOneTwoThree 7 hv,
    by decide⟩

/-- C20: `Local::Pop` on an attached view that is not locally empty returns `true` with an entry
and leaves the segment list and the counter of the pool as they were.  When the pop slot is not
empty the entry is the top entry of the pop slot, which loses it, and the push slot is kept.
When the pop slot is empty the two slots are exchanged and the entry is the top entry of the
former push slot, which loses it.  After any sequence of calls on `n` views of a new pool, a
view whose pop slot is empty and whose push slot is not gets from `Pop` the value most recently
pushed on that view. -/
theorem C20_local_pop_local_work (M : Nat) (hM1 : 1 ≤ M) (hM : M < 65536) (v : Local E)
    (w : Worklist E) (hv : v.WF M) (hne : v.IsLocalEmpty = false) :
    (∃ e v1, Local.Pop v w = some (some e, v1, w) ∧
      (v.pop_segment_.IsEmpty = false →
        some e = v.pop_segment_.live.getLast? ∧
          v1.pop_segment_.live ++ [e] = v.pop_segment_.live ∧
          v1.push_segment_ = v.push_segment_) ∧
      (v.pop_segment_.IsEmpty = true →
        some e = v.push_segment_.live.getLast? ∧
          v1.pop_segment_.live ++ [e] = v.push_segment_.live ∧
          v1.push_segment_ = v.pop_segment_)) ∧
    (∀ (n : Nat) (ops : List (Op n E)) (i : Fin n),
      ∃ popped st, Sys.run M Sys.init ops = some (popped, st) ∧
        ((st.views i).pop_segment_.IsEmpty = true →
          (st.views i).push_segment_.IsEmpty = false →
          ∃ e v1, Local.Pop (st.views i) st.pool = some (some e, v1, st.pool) ∧
            some e = (Sys.pushedOn i ops).getLast?)) := by
  have hcase : ∀ (u : Local E) (p : Worklist E), u.WF M →
      u.pop_segment_.IsEmpty = true → u.push_segment_.IsEmpty = false →
      ∃ e v1 s, Local.Pop u p = some (some e, v1, p) ∧ u.push_segment_ = Slot.owned s ∧
        s.IsEmpty = false ∧
        some e = u.push_segment_.live.getLast? ∧
        v1.pop_segment_.live ++ [e] = u.push_segment_.live ∧
        v1.push_segment_ = u.pop_segment_ := by
    intro u p hu hpop hpush
    obtain ⟨s, hs, hsne⟩ := Slot.IsEmpty_false_owned _ hpush
    have hswf : s.WF M := by have := hu.1; rw [hs] at this; exact this
    obtain ⟨e, s1, hp, _, hlive, _⟩ := Segment.Pop_spec M s hswf hsne
    refine ⟨e, _, s, Local.Pop_swap u p s s1 e hpop hs hsne hp, hs, hsne, ?_, ?_, rfl⟩
    · simp [hs, Slot.live, hlive]
    · simp [hs, Slot.live, hlive]
  refine ⟨?_, ?_⟩
  · cases hpop : v.pop_segment_.IsEmpty with
    | true =>
      have hpush : v.push_segment_.IsEmpty = false := by
        simpa [Local.IsLocalEmpty, hpop] using hne
      obtain ⟨e, v1, s, hp, _, _, h1, h2, h3⟩ := hcase v w hv hpop hpush
      exact ⟨e, v1, hp, fun h => (by cases h), fun _ => ⟨h1, h2, h3⟩⟩
    | false =>
      obtain ⟨s, hs, hsne⟩ := Slot.IsEmpty_false_owned _ hpop
      have hswf : s.WF M := by have := hv.2; rw [hs] at this; exact this
      obtain ⟨e, s1, hp, _, hlive, _⟩ := Segment.Pop_spec M s hswf hsne
      refine ⟨e, _, Local.Pop_fromPop v w s s1 e hs hsne hp, fun _ => ⟨?_, ?_, rfl⟩,
        fun h => by cases h⟩
      · simp [hs, Slot.live, hlive]
      · simp [hs, Slot.live, hlive]
  · intro n ops i
    obtain ⟨popped, st, hrun, hst, _⟩ := Sys.run_ok M hM1 hM ops Sys.init (Sys.init_WF M)
    refine ⟨popped, st, hrun, fun hpop hpush => ?_⟩
    have hinit : (Sys.init : Sys n E).TopIsLastPushed i [] := by
      intro s hs
      simp [Sys.init, Local.attach] at hs
    have htop := Sys.run_TopIsLastPushed M hM1 hM i ops Sys.init [] (Sys.init_WF M) hinit
      popped st hrun
    obtain ⟨e, v1, s, hp, hs, hsne, h1, _, _⟩ := hcase (st.views i) st.pool (hst.2 i) hpop hpush
    refine ⟨e, v1, hp, ?_⟩
    rw [h1, hs]
    simpa [Slot.live] using htop s hs hsne

/-- Witness for C20: `MinSegmentSize = 2` and the view holding 1, 2 in its pop slot and 3 in
its push slot, on the pool `[[1, 2], [3]]`; `Pop` gives 2. -/
theorem C20_local_pop_local_work_witness :
    (1 ≤ 2 ∧ 2 < 65536 ∧ viewPopAndPush.WF 2 ∧ viewPopAndPush.IsLocalEmpty = false) ∧
    ((∃ e v1, Local.Pop viewPopAndPush poolOneTwoThree = some (some e, v1, poolOneTwoThree) ∧
      (viewPopAndPush.pop_segment_.IsEmpty = false →
        some e = viewPopAndPush.pop_segment_.live.getLast? ∧
          v1.pop_segment_.live ++ [e] = viewPopAndPush.pop_segment_.live ∧
          v1.push_segment_ = viewPopAndPush.push_segment_) ∧
      (viewPopAndPush.pop_segment_.IsEmpty = true →
        some e = viewPopAndPush.push_segment_.live.getLast? ∧
          v1.pop_segment_.live ++ [e] = viewPopAndPush.push_segment_.live ∧
          v1.push_segment_ = viewPopAndPush.pop_segment_)) ∧
    (∀ (n : Nat) (ops : List (Op n Nat)) (i : Fin n),
      ∃ popped st, Sys.run 2 Sys.init ops = some (popped, st) ∧
        ((st.views i).pop_segment_.IsEmpty = true →
          (st.views i).push_segment_.IsEmpty = false →
          ∃ e v1, Local.Pop (st.views i) st.pool = some (some e, v1, st.pool) ∧
            some e = (Sys.pushedOn i ops).getLast?))) ∧
    (Local.Pop viewPopAndPush poolOneTwoThree).map
        (fun x => (x.1, x.2.1.pop_segment_.live, x.2.1.push_segment_.live, x.2.2.entries)) =
      some (some 2, [1], [3], [1, 2, 3]) :=
  have hv : viewPopAndPush.WF 2 :=
    ⟨⟨rfl, by decide, by decide⟩, ⟨rfl, by decide, by decide⟩⟩
  ⟨⟨by decide, by decide, hv, by decide⟩,
    C20_local_pop_local_work 2 (by decide) (by decide) viewPopAndPush poolOneTwoThree hv
      (by decide),
    by decide⟩

/-- C21 (a segment is a strict LIFO).  For every segment that can exist (made by `Create`,
changed by `Push`, `Pop`, `Clear` and `Update`): `Size() <= Capacity()`.  If the segment is
not full, `Push(e)` passes its assertion, raises `Size()` by exactly one without wrapping the
16-bit index, keeps `Size() <= Capacity()` and the capacity, and puts `e` on top of the live
entries; the `Pop` that follows passes its assertion, returns `e`, and gives back the former
size and the former live entries.  If the segment is empty and `xs` has at most `Capacity()`
entries, pushing `xs` in order succeeds and leaves exactly `xs` live, and `xs.length` calls
of `Pop` then return the entries of `xs` in reverse order and leave the segment empty.  More
generally the same holds on top of the entries already held, for every `xs` that fits. -/
theorem C21_segment_strict_lifo (s : Segment E) (h : Segment.Reachable s) :
    s.Size ≤ s.Capacity ∧
    (∀ e, s.IsFull = false →
      ∃ s1 s2, s.Push e = some s1 ∧ s1.Size = s.Size + 1 ∧ s1.Size ≤ s1.Capacity ∧
        s1.Capacity = s.Capacity ∧ s1.live = s.live ++ [e] ∧
        s1.Pop = some (e, s2) ∧ s2.Size = s.Size ∧ s2.live = s.live ∧
        s2.Capacity = s.Capacity) ∧
    (∀ xs : List E, s.IsEmpty = true → xs.length ≤ s.Capacity →
      ∃ s1 s2, s.pushAll xs = some s1 ∧ s1.live = xs ∧ s1.Size = xs.length ∧
        s1.popN xs.length = some (xs.reverse, s2) ∧ s2.IsEmpty = true ∧ s2.live = []) ∧
    (∀ xs : List E, s.Size + xs.length ≤ s.Capacity →
      ∃ s1 s2, s.pushAll xs = some s1 ∧ s1.live = s.live ++ xs ∧
        s1.Size = s.Size + xs.length ∧
        s1.popN xs.length = some (xs.reverse, s2) ∧ s2.Size = s.Size ∧ s2.live = s.live) := by
  obtain ⟨M, hM, hwf⟩ := Segment.Reachable_invariant s h
  have hcap : s.capacity_ = M := hwf.1
  have hgen : ∀ xs : List E, s.Size + xs.length ≤ s.Capacity →
      ∃ s1 s2, s.pushAll xs = some s1 ∧ s1.WF M ∧ s2.WF M ∧ s1.live = s.live ++ xs ∧
        s1.Size = s.Size + xs.length ∧
        s1.popN xs.length = some (xs.reverse, s2) ∧ s2.Size = s.Size ∧ s2.live = s.live := by
    intro xs hfit
    simp only [Segment.Size, Segment.Capacity, hcap] at hfit
    obtain ⟨s1, hp, hwf1, hlive1, hidx1⟩ := Segment.pushAll_spec M hM xs s hwf hfit
    obtain ⟨s2, hq, hwf2, hlive2, hidx2⟩ := Segment.popN_reverse M xs s1 s.live hwf1 hlive1
    refine ⟨s1, s2, hp, hwf1, hwf2, hlive1, hidx1, hq, ?_, hlive2⟩
    simp only [Segment.Size]
    omega
  refine ⟨?_, ?_, ?_, ?_⟩
  · simp only [Segment.Size, Segment.Capacity]
    exact hwf.2.1
  · intro e hfull
    obtain ⟨s1, hp, hwf1, hlive1, hidx1⟩ := Segment.Push_spec M hM s e hwf hfull
    have hne : s1.IsEmpty = false := by
      simp [Segment.IsEmpty, hidx1]
    obtain ⟨e2, s2, hq, hwf2, hlive2, hidx2⟩ := Segment.Pop_spec M s1 hwf1 hne
    rw [hlive1] at hlive2
    have hl := List.append_inj_left' hlive2 rfl
    have he : e = e2 := by simpa using List.append_inj_right' hlive2 rfl
    subst he
    refine ⟨s1, s2, hp, hidx1, hwf1.2.1, ?_, hlive1, hq, ?_, hl.symm, ?_⟩
    · simp only [Segment.Capacity, hwf1.1, hcap]
    · simp only [Segment.Size]
      omega
    · simp only [Segment.Capacity, hwf2.1, hcap]
  · intro xs hempty hfit
    have hidx : s.index_ = 0 := by simpa [Segment.IsEmpty] using hempty
    have hlive : s.live = [] := Segment.live_eq_nil_of_IsEmpty s hempty
    obtain ⟨s1, s2, hp, _, hwf2, hlive1, hsize1, hq, hsize2, hlive2⟩ :=
      hgen xs (by simp only [Segment.Size, hidx]; omega)
    refine ⟨s1, s2, hp, by simpa [hlive] using hlive1, ?_, hq, ?_, by rw [hlive2, hlive]⟩
    · simpa [Segment.Size, hidx] using hsize1
    · simp only [Segment.Size, hidx] at hsize2
      simp [Segment.IsEmpty, hsize2]
  · intro xs hfit
    obtain ⟨s1, s2, hp, _, _, hlive1, hsize1, hq, hsize2, hlive2⟩ := hgen xs hfit
    exact ⟨s1, s2, hp, hlive1, hsize1, hq, hsize2, hlive2⟩

/-- Witness for C21: the segment made by `Create(3)`; pushing 1, 2, 3 and popping three
times gives 3, 2, 1.  On a segment holding 1 with a stale second cell, `Push(7)` then `Pop`
gives 7 and leaves 1 live. -/
theorem C21_segment_strict_lifo_witness :
    Segment.Reachable (Segment.Create 3 : Segment Nat) ∧
    ((Segment.Create 3 : Segment Nat).Size ≤ (Segment.Create 3 : Segment Nat).Capacity ∧
      (∀ e, (Segment.Create 3 : Segment Nat).IsFull = false →
        ∃ s1 s2, (Segment.Create 3 : Segment Nat).Push e = some s1 ∧
          s1.Size = (Segment.Create 3 : Segment Nat).Size + 1 ∧ s1.Size ≤ s1.Capacity ∧
          s1.Capacity = (Segment.Create 3 : Segment Nat).Capacity ∧
          s1.live = (Segment.Create 3 : Segment Nat).live ++ [e] ∧
          s1.Pop = some (e, s2) ∧ s2.Size = (Segment.Create 3 : Segment Nat).Size ∧
          s2.live = (Segment.Create 3 : Segment Nat).live ∧
          s2.Capacity = (Segment.Create 3 : Segment Nat).Capacity) ∧
      (∀ xs : List Nat, (Segment.Create 3 : Segment Nat).IsEmpty = true →
        xs.length ≤ (Segment.Create 3 : Segment Nat).Capacity →
        ∃ s1 s2, (Segment.Create 3 : Segment Nat).pushAll xs = some s1 ∧ s1.live = xs ∧
          s1.Size = xs.length ∧
          s1.popN xs.length = some (xs.reverse, s2) ∧ s2.IsEmpty = true ∧ s2.live = []) ∧
      (∀ xs : List Nat,
        (Segment.Create 3 : Segment Nat).Size + xs.length ≤
          (Segment.Create 3 : Segment Nat).Capacity →
        ∃ s1 s2, (Segment.Create 3 : Segment Nat).pushAll xs = some s1 ∧
          s1.live = (Segment.Create 3 : Segment Nat).live ++ xs ∧
          s1.Size = (Segment.Create 3 : Segment Nat).Size + xs.length ∧
          s1.popN xs.length = some (xs.reverse, s2) ∧
          s2.Size = (Segment.Create 3 : Segment Nat).Size ∧
          s2.live = (Segment.Create 3 : Segment Nat).live)) ∧
    ((Segment.Create 3 : Segment Nat).IsFull = false ∧
      (Segment.Create 3 : Segment Nat).IsEmpty = true ∧
      [1, 2, 3].length ≤ (Segment.Create 3 : Segment Nat).Capacity) ∧
    (((Segment.Create 3 : Segment Nat).pushAll [1, 2, 3]).bind (Segment.popN 3)).map
        (fun x => (x.1, x.2.live, x.2.Size)) = some ([3, 2, 1], [], 0) ∧
    ((segmentOneStale.Push 7).bind Segment.Pop).map
        (fun x => (x.1, x.2.live, x.2.Size, x.2.Capacity)) = some (7, [1], 1, 4) :=
  ⟨Segment.Reachable.create 3,
    C21_segment_strict_lifo (Segment.Create 3) (Segment.Reachable.create 3),
    by decide, by decide, by decide⟩

end Claims

end HeapBase
